import Mathlib

/-!
A shallow embedding of the OpenTab core toolchain (parser, formatter, MIDI
encoder, ASCII encoder) from the repository `homeputers/opentab`, together
with theorems settling the frozen claims about it.

Strings are modelled as `List Char` (`Str`).  JS `number` values are
modelled as `ℚ` where they arise from exact integer or decimal literals;
the doc comments of the conversion helpers state which fragment of the JS
semantics is covered.
-/

namespace OTab

attribute [local semireducible] Rat.add Rat.sub Rat.mul Rat.inv

/-- JS strings are modelled as lists of characters. -/
abbrev Str := List Char

/-- Shorthand for turning a Lean string literal into the `Str` model. -/
def lit (s : String) : Str := s.data

/-- The JS whitespace class: the characters matched by `/\s/` and trimmed by
`String.prototype.trim` (ECMA-262 WhiteSpace ∪ LineTerminator). -/
def jsWs (c : Char) : Bool :=
  c == ' ' || c == '\t' || c == '\n' || c == '\r' ||
  c.val == 0x0b || c.val == 0x0c || c.val == 0xa0 || c.val == 0x1680 ||
  (0x2000 ≤ c.val && c.val ≤ 0x200a) || c.val == 0x2028 || c.val == 0x2029 ||
  c.val == 0x202f || c.val == 0x205f || c.val == 0x3000 || c.val == 0xfeff

/-- The JS LineTerminator class: the characters *not* matched by `.` in a
regular expression without the `s` flag. -/
def jsLT (c : Char) : Bool :=
  c == '\n' || c == '\r' || c.val == 0x2028 || c.val == 0x2029

/-- Does the string contain a line terminator? -/
def hasLT (s : Str) : Bool := s.any jsLT

/-- `String.prototype.trimStart`. -/
def jsTrimStart (s : Str) : Str := s.dropWhile jsWs

/-- `String.prototype.trimEnd`. -/
def jsTrimEnd (s : Str) : Str := (s.reverse.dropWhile jsWs).reverse

/-- `String.prototype.trim`. -/
def jsTrim (s : Str) : Str := jsTrimStart (jsTrimEnd s)

/-- ASCII digit test (`/\d/`). -/
def isDigit (c : Char) : Bool := '0' ≤ c && c ≤ '9'

/-- Numeric value of a list of ASCII digits (the exact value of
`Number("<digits>")`; arbitrary precision, so astronomically long digit
strings that would lose precision as JS floats are out of scope). -/
def digitsToNat (ds : Str) : Nat :=
  ds.foldl (fun acc c => acc * 10 + (c.toNat - '0'.toNat)) 0

/-- `source.split(/\r?\n/)`: split on LF or CRLF; a lone CR stays inside its
line.  Always returns at least one line. -/
def splitLines : Str → List Str
  | [] => [[]]
  | '\r' :: '\n' :: rest => [] :: splitLines rest
  | '\n' :: rest =>
    [] :: splitLines rest
  | c :: rest =>
    match splitLines rest with
    | [] => [[c]]
    | l :: ls => (c :: l) :: ls

/-- `lines.join("\n")`. -/
def joinLines (ls : List Str) : Str := (ls.intersperse (lit "\n")).flatten

/-- Association-list lookup for string keys (JS object / `Map` read). -/
def alookup (k : Str) : List (Str × α) → Option α
  | [] => none
  | (k', v) :: rest => if k' = k then some v else alookup k rest

/-- Association-list update (JS `obj[k] = v` / `map.set`): an existing key
keeps its original position, a new key is appended. -/
def aupsert (k : Str) (v : α) : List (Str × α) → List (Str × α)
  | [] => [(k, v)]
  | (k', v') :: rest =>
    if k' = k then (k, v) :: rest else (k', v') :: aupsert k v rest

/-- Same as `aupsert` for `Nat` keys (the parser's measure `Map`). -/
def nupsert (k : Nat) (v : α) : List (Nat × α) → List (Nat × α)
  | [] => [(k, v)]
  | (k', v') :: rest =>
    if k' = k then (k, v) :: rest else (k', v') :: nupsert k v rest

/-- `Nat` association-list lookup. -/
def nlookup (k : Nat) : List (Nat × α) → Option α
  | [] => none
  | (k', v) :: rest => if k' = k then some v else nlookup k rest

section Model

/-- Duration base letters `w h q e s t` (`@opentab/ast`). -/
inductive DurBase
  | w | h | q | e | s | t
deriving DecidableEq, Repr

/-- `Duration` from `@opentab/ast`: the parser only ever sets `dots = 1`
(single `.` in the grammar) but the field is a free number in the model. -/
structure Duration where
  base : DurBase
  dots : Option Nat := none
  tuplet : Option Nat := none
deriving DecidableEq, Repr

/-- `AnnotationValue = string | number | boolean`. -/
inductive AnnVal
  | vstr (s : Str)
  | vnum (q : ℚ)
  | vbool (b : Bool)
deriving DecidableEq, Repr

/-- The annotation bag: a JS object in insertion order with unique keys. -/
abbrev AnnBag := List (Str × AnnVal)

/-- `Technique` from `@opentab/ast`, modelled as the tagged sum the TS
record with optional fields encodes: hammer-on / pull-off / slide carry
`fromFret`/`toFret`, slide also a direction (`up = true`), vibrato carries
nothing. -/
inductive Technique
  | hammerOn (fromFret toFret : Nat)
  | pullOff (fromFret toFret : Nat)
  | slide (fromFret toFret : Nat) (up : Bool)
  | vibrato
deriving DecidableEq, Repr

/-- `NoteRef`: string and fret as parsed (digit runs; the JS float model of
huge digit strings is out of scope).  The `annotations` field of the TS
interface is never populated by the parser and is omitted. -/
structure NoteRef where
  string : Nat
  fret : Nat
  inlineTechniques : Option (List Technique) := none
deriving DecidableEq, Repr

/-- `Event`: the tagged sum of note / chord / rest. -/
inductive Event
  | note (duration : Duration) (noteRef : NoteRef) (anns : Option AnnBag)
  | chord (duration : Duration) (chordNotes : List NoteRef) (anns : Option AnnBag)
  | rest (duration : Duration) (anns : Option AnnBag)
deriving DecidableEq, Repr

/-- The duration an event carries. -/
def Event.duration : Event → Duration
  | Event.note d _ _ => d
  | Event.chord d _ _ => d
  | Event.rest d _ => d

/-- TOML-subset header values produced by `parseTomlValue`. -/
inductive TomlVal
  | vstr (s : Str)
  | vbool (b : Bool)
  | vnum (q : ℚ)
  | varr (items : List TomlVal)

/-- `Track` from `@opentab/ast`.  `capo` is stored through the JS
`Number(...)` conversion; a conversion producing `NaN` is modelled as
`none` (never reached by the claims' inputs, which use integer capos). -/
structure Track where
  id : Str
  name : Option Str := none
  instrument : Option Str := none
  tuning : Option (List Str) := none
  capo : Option ℚ := none
deriving DecidableEq, Repr

/-- `TimeSignature`: the declared TS type restricts the denominator to
`1|2|4|8|16|32`, but the parser's string branch casts any parsed digits
into the field, so the embedding keeps plain `Nat`s. -/
structure TimeSignature where
  numerator : Nat
  denominator : Nat
deriving DecidableEq, Repr

/-- The normalized header produced by `normalizeHeader`: the fields the
tool chain reads, plus the raw key/value bag (which keeps unknown keys). -/
structure Header where
  tempoBpm : ℚ
  timeSignature : TimeSignature
  swing : Option Str := none
  raw : List (Str × TomlVal)

/-- `TrackMeasure`: voice id → events, in insertion order. -/
structure TrackMeasure where
  voices : List (Str × List Event)
deriving DecidableEq, Repr

/-- `Measure`: 1-based index plus track-id → `TrackMeasure`. -/
structure Measure where
  index : Nat
  tracks : List (Str × TrackMeasure)
deriving DecidableEq, Repr

/-- `OpenTabDocument` (format and version are the fixed strings
`"opentab"` / `"0.1"` after a successful parse and are not repeated
here). -/
structure ODoc where
  header : Header
  tracks : List Track
  measures : List Measure

end Model

section NumberModel

/-- The decimal fragment of the JS `Number(string)` conversion: optional
sign, integer/decimal-point digits, optional exponent; the empty (or
all-whitespace) string converts to `0`.  `none` models `NaN`.  Hexadecimal,
`Infinity` and legacy octal inputs are not modelled (no such literal occurs
in the claims' inputs; they would convert to a number where this model says
`NaN`). -/
def jsNumber (s : Str) : Option ℚ :=
  let t := jsTrim s
  if t = [] then some 0 else
  let (sign, t1) : ℚ × Str :=
    match t with
    | '+' :: r => (1, r)
    | '-' :: r => (-1, r)
    | r => (1, r)
  let ipart := t1.takeWhile isDigit
  let r1 := t1.dropWhile isDigit
  let (fpart, r2) : Str × Str :=
    match r1 with
    | '.' :: r => (r.takeWhile isDigit, r.dropWhile isDigit)
    | r => ([], r)
  let hasPoint : Bool := match r1 with | '.' :: _ => true | _ => false
  if ipart = [] ∧ (¬ hasPoint ∨ fpart = []) then none else
  let mant : ℚ := sign * (digitsToNat (ipart ++ fpart) : ℚ) / ((10 : ℚ) ^ fpart.length)
  match r2 with
  | [] => some mant
  | e :: r3 =>
    if e = 'e' ∨ e = 'E' then
      let (esign, r4) : Bool × Str :=
        match r3 with
        | '+' :: r => (true, r)
        | '-' :: r => (false, r)
        | r => (true, r)
      let edigits := r4.takeWhile isDigit
      let r5 := r4.dropWhile isDigit
      if edigits = [] ∨ r5 ≠ [] then none
      else if esign then some (mant * (10 : ℚ) ^ digitsToNat edigits)
      else some (mant / (10 : ℚ) ^ digitsToNat edigits)
    else none

/-- JS `String(value)` on header values.  Integral numbers render exactly;
non-integral numbers are outside the modelled fragment (no claim input
converts one to a string) and are rendered as their integer floor here. -/
def jsIntToStr (n : ℤ) : Str :=
  if n < 0 then '-' :: (Nat.toDigits 10 n.natAbs) else Nat.toDigits 10 n.toNat

mutual

/-- JS `String(value)` for `TomlVal` (array renders as comma-joined items,
as JS `Array.prototype.toString` does). -/
def jsToString : TomlVal → Str
  | .vstr s => s
  | .vbool b => if b then lit "true" else lit "false"
  | .vnum q => jsIntToStr ⌊q⌋
  | .varr items => ((jsToStringList items).intersperse (lit ",")).flatten

/-- `jsToString` mapped over the items of an array value. -/
def jsToStringList : List TomlVal → List Str
  | [] => []
  | v :: vs => jsToString v :: jsToStringList vs

end

/-- JS `Number(value)` for `TomlVal` (`none` = `NaN`): numbers pass
through, booleans become 0/1, strings and arrays go through the string
conversion. -/
def jsToNumber : TomlVal → Option ℚ
  | .vnum q => some q
  | .vbool b => some (if b then 1 else 0)
  | .vstr s => jsNumber s
  | v => jsNumber (jsToString v)

end NumberModel

section Parser

/-- JS `Array.prototype.findIndex` (restricted to the found/not-found
result): index tracking loop. -/
def findIdxAux (p : α → Bool) : List α → Nat → Option Nat
  | [], _ => none
  | x :: rest, i => if p x then some i else findIdxAux p rest (i + 1)

/-- First index satisfying the predicate. -/
def findIdxP (p : α → Bool) (l : List α) : Option Nat := findIdxAux p l 0

/-- `stripComment` (`src/tools/parser/src/index.ts`): a line whose trimmed
form starts with `#` becomes empty; every other line passes through. -/
def stripComment (line : Str) : Str :=
  match jsTrim line with
  | '#' :: _ => []
  | _ => line

/-- Key characters of a header line (`[A-Za-z0-9_]`). -/
def isKeyChar (c : Char) : Bool :=
  isDigit c || ('A' ≤ c && c ≤ 'Z') || ('a' ≤ c && c ≤ 'z') || c == '_'

/-- `splitCommaSeparated`: split on commas outside double quotes; every
part is trimmed, and a trailing all-whitespace part is dropped. -/
def splitCommaSeparatedAux : Str → Str → Bool → List Str
  | [], cur, _ =>
    if jsTrim cur.reverse = [] then [] else [jsTrim cur.reverse]
  | c :: rest, cur, inS =>
    let inS' := if c == '"' then !inS else inS
    if c == ',' && !inS' then
      jsTrim cur.reverse :: splitCommaSeparatedAux rest [] inS'
    else splitCommaSeparatedAux rest (c :: cur) inS'

/-- `splitCommaSeparated(value)`. -/
def splitCommaSeparated (value : Str) : List Str :=
  splitCommaSeparatedAux value [] false

/-- Does the string start with `"` and end with `"` (a one-character `"`
satisfies both, exactly as the JS `startsWith`/`endsWith` pair does)? -/
def quotedShape (t : Str) : Bool :=
  t.head? == some '"' && t.getLast? == some '"'

/-- `parseTomlValue`, with explicit recursion fuel for the nested array
case; the top-level wrapper passes the string length, which always
suffices because array items are strict substrings. -/
def parseTomlValueF : Nat → Str → TomlVal
  | 0, raw => .vstr (jsTrim raw)
  | fuel + 1, raw =>
    let t := jsTrim raw
    if quotedShape t then .vstr ((t.drop 1).dropLast)
    else if t = lit "true" then .vbool true
    else if t = lit "false" then .vbool false
    else if t.head? == some '[' && t.getLast? == some ']' then
      let inner := jsTrim ((t.drop 1).dropLast)
      if inner = [] then .varr []
      else .varr ((splitCommaSeparated inner).map
        (fun v => parseTomlValueF fuel (jsTrim v)))
    else
      match jsNumber t with
      | some q => .vnum q
      | none => .vstr t

/-- `parseTomlValue(raw)`. -/
def parseTomlValue (raw : Str) : TomlVal := parseTomlValueF raw.length raw

/-- `Partial<Track>` accumulated under a `[[tracks]]` table. -/
structure TrackCand where
  id : Option Str := none
  name : Option Str := none
  instrument : Option Str := none
  tuning : Option (List Str) := none
  capo : Option ℚ := none

/-- `buildTrack`: a candidate without an id (or with the falsy empty-string
id) is rejected. -/
def buildTrack (cand : TrackCand) : Except Str Track :=
  match cand.id with
  | none => .error (lit "Track definition missing id")
  | some [] => .error (lit "Track definition missing id")
  | some i => .ok ⟨i, cand.name, cand.instrument, cand.tuning, cand.capo⟩

/-- Fold state of `parseHeader`. -/
structure HeaderState where
  format : Option Str := none
  version : Option Str := none
  raw : List (Str × TomlVal) := []
  tracks : List Track := []
  current : Option TrackCand := none

/-- Match a trimmed header line against `^([A-Za-z0-9_]+)\s*=\s*(.+)$`
(the `.` class excludes line terminators, so a stray `\r` inside the value
makes the line invalid). Returns key and raw value text. -/
def matchHeaderLine (line : Str) : Option (Str × Str) :=
  let key := line.takeWhile isKeyChar
  let rest := line.dropWhile isKeyChar
  if key = [] then none else
  match jsTrimStart rest with
  | '=' :: afterEq =>
    let value := jsTrimStart afterEq
    if value = [] || hasLT value then none else some (key, value)
  | _ => none

/-- Apply one key/value pair to a `Partial<Track>` under `[[tracks]]`. -/
def applyTrackKey (cand : TrackCand) (key : Str) (value : TomlVal) : TrackCand :=
  if key = lit "id" then { cand with id := some (jsToString value) }
  else if key = lit "name" then { cand with name := some (jsToString value) }
  else if key = lit "instrument" then
    { cand with instrument := some (jsToString value) }
  else if key = lit "tuning" then
    { cand with tuning :=
        match value with
        | .varr items => some (items.map jsToString)
        | _ => none }
  else if key = lit "capo" then { cand with capo := jsToNumber value }
  else cand

/-- One line of `parseHeader`'s loop. -/
def parseHeaderLine (st : HeaderState) (rawLine : Str) : Except Str HeaderState :=
  let line := jsTrim (stripComment rawLine)
  if line = [] then .ok st
  else if line = lit "[[tracks]]" then
    match st.current with
    | some cand =>
      match buildTrack cand with
      | .error e => .error e
      | .ok t => .ok { st with tracks := st.tracks ++ [t], current := some {} }
    | none => .ok { st with current := some {} }
  else
    match matchHeaderLine line with
    | none => .error (lit "Invalid header line: " ++ line)
    | some (key, valueRaw) =>
      let value := parseTomlValue valueRaw
      match st.current with
      | some cand => .ok { st with current := some (applyTrackKey cand key value) }
      | none =>
        if key = lit "format" then .ok { st with format := some (jsToString value) }
        else if key = lit "version" then .ok { st with version := some (jsToString value) }
        else .ok { st with raw := aupsert key value st.raw }

/-- The line fold of `parseHeader`. -/
def parseHeaderLines : List Str → HeaderState → Except Str HeaderState
  | [], st => .ok st
  | l :: rest, st =>
    match parseHeaderLine st l with
    | .error e => .error e
    | .ok st' => parseHeaderLines rest st'

/-- `parseHeader(lines)`. -/
def parseHeader (lines : List Str) : Except Str HeaderState :=
  match parseHeaderLines lines {} with
  | .error e => .error e
  | .ok st =>
    match st.current with
    | some cand =>
      match buildTrack cand with
      | .error e => .error e
      | .ok t => .ok { st with tracks := st.tracks ++ [t], current := none }
    | none => .ok st

/-- `parseTimeSignature` on a string: `^(\d+)\/(\d+)$`.  Note that the
denominator is *not* checked against `{1,2,4,8,16,32}` on this path. -/
def parseTimeSigStr (s : Str) : Option TimeSignature :=
  let d1 := s.takeWhile isDigit
  match s.dropWhile isDigit with
  | '/' :: rest =>
    let d2 := rest.takeWhile isDigit
    if d1 ≠ [] && d2 ≠ [] && rest.dropWhile isDigit = [] then
      some ⟨digitsToNat d1, digitsToNat d2⟩
    else none
  | _ => none

/-- `normalizeTimeSignature`.  Through `parseOpenTab` only the string branch
is reachable: `parseTomlValue` never produces a JS object, so the source's
object branch (the only place the denominator set is enforced) is dead code
there and every non-string value falls through to the error. -/
def normalizeTimeSignature (value : TomlVal) : Except Str TimeSignature :=
  match value with
  | .vstr s =>
    match parseTimeSigStr s with
    | some ts => .ok ts
    | none => .error (lit "Invalid time signature: " ++ s)
  | _ => .error (lit "Invalid time signature value")

/-- The six header fields `normalizeHeader` requires to be strings. -/
def stringFields : List Str :=
  [lit "title", lit "artist", lit "album", lit "composer",
   lit "source", lit "copyright"]

/-- Is a present header field a non-string (which `normalizeHeader`
rejects)? -/
def badStringField (raw : List (Str × TomlVal)) (field : Str) : Bool :=
  match alookup field raw with
  | some (.vstr _) => false
  | some _ => true
  | none => false

/-- The `tempo_bpm` normalization of `normalizeHeader`. -/
def normalizeTempo (raw : List (Str × TomlVal)) : Except Str ℚ :=
  match alookup (lit "tempo_bpm") raw with
  | none => .ok 120
  | some (.vnum q) => if q < 1 then .error (lit "Invalid tempo_bpm") else .ok q
  | some _ => .error (lit "Invalid tempo_bpm")

/-- The `swing` normalization of `normalizeHeader`. -/
def normalizeSwing (raw : List (Str × TomlVal)) : Except Str (Option Str) :=
  match alookup (lit "swing") raw with
  | none => .ok none
  | some (.vstr s) =>
    if s = lit "none" ∨ s = lit "eighth" then .ok (some s)
    else .error (lit "Invalid swing value")
  | some _ => .error (lit "Invalid swing value")

/-- `normalizeHeader(raw)`. -/
def normalizeHeader (raw : List (Str × TomlVal)) : Except Str Header :=
  match stringFields.find? (badStringField raw) with
  | some f => .error (lit "Invalid header field: " ++ f)
  | none =>
    match normalizeTempo raw with
    | .error e => .error e
    | .ok tempo =>
      match (match alookup (lit "time_signature") raw with
             | none => .ok ⟨4, 4⟩
             | some v => normalizeTimeSignature v : Except Str TimeSignature) with
      | .error e => .error e
      | .ok ts =>
        match normalizeSwing raw with
        | .error e => .error e
        | .ok swing => .ok ⟨tempo, ts, swing, raw⟩

/-- Duration base letter lookup. -/
def durBaseOf (c : Char) : Option DurBase :=
  if c = 'w' then some .w else if c = 'h' then some .h
  else if c = 'q' then some .q else if c = 'e' then some .e
  else if c = 's' then some .s else if c = 't' then some .t else none

/-- `parseDuration(token)`: `^([whqest])(\.)?(?:\/(\d+))?$`.  Shared
verbatim between the parser and the formatter (the two source files carry
identical copies). -/
def parseDuration (tok : Str) : Option Duration :=
  match tok with
  | [] => none
  | b :: rest =>
    match durBaseOf b with
    | none => none
    | some base =>
      let (dots, r2) : Option Nat × Str :=
        match rest with
        | '.' :: r => (some 1, r)
        | r => (none, r)
      match r2 with
      | [] => some ⟨base, dots, none⟩
      | '/' :: r3 =>
        let ds := r3.takeWhile isDigit
        if ds ≠ [] && r3.dropWhile isDigit = [] then
          some ⟨base, dots, some (digitsToNat ds)⟩
        else none
      | _ => none

/-- Opening bracket characters of `splitTokens`. -/
def isOpenB (c : Char) : Bool := c == '[' || c == '(' || c == '{'

/-- Closing bracket characters of `splitTokens`. -/
def isCloseB (c : Char) : Bool := c == ']' || c == ')' || c == '}'

/-- One step of the bracket-depth counter; `Nat` subtraction models the
source's `Math.max(0, depth - 1)` clamp. -/
def depthStep (d : Nat) (c : Char) : Nat :=
  if isOpenB c then d + 1 else if isCloseB c then d - 1 else d

/-- `splitTokens`' character loop; `cur` is the current token reversed. -/
def splitTokensAux : Str → Str → Nat → List Str
  | [], cur, _ => if cur = [] then [] else [cur.reverse]
  | c :: rest, cur, d =>
    let d' := depthStep d c
    if d' = 0 && jsWs c then
      if cur = [] then splitTokensAux rest [] 0
      else cur.reverse :: splitTokensAux rest [] 0
    else splitTokensAux rest (c :: cur) d'

/-- `splitTokens(content)`: whitespace splits only at bracket depth 0.
The source's final `filter(length > 0)` is a no-op (emitted tokens are
never empty) and is omitted. -/
def splitTokens (content : Str) : List Str := splitTokensAux content [] 0

/-- `splitAnnotations`' scan: find the first `{` at paren/bracket depth 0;
`{`/`}` themselves do not count toward this depth. -/
def splitAnnAux : Str → Str → Nat → Str × Option Str
  | [], seen, _ => (seen.reverse, none)
  | c :: rest, seen, d =>
    if c == '[' || c == '(' then splitAnnAux rest (c :: seen) (d + 1)
    else if c == ']' || c == ')' then splitAnnAux rest (c :: seen) (d - 1)
    else if c == '{' && d == 0 then (seen.reverse, some (c :: rest))
    else splitAnnAux rest (c :: seen) d

/-- `splitAnnotations(token)`: main part and the `{...` suffix, if any. -/
def splitAnnPart (tok : Str) : Str × Option Str := splitAnnAux tok [] 0

/-- `parseAnnotationValue(raw)`. -/
def parseAnnValue (raw : Str) : AnnVal :=
  let t := jsTrim raw
  if quotedShape t then .vstr ((t.drop 1).dropLast)
  else if t = lit "true" then .vbool true
  else if t = lit "false" then .vbool false
  else
    match jsNumber t with
    | some q => .vnum q
    | none => .vstr t

/-- JS `String.prototype.split(sep)` for a single-character separator. -/
def splitOnChar (sep : Char) : Str → List Str
  | [] => [[]]
  | c :: rest =>
    if c = sep then [] :: splitOnChar sep rest
    else
      match splitOnChar sep rest with
      | [] => [[c]]
      | l :: ls => (c :: l) :: ls

/-- JS `Array.prototype.join(sep)` over strings. -/
def joinChar (sep : Char) (parts : List Str) : Str :=
  (parts.intersperse [sep]).flatten

/-- One annotation entry: split on `=`, skip when the key part is empty or
there is no `=`, otherwise upsert the parsed value. -/
def parseAnnEntry (bag : AnnBag) (entry : Str) : AnnBag :=
  match splitOnChar '=' entry with
  | [] => bag
  | keyPart :: rest =>
    if keyPart = [] ∨ rest = [] then bag
    else
      let key := jsTrim keyPart
      let valueRaw := jsTrim (joinChar '=' rest)
      aupsert key (parseAnnValue valueRaw) bag

/-- `parseAnnotations(raw)`: `undefined` in, or not `{...}`-shaped, or an
empty bag out, all yield `undefined`. -/
def parseAnnBag (raw : Option Str) : Option AnnBag :=
  match raw with
  | none => none
  | some r =>
    if r = [] then none else
    let t := jsTrim r
    if t.head? == some '{' && t.getLast? == some '}' then
      let inner := jsTrim ((t.drop 1).dropLast)
      if inner = [] then none
      else
        let bag := (splitCommaSeparated inner).foldl parseAnnEntry []
        if bag = [] then none else some bag
    else none

/-- The technique-chain loop of `parseNoteRef`: `cur` is the running fret,
built left to right, each fret becoming the source of the next link;
vibrato consumes no fret.  The fuel argument makes the recursion
structural (each step consumes at least one character, so fuel equal to
the string length, as `parseTechChain` passes, never runs out). -/
def parseTechChainF (raw : Str) : Nat → Nat → Str → Except Str (List Technique)
  | _, _, [] => .ok []
  | 0, _, _ :: _ => .ok []
  | fuel + 1, cur, op :: rest =>
    if op = '~' then
      match parseTechChainF raw fuel cur rest with
      | .error e => .error e
      | .ok ts => .ok (Technique.vibrato :: ts)
    else if op = 'h' ∨ op = 'p' ∨ op = '/' ∨ op = '\\' then
      let ds := rest.takeWhile isDigit
      if ds = [] then .error (lit "Technique missing fret in note: " ++ raw)
      else
        let nf := digitsToNat ds
        let tech : Technique :=
          if op = 'h' then .hammerOn cur nf
          else if op = 'p' then .pullOff cur nf
          else .slide cur nf (op = '/')
        match parseTechChainF raw fuel nf (rest.dropWhile isDigit) with
        | .error e => .error e
        | .ok ts => .ok (tech :: ts)
    else .error (lit "Unknown technique in note: " ++ raw)

/-- The technique-chain loop with its canonical fuel. -/
def parseTechChain (raw : Str) (cur : Nat) (s : Str) :
    Except Str (List Technique) :=
  parseTechChainF raw s.length cur s

/-- `parseNoteRef(raw)`: `^(\d+):(.+)$`, fret digits, then the technique
chain.  The stored fret is the *first* fret of the chain. -/
def parseNoteRef (raw : Str) : Except Str NoteRef :=
  let ds := raw.takeWhile isDigit
  match raw.dropWhile isDigit with
  | ':' :: rest =>
    if ds = [] ∨ rest = [] ∨ hasLT rest then
      .error (lit "Invalid note reference: " ++ raw)
    else
      let fds := rest.takeWhile isDigit
      if fds = [] then .error (lit "Invalid fret in note reference: " ++ raw)
      else
        match parseTechChain raw (digitsToNat fds) (rest.dropWhile isDigit) with
        | .error e => .error e
        | .ok techs =>
          .ok ⟨digitsToNat ds, digitsToNat fds,
            if techs = [] then none else some techs⟩
  | _ => .error (lit "Invalid note reference: " ++ raw)

/-- Take the run before the first `)`: `some (content, tail)` when the
input is `content ++ ')' :: tail` with `content` free of `)`. -/
def parenTake : Str → Option (Str × Str)
  | [] => none
  | ')' :: tail => some ([], tail)
  | c :: rest =>
    match parenTake rest with
    | none => none
    | some (content, tail) => some (c :: content, tail)

/-- The `matchAll(/\(([^)]+)\)/g)` scan of `parseChord`: all non-empty
parenthesized runs without a closing paren inside.  An empty `()` makes the
regex fail at that `(` and the engine advance one position, which is the
`chordNoteMatches rest` call; a missing `)` ends the scan. -/
def chordNoteMatchesF : Nat → Str → List Str
  | _, [] => []
  | 0, _ :: _ => []
  | fuel + 1, c :: rest =>
    if c = '(' then
      match parenTake rest with
      | none => []
      | some ([], _) => chordNoteMatchesF fuel rest
      | some (content, tail) => content :: chordNoteMatchesF fuel tail
    else chordNoteMatchesF fuel rest

/-- The chord-note scan with its canonical fuel. -/
def chordNoteMatches (s : Str) : List Str := chordNoteMatchesF s.length s

/-- `parseNoteRef` over each chord note match, failing on the first
error. -/
def parseNoteRefs : List Str → Except Str (List NoteRef)
  | [] => .ok []
  | s :: rest =>
    match parseNoteRef s with
    | .error e => .error e
    | .ok nr =>
      match parseNoteRefs rest with
      | .error e => .error e
      | .ok nrs => .ok (nr :: nrs)

/-- `parseChord(token)`. -/
def parseChord (tok : Str) : Except Str (List NoteRef × Option AnnBag) :=
  let (main, ann) := splitAnnPart tok
  if main.head? == some '[' && main.getLast? == some ']' then
    match parseNoteRefs (chordNoteMatches (jsTrim ((main.drop 1).dropLast))) with
    | .error e => .error e
    | .ok notes =>
      if notes = [] then .error (lit "Chord has no notes: " ++ tok)
      else .ok (notes, parseAnnBag ann)
  else .error (lit "Invalid chord token: " ++ tok)

/-- `parseRest(token)`. -/
def parseRest (tok : Str) : Except Str (Option AnnBag) :=
  let (main, ann) := splitAnnPart tok
  if main = lit "r" then .ok (parseAnnBag ann)
  else .error (lit "Invalid rest token: " ++ tok)

/-- `parseNote(token)`. -/
def parseNote (tok : Str) : Except Str (NoteRef × Option AnnBag) :=
  let (main, ann) := splitAnnPart tok
  if main.head? == some '(' && main.getLast? == some ')' then
    match parseNoteRef ((main.drop 1).dropLast) with
    | .error e => .error e
    | .ok note => .ok (note, parseAnnBag ann)
  else .error (lit "Invalid note token: " ++ tok)

/-- The token loop of `parseMeasureLine`: a duration token replaces the
carried duration and emits nothing; every event token requires a carried
duration.  Each measure line starts this loop with `none` — duration never
carries across measure boundaries. -/
def measureTokensToEvents (idx : Nat) :
    List Str → Option Duration → Except Str (List Event)
  | [], _ => .ok []
  | tok :: rest, cur =>
    match parseDuration tok with
    | some d => measureTokensToEvents idx rest (some d)
    | none =>
      match cur with
      | none =>
        .error (lit "Missing duration before token \"" ++ tok ++
          lit "\" in measure " ++ Nat.toDigits 10 idx)
      | some d =>
        match tok with
        | 'r' :: _ =>
          match parseRest tok with
          | .error e => .error e
          | .ok anns =>
            match measureTokensToEvents idx rest (some d) with
            | .error e => .error e
            | .ok evs => .ok (Event.rest d anns :: evs)
        | '[' :: _ =>
          match parseChord tok with
          | .error e => .error e
          | .ok (notes, anns) =>
            match measureTokensToEvents idx rest (some d) with
            | .error e => .error e
            | .ok evs => .ok (Event.chord d notes anns :: evs)
        | '(' :: _ =>
          match parseNote tok with
          | .error e => .error e
          | .ok (note, anns) =>
            match measureTokensToEvents idx rest (some d) with
            | .error e => .error e
            | .ok evs => .ok (Event.note d note anns :: evs)
        | _ => .error (lit "Unknown token: " ++ tok)

/-- Split `r` at its last pipe: succeeds when the last non-whitespace
character of `r` is `|`, returning everything before it.  This is how both
measure-line regexes resolve their closing `\|\s*$`. -/
def lastPipeSplit (r : Str) : Option Str :=
  match r.reverse.dropWhile jsWs with
  | '|' :: before => some before.reverse
  | _ => none

/-- Shared shape of the two measure-line regexes: `m`, digits, `:`,
whitespace, `|`, then everything up to the last pipe (whose tail must be
whitespace).  Returns the digits and the raw text between the pipes. -/
def matchMeasureCore (line : Str) : Option (Str × Str) :=
  match line with
  | 'm' :: rest =>
    let ds := rest.takeWhile isDigit
    if ds = [] then none else
    match rest.dropWhile isDigit with
    | ':' :: rest3 =>
      match jsTrimStart rest3 with
      | '|' :: r =>
        match lastPipeSplit r with
        | some between => some (ds, between)
        | none => none
      | _ => none
    | _ => none
  | _ => none

/-- The parser's measure regex `^m(\d+):\s*\|(.*)\|\s*$`: the `(.*)` group
cannot cross a line terminator, so the whole between-pipes text must be
free of them. -/
def matchMeasureParser (line : Str) : Option (Str × Str) :=
  match matchMeasureCore line with
  | some (ds, between) => if hasLT between then none else some (ds, between)
  | none => none

/-- `parseMeasureLine(line, state, measureMap)`: returns the updated
measure map. -/
def parseMeasureLine (line : Str) (state : Option (Str × Str))
    (mmap : List (Nat × Measure)) : Except Str (List (Nat × Measure)) :=
  match matchMeasureParser line with
  | none => .error (lit "Invalid measure line: " ++ line)
  | some (ds, between) =>
    match state with
    | none =>
      .error (lit "Measure defined before selecting track/voice: " ++ line)
    | some (tid, vid) =>
      let idx := digitsToNat ds
      let content := jsTrim between
      let tokens := if content = [] then [] else splitTokens content
      match measureTokensToEvents idx tokens none with
      | .error e => .error e
      | .ok events =>
        let measure := (nlookup idx mmap).getD ⟨idx, []⟩
        let tm := (alookup tid measure.tracks).getD ⟨[]⟩
        let tm' : TrackMeasure := ⟨aupsert vid events tm.voices⟩
        let measure' : Measure := ⟨idx, aupsert tid tm' measure.tracks⟩
        .ok (nupsert idx measure' mmap)

/-- Whitespace-run word splitting (used to resolve the directive regex
`^@track\s+(\S+)(?:\s+voice\s+(\S+))?$` deterministically on a trimmed
line). -/
def wordsAux : Str → Str → List Str
  | [], cur => if cur = [] then [] else [cur.reverse]
  | c :: rest, cur =>
    if jsWs c then
      if cur = [] then wordsAux rest [] else cur.reverse :: wordsAux rest []
    else wordsAux rest (c :: cur)

/-- Split a string into its maximal non-whitespace runs. -/
def words (s : Str) : List Str := wordsAux s []

/-- `parseDirective(line, state)`: `@track T` or `@track T voice V`. -/
def parseDirective (line : Str) : Except Str (Str × Str) :=
  match words line with
  | [t0, t] =>
    if t0 = lit "@track" then .ok (t, lit "v1")
    else .error (lit "Invalid directive: " ++ line)
  | [t0, t, w, v] =>
    if t0 = lit "@track" ∧ w = lit "voice" then .ok (t, v)
    else .error (lit "Invalid directive: " ++ line)
  | _ => .error (lit "Invalid directive: " ++ line)

/-- The body loop of `parseOpenTab`: blank and comment lines are skipped,
`@track` lines update the sticky (track, voice) state, `m`-prefixed lines
are measure lines, anything else is an error. -/
def parseBodyAux : List Str → Option (Str × Str) → List (Nat × Measure) →
    Except Str (List (Nat × Measure))
  | [], _, mmap => .ok mmap
  | rawLine :: rest, st, mmap =>
    let stripped := jsTrim (stripComment rawLine)
    if stripped = [] then parseBodyAux rest st mmap
    else if stripped.take 6 = lit "@track" then
      match parseDirective stripped with
      | .error e => .error e
      | .ok sv => parseBodyAux rest (some sv) mmap
    else if stripped.head? = some 'm' then
      match parseMeasureLine stripped st mmap with
      | .error e => .error e
      | .ok mmap' => parseBodyAux rest st mmap'
    else .error (lit "Unknown line in body: " ++ stripped)

/-- Insertion sort (stable) by measure index, modelling the final
`Array.prototype.sort((a, b) => a.index - b.index)`; measure-map keys are
unique, so any comparison sort produces this order. -/
def insertMeasure (m : Measure) : List Measure → List Measure
  | [] => [m]
  | x :: xs => if m.index ≤ x.index then m :: x :: xs else x :: insertMeasure m xs

/-- Sort measures ascending by index. -/
def sortMeasures : List Measure → List Measure
  | [] => []
  | x :: xs => insertMeasure x (sortMeasures xs)

/-- `parseOpenTab(source)`: the whole pipeline. -/
def parseOpenTab (source : Str) : Except Str ODoc :=
  let lines := splitLines source
  match findIdxP (fun l => jsTrim l = lit "---") lines with
  | none => .error (lit "Missing header delimiter \"---\"")
  | some delimIdx =>
    match parseHeader (lines.take delimIdx) with
    | .error e => .error e
    | .ok ph =>
      if ph.format ≠ some (lit "opentab") then .error (lit "Unsupported format")
      else if ph.version ≠ some (lit "0.1") then .error (lit "Unsupported version")
      else
        match normalizeHeader ph.raw with
        | .error e => .error e
        | .ok header =>
          match parseBodyAux (lines.drop (delimIdx + 1)) none [] with
          | .error e => .error e
          | .ok mmap => .ok ⟨header, ph.tracks, sortMeasures (mmap.map Prod.snd)⟩

end Parser

section Formatter

/-- The base letter of a duration. -/
def durBaseChar : DurBase → Char
  | .w => 'w' | .h => 'h' | .q => 'q' | .e => 'e' | .s => 's' | .t => 't'

/-- `formatDuration(duration)` (`src/tools/formatter/src/index.ts`); the JS
truthiness tests make `dots = 0` and `tuplet = 0` render as absent. -/
def formatDuration (d : Duration) : Str :=
  let dot : Str := match d.dots with
    | some n => if n ≠ 0 then ['.'] else []
    | none => []
  let tup : Str := match d.tuplet with
    | some n => if n ≠ 0 then '/' :: Nat.toDigits 10 n else []
    | none => []
  durBaseChar d.base :: dot ++ tup

/-- The token loop of `normalizeMeasureTokens`: a duration token updates
the carried duration silently; an event token is emitted behind a copy of
the carried duration (or bare, when none has been seen). -/
def normTokensAux (cur : Option Duration) : List Str → List Str
  | [] => []
  | tok :: rest =>
    match parseDuration tok with
    | some d => normTokensAux (some d) rest
    | none =>
      match cur with
      | some d => formatDuration d :: tok :: normTokensAux (some d) rest
      | none => tok :: normTokensAux none rest

/-- `normalizeMeasureTokens(content)`. -/
def normalizeMeasureTokens (content : Str) : Str :=
  let toks := splitTokens (jsTrim content)
  if toks = [] then [] else joinChar ' ' (normTokensAux none toks)

/-- The formatter's measure regex `^\s*m(\d+):\s*\|\s*(.*?)\s*\|\s*$`:
leading whitespace is allowed and the lazy content group together with its
whitespace flanks amounts to trimming the between-pipes text, which (but
not its trimmed-off flanks) must be free of line terminators. -/
def matchMeasureFmt (line : Str) : Option (Str × Str) :=
  match matchMeasureCore (jsTrimStart line) with
  | some (ds, between) =>
    let content := jsTrim between
    if hasLT content then none else some (ds, content)
  | none => none

/-- `formatMeasureLine(line)`. -/
def formatMeasureLine (line : Str) : Option Str :=
  match matchMeasureFmt line with
  | none => none
  | some (ds, content) =>
    let normalized := normalizeMeasureTokens content
    let toks : Str := if normalized = [] then [' '] else ' ' :: (normalized ++ [' '])
    some ('m' :: ds ++ (':' :: ' ' :: '|' :: toks) ++ ['|'])

/-- Break a string at its first `#` (JS `indexOf("#")`). -/
def breakAtHash : Str → Option (Str × Str)
  | [] => none
  | c :: r =>
    if c = '#' then some ([], c :: r)
    else
      match breakAtHash r with
      | none => none
      | some (b, a) => some (c :: b, a)

/-- `splitInlineComment(line)`: content before the first `#` and the
comment from it on. -/
def splitInlineComment (line : Str) : Str × Option Str :=
  match breakAtHash line with
  | none => (line, none)
  | some (b, a) => (b, some a)

/-- Is a line blank after trimming? -/
def isBlankLine (l : Str) : Bool := jsTrim l = []

/-- `trimTrailingBlankLines(lines)`. -/
def trimTrailingBlank (ls : List Str) : List Str :=
  (ls.reverse.dropWhile isBlankLine).reverse

/-- `trimLeadingBlankLines(lines)`. -/
def trimLeadingBlank (ls : List Str) : List Str := ls.dropWhile isBlankLine

/-- `formatBodyLine(line)`. -/
def formatBodyLine (line : Str) : Str :=
  let tl := jsTrimEnd line
  if (jsTrim tl).head? = some '#' then tl
  else
    let (content, comment) := splitInlineComment tl
    match formatMeasureLine content with
    | none => tl
    | some fm =>
      match comment with
      | none => fm
      | some cm => fm ++ [' '] ++ jsTrimEnd cm

/-- `formatOtab(input)`. -/
def formatOtab (input : Str) : Str :=
  let lines := splitLines input
  match findIdxP (fun l => jsTrim l = lit "---") lines with
  | none => joinLines (lines.map jsTrimEnd)
  | some delimIdx =>
    let headerLines := trimTrailingBlank ((lines.take delimIdx).map jsTrimEnd)
    let bodyLines := trimLeadingBlank (lines.drop (delimIdx + 1))
    let body := bodyLines.map formatBodyLine
    joinLines ((headerLines ++ ([] : Str) :: (lit "---") :: ([] : Str) :: body).map jsTrimEnd)

end Formatter

section Midi

/-- `DEFAULT_TUNING` of the MIDI converter. -/
def defaultTuning : List Str :=
  [lit "E2", lit "A2", lit "D3", lit "G3", lit "B3", lit "E4"]

/-- JS `Math.round` (half-up, also for negatives: `round(x) = ⌊x + 1/2⌋`). -/
def jsRound (q : ℚ) : ℤ := ⌊q + 1 / 2⌋

/-- The dotted-duration factor loop of `durationToTicks`:
`1 + 1/2 + ⋯ + (1/2)^dots`. -/
def dotFactor : Nat → ℚ
  | 0 => 1
  | n + 1 => dotFactor n + (1 / 2) ^ (n + 1)

/-- `durationToTicks(duration)` with the fixed `PPQ = 480`: base ticks
times the dot factor, times `2/tuplet` when a (truthy) tuplet is set,
rounded to nearest with a minimum of 1.  JS float arithmetic is modelled
as exact rational arithmetic. -/
def durationToTicks (d : Duration) : ℤ :=
  let baseTicks : ℚ := match d.base with
    | .w => 480 * 4
    | .h => 480 * 2
    | .q => 480
    | .e => 480 / 2
    | .s => 480 / 4
    | .t => 480 / 8
  let ticks1 := baseTicks * dotFactor (match d.dots with | some n => n | none => 0)
  let ticks2 : ℚ := match d.tuplet with
    | some t => if t ≠ 0 then ticks1 * (2 / (t : ℚ)) else ticks1
    | none => ticks1
  max 1 (jsRound ticks2)

/-- `parsePitch(note)`: `^([A-Ga-g])([#b]?)(-?\d+)$` on the trimmed text,
then `(octave+1)*12 + base + accidental`, `null` outside `0..127`. -/
def parsePitch (note : Str) : Option ℤ :=
  match jsTrim note with
  | [] => none
  | letter :: rest =>
    let base : Option ℤ :=
      if letter = 'C' ∨ letter = 'c' then some 0
      else if letter = 'D' ∨ letter = 'd' then some 2
      else if letter = 'E' ∨ letter = 'e' then some 4
      else if letter = 'F' ∨ letter = 'f' then some 5
      else if letter = 'G' ∨ letter = 'g' then some 7
      else if letter = 'A' ∨ letter = 'a' then some 9
      else if letter = 'B' ∨ letter = 'b' then some 11
      else none
    match base with
    | none => none
    | some b =>
      let (acc, rest2) : ℤ × Str :=
        match rest with
        | '#' :: r => (1, r)
        | 'b' :: r => (-1, r)
        | r => (0, r)
      let (neg, rest3) : Bool × Str :=
        match rest2 with
        | '-' :: r => (true, r)
        | r => (false, r)
      let ds := rest3.takeWhile isDigit
      if ds = [] ∨ rest3.dropWhile isDigit ≠ [] then none
      else
        let octave : ℤ := if neg then -(digitsToNat ds : ℤ) else (digitsToNat ds : ℤ)
        let midi := (octave + 1) * 12 + b + acc
        if midi < 0 ∨ midi > 127 then none else some midi

/-- `resolveStringPitch(track, noteRef)`: index `tuning[string - 1]`
(low-to-high declaration order, so string 1 is the *first* tuning entry),
add fret and capo, drop pitches outside `0..127`. -/
def resolveStringPitch (track : Track) (nr : NoteRef) : Option ℚ :=
  let tuning := track.tuning.getD defaultTuning
  let idx : ℤ := (nr.string : ℤ) - 1
  if idx < 0 ∨ idx ≥ (tuning.length : ℤ) then none
  else
    match parsePitch (tuning.getD idx.toNat []) with
    | none => none
    | some basePitch =>
      let capo : ℚ := track.capo.getD 0
      let pitch : ℚ := (basePitch : ℚ) + (nr.fret : ℚ) + capo
      if pitch < 0 ∨ pitch > 127 then none else some pitch

/-- The per-track event stream before delta conversion (`MidiEvent` in the
source: note events plus the two metas). -/
inductive MidiEvent
  | noteOn (tick : ℚ) (noteNumber : ℚ) (channel : Nat) (velocity : Nat)
  | noteOff (tick : ℚ) (noteNumber : ℚ) (channel : Nat) (velocity : Nat)
  | tempo (tick : ℚ)
  | timeSignature (tick : ℚ)
deriving DecidableEq, Repr

/-- Scheduled tick of an event. -/
def MidiEvent.tick : MidiEvent → ℚ
  | .noteOn t _ _ _ => t
  | .noteOff t _ _ _ => t
  | .tempo t => t
  | .timeSignature t => t

/-- `sortWeight`: metas 0, note-offs 1, note-ons 2. -/
def sortWeight : MidiEvent → Nat
  | .tempo _ => 0
  | .timeSignature _ => 0
  | .noteOff _ _ _ _ => 1
  | .noteOn _ _ _ _ => 2

/-- One voice of one measure: emits note-on/off pairs and advances the
voice cursor by each event's tick duration (rests and dropped pitches
advance it too). -/
def voiceNotes (track : Track) (channel : Nat) :
    ℚ → List Event → List MidiEvent × ℚ
  | cursor, [] => ([], cursor)
  | cursor, ev :: rest =>
    let dt : ℚ := (durationToTicks ev.duration : ℚ)
    let here : List MidiEvent :=
      match ev with
      | .rest _ _ => []
      | .note _ nr _ =>
        match resolveStringPitch track nr with
        | some p => [.noteOn cursor p channel 64, .noteOff (cursor + dt) p channel 64]
        | none => []
      | .chord _ nrs _ =>
        nrs.flatMap (fun nr =>
          match resolveStringPitch track nr with
          | some p => [.noteOn cursor p channel 64, .noteOff (cursor + dt) p channel 64]
          | none => [])
    (here ++ (voiceNotes track channel (cursor + dt) rest).1,
      (voiceNotes track channel (cursor + dt) rest).2)

/-- All voices of one measure: each voice starts at the measure start; the
result tracks the farthest voice end (`maxVoiceEnd`). -/
def measureNotes (track : Track) (channel : Nat) (measureStart : ℚ) :
    List (Str × List Event) → List MidiEvent × ℚ
  | [] => ([], measureStart)
  | (_, evs) :: restVoices =>
    ((voiceNotes track channel measureStart evs).1 ++
        (measureNotes track channel measureStart restVoices).1,
      max (voiceNotes track channel measureStart evs).2
        (measureNotes track channel measureStart restVoices).2)

/-- The measure loop of `collectNotes`: a missing track-measure advances
the cursor by `expected`; otherwise the measure occupies
`max(expected, longest voice span)`.  Returns the events and the final
measure-start cursor. -/
def collectNotesAux (track : Track) (channel : Nat) (expected : ℚ) :
    ℚ → List Measure → List MidiEvent × ℚ
  | measureStart, [] => ([], measureStart)
  | measureStart, m :: rest =>
    match alookup track.id m.tracks with
    | none => collectNotesAux track channel expected (measureStart + expected) rest
    | some tm =>
      let measureLength :=
        max expected ((measureNotes track channel measureStart tm.voices).2 - measureStart)
      ((measureNotes track channel measureStart tm.voices).1 ++
          (collectNotesAux track channel expected (measureStart + measureLength) rest).1,
        (collectNotesAux track channel expected (measureStart + measureLength) rest).2)

/-- `expectedMeasureTicks = PPQ * numerator * (4 / denominator)` (exact
rational arithmetic; the degenerate denominator 0, which JS turns into
`Infinity`, is outside the model). -/
def expectedMeasureTicks (ts : TimeSignature) : ℚ :=
  480 * ((ts.numerator : ℚ) * (4 / (ts.denominator : ℚ)))

/-- `collectNotes(document, track, channel)`. -/
def collectNotes (doc : ODoc) (track : Track) (channel : Nat) : List MidiEvent :=
  (collectNotesAux track channel (expectedMeasureTicks doc.header.timeSignature)
    0 doc.measures).1

/-- The final measure-start cursor of `collectNotes`' loop: the total tick
length the track's measures occupy. -/
def collectFinalCursor (doc : ODoc) (track : Track) (channel : Nat) : ℚ :=
  (collectNotesAux track channel (expectedMeasureTicks doc.header.timeSignature)
    0 doc.measures).2

/-- The sort order of `buildTrackEvents`' comparator: ascending tick, and
at equal ticks ascending `sortWeight` (metas, then note-offs, then
note-ons). -/
def midiLe (a b : MidiEvent) : Prop :=
  a.tick < b.tick ∨ (a.tick = b.tick ∧ sortWeight a ≤ sortWeight b)

instance : DecidableRel midiLe := by
  unfold midiLe
  exact fun a b => inferInstanceAs (Decidable (_ ∨ _))

instance : IsTotal MidiEvent midiLe := by
  constructor
  intro a b
  unfold midiLe
  rcases lt_trichotomy a.tick b.tick with h | h | h
  · exact Or.inl (Or.inl h)
  · rcases Nat.le_total (sortWeight a) (sortWeight b) with hw | hw
    · exact Or.inl (Or.inr ⟨h, hw⟩)
    · exact Or.inr (Or.inr ⟨h.symm, hw⟩)
  · exact Or.inr (Or.inl h)

instance : IsTrans MidiEvent midiLe := by
  constructor
  intro a b c hab hbc
  unfold midiLe at *
  rcases hab with h1 | ⟨h1, w1⟩
  · rcases hbc with h2 | ⟨h2, _⟩
    · exact Or.inl (h1.trans h2)
    · exact Or.inl (h2 ▸ h1)
  · rcases hbc with h2 | ⟨h2, w2⟩
    · exact Or.inl (h1 ▸ h2)
    · exact Or.inr ⟨h1.trans h2, w1.trans w2⟩

/-- The sorted per-track event list of `buildTrackEvents` (meta events
first in the unsorted input, then the collected note events; JS
`Array.prototype.sort` is stable and its comparator is the total preorder
`midiLe`, which Mathlib's stable `insertionSort` models). -/
def buildTrackSorted (doc : ODoc) (track : Track) (channel : Nat) :
    List MidiEvent :=
  List.insertionSort midiLe
    ([.tempo 0, .timeSignature 0] ++ collectNotes doc track channel)

/-- Delta-time track events (`MidiTrackEvent` in the source). -/
inductive MidiTrackEvent
  | setTempo (deltaTime : ℚ) (microsecondsPerBeat : ℤ)
  | timeSig (deltaTime : ℚ) (numerator denominator : Nat)
      (metronome thirtyseconds : Nat)
  | channelEv (deltaTime : ℚ) (isOn : Bool) (channel : Nat)
      (noteNumber : ℚ) (velocity : Nat)
  | endOfTrack (deltaTime : ℚ)
deriving DecidableEq, Repr

/-- The delta-conversion loop of `buildTrackEvents`. -/
def toDeltaEvents (tempoBpm : ℚ) (ts : TimeSignature) :
    ℚ → List MidiEvent → List MidiTrackEvent
  | _, [] => []
  | lastTick, ev :: rest =>
    let delta := ev.tick - lastTick
    let here : MidiTrackEvent :=
      match ev with
      | .tempo _ => .setTempo delta (jsRound (60000000 / tempoBpm))
      | .timeSignature _ => .timeSig delta ts.numerator ts.denominator 24 8
      | .noteOn _ n c v => .channelEv delta true c n v
      | .noteOff _ n c v => .channelEv delta false c n v
    here :: toDeltaEvents tempoBpm ts ev.tick rest

/-- `buildTrackEvents(document, track, channel)`. -/
def buildTrackEvents (doc : ODoc) (track : Track) (channel : Nat) :
    List MidiTrackEvent :=
  toDeltaEvents doc.header.tempoBpm doc.header.timeSignature 0
    (buildTrackSorted doc track channel) ++ [.endOfTrack 0]

/-- The MIDI file data `toMidi` hands to the byte writer (the `midi-file`
serialization itself is an external library and is not modelled). -/
structure MidiFileData where
  format : Nat
  numTracks : Nat
  ticksPerBeat : Nat
  tracks : List (List MidiTrackEvent)

/-- `toMidi(document)` up to byte serialization. -/
def toMidiData (doc : ODoc) : MidiFileData :=
  let tracks := (List.range doc.tracks.length).zip doc.tracks |>.map
    (fun (i, t) => buildTrackEvents doc t (i % 16))
  ⟨if tracks.length > 1 then 1 else 0, tracks.length, 480, tracks⟩

end Midi

section Ascii

/-- `String(note.fret)`. -/
def fretStr (n : Nat) : Str := Nat.toDigits 10 n

/-- `String.prototype.padEnd(width, pad)` for single characters. -/
def padEnd (s : Str) (w : Nat) (c : Char) : Str :=
  s ++ List.replicate (w - s.length) c

/-- `getTrackStringCount(track, document)`: tuning length when a non-empty
tuning is declared; otherwise the maximal string index used by the track
across all voices, defaulting to 6 when that is 0. -/
def maxStringIn (tid : Str) (measures : List Measure) : Nat :=
  measures.foldl (fun acc m =>
    match alookup tid m.tracks with
    | none => acc
    | some tm =>
      tm.voices.foldl (fun acc2 v =>
        v.2.foldl (fun acc3 ev =>
          match ev with
          | .note _ nr _ => max acc3 nr.string
          | .chord _ nrs _ => nrs.foldl (fun a nr => max a nr.string) acc3
          | .rest _ _ => acc3) acc2) acc) 0

/-- `getTrackStringCount`. -/
def getTrackStringCount (track : Track) (doc : ODoc) : Nat :=
  match track.tuning with
  | some t => if t.length > 0 then t.length else
      let m := maxStringIn track.id doc.measures
      if m = 0 then 6 else m
  | none =>
      let m := maxStringIn track.id doc.measures
      if m = 0 then 6 else m

/-- `getLineLabels(track, stringCount)`: the reversed tuning (so the
highest string prints first), or `S1…SN`. -/
def getLineLabels (track : Track) (stringCount : Nat) : List Str :=
  match track.tuning with
  | some t =>
    if t.length > 0 then t.reverse
    else (List.range stringCount).map (fun i => 'S' :: Nat.toDigits 10 (i + 1))
  | none => (List.range stringCount).map (fun i => 'S' :: Nat.toDigits 10 (i + 1))

/-- `noteToSegment(note, width, lineIndex)`: the fret (dash-padded) on the
note's own row (`lineIndex = string - 1`), dashes elsewhere. -/
def noteToSegment (nr : NoteRef) (width : Nat) (lineIndex : Nat) : Str :=
  if nr.string = lineIndex + 1 then padEnd (fretStr nr.fret) width '-'
  else List.replicate width '-'

/-- `renderEventSegments(event, stringCount)`: one segment per string
row. -/
def renderEventSegments (ev : Event) (stringCount : Nat) : List Str :=
  match ev with
  | .rest _ _ => List.replicate stringCount ['-']
  | .note _ nr _ =>
    let width := (fretStr nr.fret).length
    (List.range stringCount).map (noteToSegment nr width)
  | .chord _ nrs _ =>
    let width := nrs.foldr (fun nr acc => max (fretStr nr.fret).length acc) 1
    (List.range stringCount).map (fun li =>
      match nrs.find? (fun nr => nr.string = li + 1) with
      | some nr => padEnd (fretStr nr.fret) width '-'
      | none => List.replicate width '-')

/-- `renderMeasure(events, stringCount)`: per row, the event segments
joined with single dashes; an empty measure renders one dash per row. -/
def renderMeasure (events : List Event) (stringCount : Nat) : List Str :=
  if events = [] then List.replicate stringCount ['-']
  else (List.range stringCount).map (fun li =>
    joinChar '-' (events.map (fun ev => ((renderEventSegments ev stringCount).getD li []))))

/-- `renderTrackMeasures(track, document)`: rows of every measure (only
voice `v1` is rendered) with the measure index. -/
def renderTrackMeasures (track : Track) (doc : ODoc) : List (List Str × Nat) :=
  let stringCount := getTrackStringCount track doc
  doc.measures.map (fun m =>
    let events : List Event :=
      match alookup track.id m.tracks with
      | none => []
      | some tm => (alookup (lit "v1") tm.voices).getD []
    (renderMeasure events stringCount, m.index))

/-- `toAsciiTab(document)`. -/
def toAsciiTab (doc : ODoc) : Str :=
  let output := doc.tracks.flatMap (fun track =>
    let stringCount := getTrackStringCount track doc
    let lineLabels := getLineLabels track stringCount
    let headerLine := lit "# Track: " ++ (track.name.getD track.id)
    let measureLines := (renderTrackMeasures track doc).flatMap (fun (rows, idx) =>
      (lit "// m" ++ Nat.toDigits 10 idx) ::
      (rows.zip (List.range rows.length)).map (fun (row, li) =>
        let label := lineLabels.getD li ('S' :: Nat.toDigits 10 (li + 1))
        padEnd label 3 ' ' ++ '|' :: row ++ ['|']))
    headerLine :: measureLines)
  joinLines output

end Ascii

section ClaimSupport

/-- The error message of a failed computation, if any. -/
def errMsg : Except Str α → Option Str
  | .error e => some e
  | .ok _ => none

/-- Does a source text parse successfully? -/
def parses (src : Str) : Bool := (parseOpenTab src).isOk

/-- The time signature a successfully parsed source carries. -/
def parsedTimeSig (src : Str) : Option TimeSignature :=
  match parseOpenTab src with
  | .ok d => some d.header.timeSignature
  | .error _ => none

/-- The events of measure `idx`, track `tid`, voice `vid` of a parsed
source. -/
def parsedEvents (src : Str) (idx : Nat) (tid vid : Str) : Option (List Event) :=
  match parseOpenTab src with
  | .ok d =>
    match d.measures.find? (fun m => m.index = idx) with
    | some m =>
      match alookup tid m.tracks with
      | some tm => alookup vid tm.voices
      | none => none
    | none => none
  | .error _ => none

/-- Walk a token list checking that every non-duration token directly
follows a duration token (the flag records whether the previous token was
a duration). -/
def durPrecededAux : Bool → List Str → Bool
  | _, [] => true
  | prevIsDur, tok :: rest =>
    match parseDuration tok with
    | some _ => durPrecededAux true rest
    | none => prevIsDur && durPrecededAux false rest

/-- Duration-expansion check for one line of text: if the line matches the
measure shape, every event token between its pipes must be immediately
preceded by an explicit duration token. -/
def measureLineDurExpanded (line : Str) : Bool :=
  match matchMeasureParser line with
  | some (_, between) => durPrecededAux false (splitTokens (jsTrim between))
  | none => true

/-- Duration-expansion check over all lines of a text. -/
def allMeasureLinesDurExpanded (text : Str) : Bool :=
  (splitLines text).all measureLineDurExpanded

/-- Does a line contain no `#` character? -/
def hashFree (line : Str) : Bool := !line.any (fun c => c = '#')

/-- Technique chains relate frets left to right: each fret-carrying entry
starts at the running fret and moves it to its target; vibrato leaves the
running fret unchanged. -/
def chainedFrom (cur : Nat) : List Technique → Prop
  | [] => True
  | .hammerOn f t :: rest => f = cur ∧ chainedFrom t rest
  | .pullOff f t :: rest => f = cur ∧ chainedFrom t rest
  | .slide f t _ :: rest => f = cur ∧ chainedFrom t rest
  | .vibrato :: rest => chainedFrom cur rest

/-- The summed tick durations of a voice's events. -/
def voiceTicksSum (evs : List Event) : ℚ :=
  (evs.map (fun e => (durationToTicks e.duration : ℚ))).sum

/-- The `v1` events the ASCII encoder reads for a track in a measure
(`trackMeasure?.voices?.v1 ?? []`). -/
def v1EventsAt (tid : Str) (m : Measure) : List Event :=
  match alookup tid m.tracks with
  | none => []
  | some tm => (alookup (lit "v1") tm.voices).getD []

/-- Standard tuning as the claims write it. -/
def stdTuning : List Str :=
  [lit "E2", lit "A2", lit "D3", lit "G3", lit "B3", lit "E4"]

/-- A track with standard tuning and no capo. -/
def stdTrack : Track := ⟨lit "gtr1", none, none, some stdTuning, none⟩

/-- The same track with `capo = 2`. -/
def stdTrackCapo2 : Track := ⟨lit "gtr1", none, none, some stdTuning, some 2⟩

/-- A minimal parseable document: one track directive, one measure of four
quarter notes. -/
def docMin : Str :=
  lit "format=\"opentab\"\nversion=\"0.1\"\n---\n@track gtr1\nm1: | q (6:3) (5:5) (4:5) (3:3) |\n"

/-- The same measure line with a trailing comment after the closing
pipe. -/
def docTrailingComment : Str :=
  lit "format=\"opentab\"\nversion=\"0.1\"\n---\n@track gtr1\nm1: | q (6:3) | # note\n"

/-- The measure line of `docTrailingComment` without the comment. -/
def docNoComment : Str :=
  lit "format=\"opentab\"\nversion=\"0.1\"\n---\n@track gtr1\nm1: | q (6:3) |\n"

/-- A header whose `time_signature` denominator is outside
`{1,2,4,8,16,32}`. -/
def docTs47 : Str :=
  lit "format=\"opentab\"\nversion=\"0.1\"\ntime_signature=\"4/7\"\n---\n@track gtr1\nm1: | q (6:3) |\n"

/-- A header whose `time_signature` is not a `N/D` digit string. -/
def docTs4x7 : Str :=
  lit "format=\"opentab\"\nversion=\"0.1\"\ntime_signature=\"4x7\"\n---\n@track gtr1\nm1: | q (6:3) |\n"

/-- A duration set in measure 1 followed by a measure 2 that leads with an
event token. -/
def docNoCarry : Str :=
  lit "format=\"opentab\"\nversion=\"0.1\"\n---\n@track gtr1\nm1: | q (6:3) |\nm2: | (6:3) |\n"

/-- The bracket depth after scanning a string from depth `d`. -/
def scanDepth (d : Nat) (s : Str) : Nat := s.foldl depthStep d

/-- A chunk relative to a start depth: scanning it never meets a
whitespace character at depth 0 (so `splitTokensAux` would accumulate it
without splitting). -/
def chunkOk : Nat → Str → Bool
  | _, [] => true
  | d, c :: rest =>
    let d' := depthStep d c
    if d' = 0 && jsWs c then false else chunkOk d' rest

/-- No character of the string satisfies `jsWs` at its edges. -/
def headNotWs (t : Str) : Prop := ∀ c, t.head? = some c → jsWs c = false

/-- The last character, when present, is not whitespace. -/
def lastNotWs (t : Str) : Prop := ∀ c, t.getLast? = some c → jsWs c = false

/-- The shape `splitTokens` guarantees of its output and `joinChar ' '`
inverts: nonempty chunks with non-whitespace edges, each one except
possibly the last closing back to depth 0. -/
def ChunksJoinable : List Str → Prop
  | [] => True
  | t :: ts =>
    t ≠ [] ∧ chunkOk 0 t = true ∧ headNotWs t ∧ lastNotWs t ∧
    (ts = [] ∨ scanDepth 0 t = 0) ∧ ChunksJoinable ts

/-- A quarter note event on the given string and fret. -/
def noteQ (s f : Nat) : Event :=
  Event.note ⟨DurBase.q, none, none⟩ ⟨s, f, none⟩ none

/-- A one-measure model document over the standard-tuning track (used to
witness the MIDI claims at concrete inputs). -/
def docModelMin : ODoc :=
  ⟨⟨120, ⟨4, 4⟩, none, []⟩, [stdTrack],
   [⟨1, [(lit "gtr1", ⟨[(lit "v1", [noteQ 6 3])]⟩)]⟩]⟩

/-- A model document whose only measure has a `v1` voice and a `v2`
voice. -/
def docTwoVoicesA : ODoc :=
  ⟨⟨120, ⟨4, 4⟩, none, []⟩, [stdTrack],
   [⟨1, [(lit "gtr1",
      ⟨[(lit "v1", [noteQ 6 3]), (lit "v2", [noteQ 5 5])]⟩)]⟩]⟩

/-- `docTwoVoicesA` with entirely different `v2` contents (`v1`
unchanged). -/
def docTwoVoicesB : ODoc :=
  ⟨⟨120, ⟨4, 4⟩, none, []⟩, [stdTrack],
   [⟨1, [(lit "gtr1",
      ⟨[(lit "v1", [noteQ 6 3]), (lit "v2", [noteQ 1 0, noteQ 2 0])]⟩)]⟩]⟩

/-- A parseable document whose measure contains an annotation string value
`]|#`: the `]` spuriously closes the token splitter's bracket depth, so
the formatter's rewrite around the `#` leaves a bare `|` token behind. -/
def docBrokenRoundTrip : Str :=
  lit "format=\"opentab\"\nversion=\"0.1\"\n---\n@track gtr1\nm1: | q (1:0)\x7ba=\"]|#\"\x7d |\n"

/-- A parseable document whose measure contains an annotation string value
`|#` followed by a further note: the formatter's comment split swallows
the region between the `|` inside the annotation and the `#`, so the
trailing note token ends up without a duration token before it. -/
def docHashMeasure : Str :=
  lit "format=\"opentab\"\nversion=\"0.1\"\n---\n@track gtr1\nm1: | q (6:3)\x7bx=\"|#\"\x7d (5:5) |\n"

/-- `digitsToNat` with an explicit initial accumulator value. -/
def dval (v : Nat) (ds : Str) : Nat :=
  ds.foldl (fun acc c => acc * 10 + (c.toNat - '0'.toNat)) v

/-- The canonical form `parseDuration` recovers from `formatDuration`:
truthy dot counts collapse to a single dot, zero dot counts and zero
tuplets to absence. -/
def durCanon (d : Duration) : Duration :=
  ⟨d.base,
   match d.dots with
   | some n => if n ≠ 0 then some 1 else none
   | none => none,
   match d.tuplet with
   | some n => if n ≠ 0 then some n else none
   | none => none⟩

end ClaimSupport

section Claims

/-- C1, counterexample.  The claim asserts that with tuning
`["E2","A2","D3","G3","B3","E4"]` and no capo the MIDI encoder maps note
`(6:0)` to MIDI pitch 40.  In the code `resolveStringPitch` indexes
`tuning[string - 1]`, so string 6 reaches the *last* tuning entry `E4` and
`(6:0)` resolves to MIDI 64, not 40. -/
theorem C1_counterexample :
    resolveStringPitch stdTrack ⟨6, 0, none⟩ = some 64 ∧
    resolveStringPitch stdTrack ⟨6, 0, none⟩ ≠ some 40 := by
  refine ⟨by decide, by decide⟩

/-- C1, amended.  String numbers index the low-to-high tuning directly
(`tuning[string - 1]`), so for standard tuning and no capo `(6:0)` → MIDI
64, `(1:0)` → MIDI 40, `(1:12)` → MIDI 52, and with `capo = 2` `(1:0)` →
MIDI 42 — the mirror image of the claimed values. -/
theorem C1_amended_pitch_resolution :
    resolveStringPitch stdTrack ⟨6, 0, none⟩ = some 64 ∧
    resolveStringPitch stdTrack ⟨1, 0, none⟩ = some 40 ∧
    resolveStringPitch stdTrack ⟨1, 12, none⟩ = some 52 ∧
    resolveStringPitch stdTrackCapo2 ⟨1, 0, none⟩ = some 42 := by
  refine ⟨by decide, by decide, by decide, by decide⟩

/-- C5, counterexample.  The claim asserts `parseOpenTab` accepts a body
measure line with a trailing `# comment` after the closing pipe; in fact
the measure regex `^m(\d+):\s*\|(.*)\|\s*$` requires the line to end at
the closing pipe, so the parse throws. -/
theorem C5_counterexample : parses docTrailingComment = false := by decide

/-- C5, amended.  A measure line with a trailing comment after the closing
pipe is rejected with the `Invalid measure line` parse error; the
identical line without the comment parses (here to one quarter note on
string 6, fret 3).  Only whole-line `#` comments are allowed in the
body. -/
theorem C5_amended_trailing_comment :
    errMsg (parseOpenTab docTrailingComment) =
      some (lit "Invalid measure line: m1: | q (6:3) | # note") ∧
    parsedEvents docNoComment 1 (lit "gtr1") (lit "v1") =
      some [Event.note ⟨DurBase.q, none, none⟩ ⟨6, 3, none⟩ none] := by
  refine ⟨by decide, by decide⟩

/-- C6, counterexample.  The claim asserts every `time_signature`
denominator outside `{1,2,4,8,16,32}` fails with a `ParseError`; in fact
the string branch of `normalizeTimeSignature` checks only the `\d+/\d+`
shape, so `"4/7"` parses successfully with denominator 7. -/
theorem C6_counterexample : parsedTimeSig docTs47 = some ⟨4, 7⟩ := by decide

/-- C6, amended.  A `time_signature` string is only shape-checked: any
`\d+/\d+` value is accepted verbatim (so `"4/7"` yields denominator 7,
with no range check), while a string not of that shape (such as `"4x7"`)
throws `Invalid time signature`. -/
theorem C6_amended_time_signature :
    parsedTimeSig docTs47 = some ⟨4, 7⟩ ∧
    errMsg (parseOpenTab docTs4x7) =
      some (lit "Invalid time signature: 4x7") := by
  refine ⟨by decide, by decide⟩

/-- C2, counterexample.  The claim asserts that the formatter output of
every parseable text parses again.  `docBrokenRoundTrip` parses, but its
annotation value `]|#` defeats the comment-preserving rewrite: the `]`
closes the splitter's bracket depth inside the string, the rewrite inserts
spaces around the `|`, and re-parsing the formatted text hits a bare `|`
token (`Unknown token`). -/
theorem C2_counterexample :
    parses docBrokenRoundTrip = true ∧
    parses (formatOtab docBrokenRoundTrip) = false := by
  refine ⟨by decide, by decide⟩

/-- C3, counterexample.  The claim asserts that after formatting every
event token in every measure line is immediately preceded by a duration
token.  In `docHashMeasure` the formatter treats everything from the `#`
inside the annotation string onward as an inline comment, normalizes only
the truncated front part, and the trailing `(5:5)` token of the output
line follows the rewritten note token with no duration before it. -/
theorem C3_counterexample :
    parses docHashMeasure = true ∧
    allMeasureLinesDurExpanded (formatOtab docHashMeasure) = false := by
  refine ⟨by decide, by decide⟩

/-- C4.  The parser errors whenever an event token appears before any
duration token of its measure: (i) at the token level, if no token before
`tok` is a duration and `tok` is not one either, the token loop (which
every measure line enters with an empty carried duration) fails; (ii) the
success of one measure line never depends on the measure map accumulated
from earlier lines, which is the only state threaded between measures
besides the directive; (iii) concretely, a `q` set in measure 1 does not
rescue a bare event leading measure 2. -/
theorem C4_missing_duration_errors :
    (∀ (idx : Nat) (pre : List Str) (tok : Str) (post : List Str),
      (∀ t ∈ pre, parseDuration t = none) → parseDuration tok = none →
      (measureTokensToEvents idx (pre ++ tok :: post) none).isOk = false) ∧
    (∀ (line : Str) (st : Option (Str × Str)) (mmap mmap' : List (Nat × Measure)),
      (parseMeasureLine line st mmap).isOk = (parseMeasureLine line st mmap').isOk) ∧
    errMsg (parseOpenTab docNoCarry) =
      some (lit "Missing duration before token \"(6:3)\" in measure 2") := by
  refine ⟨?_, ?_, by decide⟩
  · intro idx pre tok post hpre htok
    cases pre with
    | nil =>
      simp only [List.nil_append, measureTokensToEvents, htok]
      rfl
    | cons p rest =>
      have hp : parseDuration p = none := hpre p (by simp)
      simp only [List.cons_append, measureTokensToEvents, hp]
      rfl
  · intro line st mmap mmap'
    unfold parseMeasureLine
    cases matchMeasureParser line with
    | none => rfl
    | some v =>
      obtain ⟨ds, between⟩ := v
      cases st with
      | none => rfl
      | some tv =>
        obtain ⟨tid, vid⟩ := tv
        simp only
        cases measureTokensToEvents (digitsToNat ds)
          (if jsTrim between = [] then [] else splitTokens (jsTrim between)) none with
        | error e => rfl
        | ok evs => rfl

/-- C4, witness: the parts of `C4_missing_duration_errors` applied at a
concrete bare-note token list and a concrete measure line with two
different measure maps. -/
theorem C4_witness :
    (measureTokensToEvents 2 ([] ++ lit "(6:3)" :: []) none).isOk = false ∧
    (parseMeasureLine (lit "m1: | q |") (some (lit "g", lit "v1")) []).isOk =
      (parseMeasureLine (lit "m1: | q |") (some (lit "g", lit "v1"))
        [(1, ⟨1, []⟩)]).isOk := by
  exact ⟨C4_missing_duration_errors.1 2 [] (lit "(6:3)") []
      (by intro t ht; cases ht) (by decide),
    C4_missing_duration_errors.2.1 (lit "m1: | q |")
      (some (lit "g", lit "v1")) [] [(1, ⟨1, []⟩)]⟩

/-- Helper for C9: whatever fuel the technique-chain loop runs on, a
successful result is chained from the running fret it started at. -/
theorem techChainF_chained (fuel : Nat) :
    ∀ (raw : Str) (cur : Nat) (s : Str) (ts : List Technique),
      parseTechChainF raw fuel cur s = .ok ts → chainedFrom cur ts := by
  induction fuel with
  | zero =>
    intro raw cur s ts h
    cases s with
    | nil => simp only [parseTechChainF] at h; cases h; trivial
    | cons c r => simp only [parseTechChainF] at h; cases h; trivial
  | succ fuel ih =>
    intro raw cur s ts h
    cases s with
    | nil => simp only [parseTechChainF] at h; cases h; trivial
    | cons op rest =>
      simp only [parseTechChainF] at h
      by_cases hv : op = '~'
      · rw [if_pos hv] at h
        cases hrec : parseTechChainF raw fuel cur rest with
        | error e => rw [hrec] at h; cases h
        | ok ts' =>
          rw [hrec] at h
          cases h
          simpa [chainedFrom] using ih raw cur rest ts' hrec
      · rw [if_neg hv] at h
        by_cases hop : op = 'h' ∨ op = 'p' ∨ op = '/' ∨ op = '\\'
        · rw [if_pos hop] at h
          by_cases hds : rest.takeWhile isDigit = []
          · rw [if_pos hds] at h; cases h
          · rw [if_neg hds] at h
            cases hrec : parseTechChainF raw fuel (digitsToNat (rest.takeWhile isDigit))
                (rest.dropWhile isDigit) with
            | error e => rw [hrec] at h; cases h
            | ok ts' =>
              rw [hrec] at h
              cases h
              have hchain := ih raw (digitsToNat (rest.takeWhile isDigit))
                (rest.dropWhile isDigit) ts' hrec
              by_cases h1 : op = 'h'
              · simp [h1, chainedFrom, hchain]
              · by_cases h2 : op = 'p'
                · simp [h1, h2, chainedFrom, hchain]
                · simp [h1, h2, chainedFrom, hchain]
        · rw [if_neg hop] at h; cases h

/-- C9.  `(3:2h4p2)` parses to base fret 2 with the two-link chain
`hammer_on 2→4`, `pull_off 4→2`; and in general every successful
`parseNoteRef` yields techniques chained left to right from the stored
base fret: each fret-carrying entry starts at the fret where the previous
one ended (vibrato entries carry no frets and leave the running fret
unchanged). -/
theorem C9_technique_chain :
    parseNoteRef (lit "3:2h4p2") =
      .ok ⟨3, 2, some [Technique.hammerOn 2 4, Technique.pullOff 4 2]⟩ ∧
    ∀ (raw : Str) (nr : NoteRef), parseNoteRef raw = .ok nr →
      chainedFrom nr.fret (nr.inlineTechniques.getD []) := by
  refine ⟨by rfl, ?_⟩
  intro raw nr h
  unfold parseNoteRef at h
  split at h
  · rename_i rest hm
    by_cases hcond : raw.takeWhile isDigit = [] ∨ rest = [] ∨ hasLT rest = true
    · rw [if_pos hcond] at h; cases h
    · rw [if_neg hcond] at h
      by_cases hf : rest.takeWhile isDigit = []
      · rw [if_pos hf] at h; cases h
      · rw [if_neg hf] at h
        cases hrec : parseTechChain raw (digitsToNat (rest.takeWhile isDigit))
            (rest.dropWhile isDigit) with
        | error e => rw [hrec] at h; cases h
        | ok techs =>
          rw [hrec] at h
          cases h
          have hchain := techChainF_chained (rest.dropWhile isDigit).length raw
            (digitsToNat (rest.takeWhile isDigit)) (rest.dropWhile isDigit) techs hrec
          by_cases hts : techs = []
          · simp [hts, chainedFrom]
          · simp only [if_neg hts]
            simpa using hchain
  · cases h

/-- C9, witness: the chain law applied at the concrete note `(3:2h4p2)`. -/
theorem C9_witness :
    chainedFrom 2 [Technique.hammerOn 2 4, Technique.pullOff 4 2] := by
  have h := C9_technique_chain.2 (lit "3:2h4p2")
    ⟨3, 2, some [Technique.hammerOn 2 4, Technique.pullOff 4 2]⟩ (by rfl)
  simpa using h

/-- Helper: a successful association-list lookup means the pair is in the
list. -/
theorem alookup_mem {k : Str} {v : α} :
    ∀ {l : List (Str × α)}, alookup k l = some v → (k, v) ∈ l := by
  intro l
  induction l with
  | nil => intro h; simp [alookup] at h
  | cons p rest ih =>
    obtain ⟨k', v'⟩ := p
    intro h
    simp only [alookup] at h
    by_cases hk : k' = k
    · rw [if_pos hk] at h
      cases h
      subst hk
      exact List.mem_cons_self _ _
    · rw [if_neg hk] at h
      exact List.mem_cons_of_mem _ (ih h)

/-- Helper for C7: a voice cursor ends at its start plus the summed tick
durations of its events. -/
theorem voiceNotes_snd (track : Track) (ch : Nat) :
    ∀ (evs : List Event) (cursor : ℚ),
      (voiceNotes track ch cursor evs).2 = cursor + voiceTicksSum evs := by
  intro evs
  induction evs with
  | nil => intro cursor; simp [voiceNotes, voiceTicksSum]
  | cons ev rest ih =>
    intro cursor
    simp only [voiceNotes]
    rw [ih]
    simp only [voiceTicksSum, List.map_cons, List.sum_cons]
    ring

/-- Helper for C7: the farthest voice end of a measure is at least the
measure start. -/
theorem measureNotes_snd_ge (track : Track) (ch : Nat) (start : ℚ) :
    ∀ (voices : List (Str × List Event)),
      start ≤ (measureNotes track ch start voices).2 := by
  intro voices
  induction voices with
  | nil => simp [measureNotes]
  | cons v rest ih =>
    obtain ⟨vid, evs⟩ := v
    simp only [measureNotes]
    exact le_trans ih (le_max_right _ _)

/-- Helper for C7: when every voice's summed durations stay within
`expected`, the farthest voice end stays within `start + expected`. -/
theorem measureNotes_snd_le (track : Track) (ch : Nat) (start expected : ℚ)
    (hexp : 0 ≤ expected) :
    ∀ (voices : List (Str × List Event)),
      (∀ v ∈ voices, voiceTicksSum v.2 ≤ expected) →
      (measureNotes track ch start voices).2 ≤ start + expected := by
  intro voices
  induction voices with
  | nil => intro _; simpa [measureNotes] using hexp
  | cons v rest ih =>
    obtain ⟨vid, evs⟩ := v
    intro hv
    simp only [measureNotes]
    apply max_le
    · rw [voiceNotes_snd]
      have h1 := hv (vid, evs) (List.mem_cons_self _ _)
      simpa using h1
    · exact ih (fun v hv' => hv v (List.mem_cons_of_mem _ hv'))

/-- Helper for C7: the measure loop advances the cursor by exactly
`expected` per measure when no voice overruns. -/
theorem collectNotesAux_snd (track : Track) (ch : Nat) (expected : ℚ)
    (hexp : 0 ≤ expected) :
    ∀ (measures : List Measure) (start : ℚ),
      (∀ m ∈ measures, ∀ p ∈ m.tracks, ∀ v ∈ p.2.voices,
        voiceTicksSum v.2 ≤ expected) →
      (collectNotesAux track ch expected start measures).2 =
        start + measures.length * expected := by
  intro measures
  induction measures with
  | nil => intro start _; simp [collectNotesAux]
  | cons m rest ih =>
    intro start hv
    simp only [collectNotesAux]
    cases halo : alookup track.id m.tracks with
    | none =>
      rw [ih (start + expected) (fun m' hm' => hv m' (List.mem_cons_of_mem _ hm'))]
      simp only [List.length_cons]
      push_cast
      ring
    | some tm =>
      have hmem := alookup_mem halo
      have hvm : ∀ v ∈ tm.voices, voiceTicksSum v.2 ≤ expected :=
        fun v hv' => hv m (List.mem_cons_self _ _) (track.id, tm) hmem v hv'
      have hle := measureNotes_snd_le track ch start expected hexp tm.voices hvm
      have hlen : max expected ((measureNotes track ch start tm.voices).2 - start)
          = expected := by
        apply max_eq_left
        linarith
      simp only [hlen]
      rw [ih (start + expected) (fun m' hm' => hv m' (List.mem_cons_of_mem _ hm'))]
      simp only [List.length_cons]
      push_cast
      ring

/-- C7.  For a document in which, in every measure, every voice's summed
event tick durations stay within
`expected_ticks = 480 × numerator × (4 / denominator)`, the final
measure-start cursor of the MIDI collector equals the sum of
`expected_ticks` over the document's measures.  (The denominator is
required positive: a zero denominator would be JS `Infinity`
arithmetic, outside the rational model.) -/
theorem C7_measure_tick_length (doc : ODoc) (track : Track) (channel : Nat)
    (hden : 0 < doc.header.timeSignature.denominator)
    (hv : ∀ m ∈ doc.measures, ∀ p ∈ m.tracks, ∀ v ∈ p.2.voices,
      voiceTicksSum v.2 ≤ expectedMeasureTicks doc.header.timeSignature) :
    collectFinalCursor doc track channel =
      (doc.measures.map
        (fun _ => expectedMeasureTicks doc.header.timeSignature)).sum := by
  have hexp : 0 ≤ expectedMeasureTicks doc.header.timeSignature := by
    unfold expectedMeasureTicks
    positivity
  unfold collectFinalCursor
  rw [collectNotesAux_snd track channel _ hexp doc.measures 0 hv]
  rw [List.map_const', List.sum_replicate, nsmul_eq_mul]
  ring

/-- C7, witness: the tick-length law applied at the concrete one-measure
document `docModelMin` (four beats expected, one quarter note used). -/
theorem C7_witness :
    collectFinalCursor docModelMin stdTrack 0 =
      (docModelMin.measures.map
        (fun _ => expectedMeasureTicks docModelMin.header.timeSignature)).sum :=
  C7_measure_tick_length docModelMin stdTrack 0 (by decide) (by decide)

/-- C8.  In the sorted per-track MIDI event list the encoder emits, any
two events at the same absolute tick appear in `sortWeight` order: meta
events (set-tempo, time-signature, weight 0) before note-offs (weight 1)
before note-ons (weight 2). -/
theorem C8_event_ordering (doc : ODoc) (track : Track) (channel : Nat)
    (i j : Fin (buildTrackSorted doc track channel).length) (hij : i < j)
    (htick : ((buildTrackSorted doc track channel).get i).tick =
      ((buildTrackSorted doc track channel).get j).tick) :
    sortWeight ((buildTrackSorted doc track channel).get i) ≤
      sortWeight ((buildTrackSorted doc track channel).get j) := by
  have hsorted : List.Sorted midiLe (buildTrackSorted doc track channel) :=
    List.sorted_insertionSort midiLe _
  have hle := hsorted.rel_get_of_lt hij
  rcases hle with hlt | ⟨_, hw⟩
  · rw [htick] at hlt
    exact absurd hlt (lt_irrefl _)
  · exact hw

/-- C8, witness: the ordering law applied inside the sorted event list of
`docModelMin`, at the equal-tick pair time-signature meta (weight 0,
tick 0) and first note-on (weight 2, tick 0). -/
theorem C8_witness :
    sortWeight ((buildTrackSorted docModelMin stdTrack 0).get
      ⟨1, by decide⟩) ≤
    sortWeight ((buildTrackSorted docModelMin stdTrack 0).get
      ⟨2, by decide⟩) :=
  C8_event_ordering docModelMin stdTrack 0 ⟨1, by decide⟩ ⟨2, by decide⟩
    (by decide) (by decide)

/-- Helper: congruence for `flatMap` over the same list. -/
theorem flatMap_congr {l : List α} {f g : α → List β}
    (h : ∀ a ∈ l, f a = g a) : l.flatMap f = l.flatMap g := by
  induction l with
  | nil => rfl
  | cons a rest ih =>
    simp only [List.flatMap_cons]
    rw [h a (List.mem_cons_self _ _), ih (fun a ha => h a (List.mem_cons_of_mem _ ha))]

/-- Helper for C10: with a non-empty declared tuning the string count is
the tuning length, independent of the document. -/
theorem getTrackStringCount_of_tuning {t : Track} {tu : List Str}
    (h : t.tuning = some tu) (hne : tu ≠ []) (d : ODoc) :
    getTrackStringCount t d = tu.length := by
  unfold getTrackStringCount
  rw [h]
  have hpos : tu.length > 0 := List.length_pos.2 hne
  simp [hpos]

/-- Helper for C10: the measure render map depends only on each measure's
index and its `v1` events for the rendered track. -/
theorem map_measures_congr (tid : Str) (count : Nat) :
    ∀ {ms1 ms2 : List Measure},
      List.Forall₂ (fun m1 m2 => m1.index = m2.index ∧
        v1EventsAt tid m1 = v1EventsAt tid m2) ms1 ms2 →
      ms1.map (fun m => (renderMeasure (v1EventsAt tid m) count, m.index)) =
        ms2.map (fun m => (renderMeasure (v1EventsAt tid m) count, m.index)) := by
  intro ms1 ms2 h
  induction h with
  | nil => rfl
  | @cons m1 m2 t1 t2 hpair htail ih =>
    simp only [List.map_cons, ih]
    rw [hpair.1, hpair.2]

/-- C10.  The ASCII encoder renders only voice `v1`: two documents with
the same tracks (each declaring a non-empty tuning) and measure lists
that agree pairwise on index and per-track `v1` events produce identical
output, whatever the other voices contain. -/
theorem C10_ascii_only_v1 (d1 d2 : ODoc)
    (htr : d1.tracks = d2.tracks)
    (htun : ∀ t ∈ d1.tracks, ∃ tu, t.tuning = some tu ∧ tu ≠ [])
    (hmeas : List.Forall₂
      (fun m1 m2 => m1.index = m2.index ∧
        ∀ t ∈ d1.tracks, v1EventsAt t.id m1 = v1EventsAt t.id m2)
      d1.measures d2.measures) :
    toAsciiTab d1 = toAsciiTab d2 := by
  unfold toAsciiTab
  dsimp only
  rw [← htr]
  congr 1
  apply flatMap_congr
  intro t ht
  obtain ⟨tu, htu, hne⟩ := htun t ht
  have hc1 := getTrackStringCount_of_tuning htu hne d1
  have hc2 := getTrackStringCount_of_tuning htu hne d2
  have e1 : renderTrackMeasures t d1 =
      d1.measures.map (fun m =>
        (renderMeasure (v1EventsAt t.id m) (getTrackStringCount t d1), m.index)) := rfl
  have e2 : renderTrackMeasures t d2 =
      d2.measures.map (fun m =>
        (renderMeasure (v1EventsAt t.id m) (getTrackStringCount t d2), m.index)) := rfl
  have hrtm : renderTrackMeasures t d1 = renderTrackMeasures t d2 := by
    rw [e1, e2, hc1, hc2]
    exact map_measures_congr t.id tu.length
      (hmeas.imp (fun {a b} hp => ⟨hp.1, hp.2 t ht⟩))
  rw [hrtm, hc1, hc2]

/-- C10, witness: two concrete documents identical except for the
contents of voice `v2` render to the same ASCII text. -/
theorem C10_witness : toAsciiTab docTwoVoicesA = toAsciiTab docTwoVoicesB := by
  apply C10_ascii_only_v1 docTwoVoicesA docTwoVoicesB rfl
  · intro t ht
    have hts : t = stdTrack := by
      simpa [docTwoVoicesA] using ht
    subst hts
    exact ⟨stdTuning, rfl, by decide⟩
  · refine List.Forall₂.cons ⟨rfl, ?_⟩ List.Forall₂.nil
    intro t ht
    have hts : t = stdTrack := by
      simpa [docTwoVoicesA] using ht
    subst hts
    decide

/-- `dropWhile` is idempotent. -/
theorem dropWhile_idem (p : α → Bool) (l : List α) :
    (l.dropWhile p).dropWhile p = l.dropWhile p := by
  induction l with
  | nil => rfl
  | cons c rest ih =>
    by_cases h : p c
    · simp [List.dropWhile_cons, h, ih]
    · simp [List.dropWhile_cons, h]

/-- `jsTrimEnd` is idempotent. -/
theorem jsTrimEnd_idem (s : Str) : jsTrimEnd (jsTrimEnd s) = jsTrimEnd s := by
  unfold jsTrimEnd
  rw [List.reverse_reverse, dropWhile_idem]

/-- A string ending in a non-whitespace character is `jsTrimEnd`-fixed. -/
theorem jsTrimEnd_fixed {s : Str} (h : lastNotWs s) : jsTrimEnd s = s := by
  unfold jsTrimEnd
  cases hs : s.reverse with
  | nil => simpa using congrArg List.reverse hs
  | cons c r =>
    have hc : s.getLast? = some c := by
      rw [← List.head?_reverse, hs]
      rfl
    rw [List.dropWhile_cons, h c hc]
    simp only [Bool.false_eq_true, if_false]
    rw [← hs, List.reverse_reverse]

/-- The last character of a `jsTrimEnd` result is never whitespace. -/
theorem jsTrimEnd_lastNotWs (s : Str) : lastNotWs (jsTrimEnd s) := by
  intro c hc
  unfold jsTrimEnd at hc
  rw [List.getLast?_reverse] at hc
  cases hd : s.reverse.dropWhile jsWs with
  | nil => rw [hd] at hc; cases hc
  | cons x r =>
    rw [hd] at hc
    cases hc
    have := List.head_dropWhile_not jsWs s.reverse (by simp [hd])
    simpa [hd] using this

/-- The head of a `jsTrimStart` result is never whitespace. -/
theorem jsTrimStart_headNotWs (s : Str) : headNotWs (jsTrimStart s) := by
  intro c hc
  unfold jsTrimStart at hc
  cases hd : s.dropWhile jsWs with
  | nil => rw [hd] at hc; cases hc
  | cons x r =>
    rw [hd] at hc
    cases hc
    have := List.head_dropWhile_not jsWs s (by simp [hd])
    simpa [hd] using this

/-- `jsTrimStart` keeps the last character when it keeps anything, and a
non-whitespace-ending string stays non-whitespace-ending. -/
theorem jsTrimStart_lastNotWs {s : Str} (h : lastNotWs s) :
    lastNotWs (jsTrimStart s) := by
  intro c hc
  unfold jsTrimStart at hc
  have hsuf : s.dropWhile jsWs <:+ s := List.dropWhile_suffix jsWs
  obtain ⟨pre, hpre⟩ := hsuf
  have : s.getLast? = some c := by
    rw [← hpre]
    rw [List.getLast?_append_of_ne_nil]
    · exact hc
    · intro hnil
      rw [hnil] at hc
      cases hc
  exact h c this

/-- A string with non-whitespace edges is `jsTrim`-fixed. -/
theorem jsTrim_fixed {s : Str} (hh : headNotWs s) (hl : lastNotWs s) :
    jsTrim s = s := by
  unfold jsTrim
  rw [jsTrimEnd_fixed hl]
  cases hs : s with
  | nil => rfl
  | cons c r =>
    have : jsWs c = false := hh c (by rw [hs]; rfl)
    rw [← hs]
    unfold jsTrimStart
    rw [hs, List.dropWhile_cons, this]
    simp

/-- `jsTrim` ignores a prior `jsTrimEnd`. -/
theorem jsTrim_jsTrimEnd (s : Str) : jsTrim (jsTrimEnd s) = jsTrim s := by
  unfold jsTrim
  rw [jsTrimEnd_idem]

/-- `splitLines` always returns at least one line. -/
theorem splitLines_ne_nil (s : Str) : splitLines s ≠ [] := by
  induction s using splitLines.induct with
  | case1 => simp [splitLines]
  | case2 rest ih => simp [splitLines]
  | case3 rest ih => simp [splitLines]
  | case4 c rest h1 h2 hnil ih => exact absurd hnil ih
  | case5 c rest h1 h2 l ls hcons ih =>
    have he : splitLines (c :: rest) = (c :: l) :: ls := by
      rw [splitLines.eq_4 c rest h1 h2, hcons]
    simp [he]

/-- No produced line contains a line feed. -/
theorem splitLines_no_nl (s : Str) : ∀ l ∈ splitLines s, '\n' ∉ l := by
  induction s using splitLines.induct with
  | case1 =>
    intro l hl
    simp only [splitLines, List.mem_cons, List.not_mem_nil, or_false] at hl
    simp [hl]
  | case2 rest ih =>
    intro l hl
    simp only [splitLines, List.mem_cons] at hl
    rcases hl with h | h
    · simp [h]
    · exact ih l h
  | case3 rest ih =>
    intro l hl
    simp only [splitLines, List.mem_cons] at hl
    rcases hl with h | h
    · simp [h]
    · exact ih l h
  | case4 c rest h1 h2 hnil ih => exact absurd hnil (splitLines_ne_nil rest)
  | case5 c rest h1 h2 l ls hcons ih =>
    have he : splitLines (c :: rest) = (c :: l) :: ls := by
      rw [splitLines.eq_4 c rest h1 h2, hcons]
    intro x hx
    rw [he] at hx
    rcases List.mem_cons.1 hx with h | h
    · subst h
      intro hmem
      rcases List.mem_cons.1 hmem with h | h
      · exact h2 h.symm
      · exact ih l (by rw [hcons]; exact List.mem_cons_self _ _) h
    · exact ih x (by rw [hcons]; exact List.mem_cons_of_mem _ h) 

/-- Members of a `dropWhile` result are members of the input. -/
theorem mem_of_dropWhile {p : α → Bool} {l : List α} {a : α}
    (h : a ∈ l.dropWhile p) : a ∈ l :=
  (List.dropWhile_sublist p).subset h

/-- Members of a `takeWhile` result are members of the input. -/
theorem mem_of_takeWhile {p : α → Bool} {l : List α} {a : α}
    (h : a ∈ l.takeWhile p) : a ∈ l :=
  (List.takeWhile_sublist p).subset h

/-- `jsTrimStart` keeps only characters of the input. -/
theorem mem_jsTrimStart {s : Str} {c : Char} (h : c ∈ jsTrimStart s) : c ∈ s :=
  mem_of_dropWhile h

/-- `jsTrimEnd` keeps only characters of the input. -/
theorem mem_jsTrimEnd {s : Str} {c : Char} (h : c ∈ jsTrimEnd s) : c ∈ s := by
  unfold jsTrimEnd at h
  rw [List.mem_reverse] at h
  exact List.mem_reverse.1 (mem_of_dropWhile h)

/-- `jsTrim` keeps only characters of the input. -/
theorem mem_jsTrim {s : Str} {c : Char} (h : c ∈ jsTrim s) : c ∈ s :=
  mem_jsTrimEnd (mem_jsTrimStart h)

/-- `jsTrimStart` is the identity on strings with a non-whitespace head. -/
theorem jsTrimStart_cons {c : Char} (r : Str) (h : jsWs c = false) :
    jsTrimStart (c :: r) = c :: r := by
  unfold jsTrimStart
  rw [List.dropWhile_cons, h]
  simp

/-- `jsTrimEnd` passes a non-whitespace head through. -/
theorem jsTrimEnd_cons {c : Char} (r : Str) (h : jsWs c = false) :
    jsTrimEnd (c :: r) = c :: jsTrimEnd r := by
  unfold jsTrimEnd
  have : (c :: r).reverse = r.reverse ++ [c] := by simp
  rw [this, List.dropWhile_append]
  by_cases he : (r.reverse.dropWhile jsWs).isEmpty = true
  · rw [if_pos he]
    rw [List.isEmpty_iff] at he
    rw [he]
    simp [List.dropWhile_cons, h]
  · rw [if_neg he]
    simp

/-- An all-whitespace suffix is invisible to `jsTrimEnd`. -/
theorem jsTrimEnd_append_ws {w : Str} (s : Str) (hw : ∀ c ∈ w, jsWs c = true) :
    jsTrimEnd (s ++ w) = jsTrimEnd s := by
  unfold jsTrimEnd
  rw [List.reverse_append, List.dropWhile_append]
  have : w.reverse.dropWhile jsWs = [] := by
    rw [List.dropWhile_eq_nil_iff]
    intro x hx
    exact hw x (List.mem_reverse.1 hx)
  rw [this]
  simp

/-- The head of `jsTrim` output, read through a cons of a non-whitespace
character. -/
theorem jsTrim_cons_head {c : Char} {r : Str} (h : jsWs c = false) :
    jsTrim (c :: r) = c :: jsTrimEnd r := by
  unfold jsTrim
  rw [jsTrimEnd_cons r h, jsTrimStart_cons _ h]

/-- `getLast?` skips a cons onto a nonempty list. -/
theorem getLast?_cons_ne {a : α} {l : List α} (h : l ≠ []) :
    (a :: l).getLast? = l.getLast? := by
  have : a :: l = [a] ++ l := rfl
  rw [this, List.getLast?_append_of_ne_nil _ h]

/-- Trimming a string padded with one space on each side recovers it when
its own edges are non-whitespace. -/
theorem jsTrim_pad {s : Str} (hne : s ≠ []) (hh : headNotWs s)
    (hl : lastNotWs s) : jsTrim (' ' :: (s ++ [' '])) = s := by
  unfold jsTrim
  have h1 : jsTrimEnd (' ' :: (s ++ [' '])) = jsTrimEnd (' ' :: s) := by
    have : ' ' :: (s ++ [' ']) = (' ' :: s) ++ [' '] := by simp
    rw [this]
    exact jsTrimEnd_append_ws _ (by intro c hc; simp at hc; rw [hc]; rfl)
  rw [h1]
  have h2 : jsTrimEnd (' ' :: s) = ' ' :: s := by
    apply jsTrimEnd_fixed
    intro c hc
    rw [getLast?_cons_ne hne] at hc
    exact hl c hc
  rw [h2]
  unfold jsTrimStart
  rw [List.dropWhile_cons]
  have : jsWs ' ' = true := rfl
  rw [this]
  simp only [if_true]
  cases hs : s with
  | nil => exact absurd hs hne
  | cons c r =>
    rw [List.dropWhile_cons, hh c (by rw [hs]; rfl)]
    simp

/-- `jsTrim` output has a non-whitespace head. -/
theorem jsTrim_headNotWs (s : Str) : headNotWs (jsTrim s) :=
  jsTrimStart_headNotWs _

/-- `jsTrim` output has a non-whitespace last character. -/
theorem jsTrim_lastNotWs (s : Str) : lastNotWs (jsTrim s) :=
  jsTrimStart_lastNotWs (jsTrimEnd_lastNotWs s)

/-- `jsTrim` is idempotent. -/
theorem jsTrim_idem (s : Str) : jsTrim (jsTrim s) = jsTrim s :=
  jsTrim_fixed (jsTrim_headNotWs s) (jsTrim_lastNotWs s)

/-- A string without line feeds splits into a single line. -/
theorem splitLines_of_no_nl {s : Str} (h : '\n' ∉ s) : splitLines s = [s] := by
  induction s using splitLines.induct with
  | case1 => rfl
  | case2 rest ih => exact absurd (by simp) h
  | case3 rest ih => exact absurd (by simp) h
  | case4 c rest h1 h2 hnil ih => exact absurd hnil (splitLines_ne_nil rest)
  | case5 c rest h1 h2 l ls hcons ih =>
    have hr : '\n' ∉ rest := fun hm => h (List.mem_cons_of_mem _ hm)
    have := ih hr
    rw [hcons] at this
    injection this with e1 e2
    rw [splitLines.eq_4 c rest h1 h2, hcons, ← e1, ← e2]

/-- Splitting after an appended line feed peels off the leading line when
it contains no line feed and does not end in a carriage return. -/
theorem splitLines_append_nl {l : Str} (t : Str) (hnl : '\n' ∉ l)
    (hcr : l.getLast? ≠ some '\r') :
    splitLines (l ++ '\n' :: t) = l :: splitLines t := by
  induction l with
  | nil => simp [splitLines]
  | cons c l' ih =>
    have hc : c ≠ '\n' := fun h => hnl (by rw [h]; exact List.mem_cons_self _ _)
    have hnl' : '\n' ∉ l' := fun hm => hnl (List.mem_cons_of_mem _ hm)
    have h1 : ∀ r1 : Str, c = '\r' → l' ++ '\n' :: t = '\n' :: r1 → False := by
      intro r1 hcr' happ
      cases hl' : l' with
      | nil =>
        rw [hl'] at hcr
        exact hcr (by rw [hcr']; rfl)
      | cons d r' =>
        rw [hl'] at happ
        have : d = '\n' := by
          have := congrArg List.head? happ
          simpa using this
        exact hnl' (by rw [hl', this]; exact List.mem_cons_self _ _)
    have h2 : c = '\n' → False := hc
    have : (c :: l') ++ '\n' :: t = c :: (l' ++ '\n' :: t) := rfl
    rw [this, splitLines.eq_4 c _ h1 h2]
    cases hl' : l' with
    | nil =>
      simp only [List.nil_append]
      rw [splitLines.eq_3]
    | cons d r' =>
      have hcr' : l'.getLast? ≠ some '\r' := by
        rw [← getLast?_cons_ne (by rw [hl']; simp)]
        exact hcr
      rw [← hl', ih hnl' hcr']

/-- `joinLines` on a single line. -/
theorem joinLines_singleton (l : Str) : joinLines [l] = l := by
  simp [joinLines]

/-- `joinLines` peels off the first of at least two lines. -/
theorem joinLines_cons (l : Str) {L : List Str} (h : L ≠ []) :
    joinLines (l :: L) = l ++ '\n' :: joinLines L := by
  cases L with
  | nil => exact absurd rfl h
  | cons b t =>
    show (List.intersperse (lit "\n") (l :: b :: t)).flatten = _
    rw [List.intersperse_cons_cons]
    simp [joinLines, lit]

/-- Splitting inverts joining for line lists whose lines contain no line
feed and do not end in a carriage return. -/
theorem splitLines_joinLines {L : List Str} (hne : L ≠ [])
    (hnl : ∀ l ∈ L, '\n' ∉ l) (hcr : ∀ l ∈ L, l.getLast? ≠ some '\r') :
    splitLines (joinLines L) = L := by
  induction L with
  | nil => exact absurd rfl hne
  | cons l L' ih =>
    cases L' with
    | nil =>
      rw [joinLines_singleton]
      exact splitLines_of_no_nl (hnl l (List.mem_cons_self _ _))
    | cons b t =>
      have hL'ne : b :: t ≠ [] := by simp
      rw [joinLines_cons l hL'ne]
      rw [splitLines_append_nl _ (hnl l (List.mem_cons_self _ _))
        (hcr l (List.mem_cons_self _ _))]
      rw [ih hL'ne (fun x hx => hnl x (List.mem_cons_of_mem _ hx))
        (fun x hx => hcr x (List.mem_cons_of_mem _ hx))]

/-- `findIdxAux` over a mapped list with a transported predicate. -/
theorem findIdxAux_map {p : β → Bool} {q : α → Bool} {f : α → β}
    (h : ∀ a, p (f a) = q a) :
    ∀ (l : List α) (i : Nat), findIdxAux p (l.map f) i = findIdxAux q l i := by
  intro l
  induction l with
  | nil => intro i; rfl
  | cons a r ih =>
    intro i
    show findIdxAux p (f a :: r.map f) i = _
    unfold findIdxAux
    rw [h a]
    by_cases hq : q a
    · rw [hq]; simp
    · rw [Bool.not_eq_true] at hq
      rw [hq]
      simpa using ih (i + 1)

/-- `findIdxP` over a mapped list with a transported predicate. -/
theorem findIdxP_map {p : β → Bool} {q : α → Bool} {f : α → β}
    (h : ∀ a, p (f a) = q a) (l : List α) :
    findIdxP p (l.map f) = findIdxP q l :=
  findIdxAux_map h l 0

/-- `findIdxAux` misses exactly when the predicate fails everywhere. -/
theorem findIdxAux_none {p : α → Bool} :
    ∀ {l : List α} {i : Nat}, findIdxAux p l i = none ↔ ∀ x ∈ l, p x = false := by
  intro l
  induction l with
  | nil => intro i; simp [findIdxAux]
  | cons a r ih =>
    intro i
    unfold findIdxAux
    by_cases hp : p a
    · rw [hp]
      simp [hp]
    · rw [Bool.not_eq_true] at hp
      rw [hp]
      simp only [Bool.false_eq_true, if_false]
      rw [ih]
      constructor
      · intro hall x hx
        rcases List.mem_cons.1 hx with h | h
        · rw [h]; exact hp
        · exact hall x h
      · intro hall x hx
        exact hall x (List.mem_cons_of_mem _ hx)

/-- `findIdxP` misses exactly when the predicate fails everywhere. -/
theorem findIdxP_none {p : α → Bool} {l : List α} :
    findIdxP p l = none ↔ ∀ x ∈ l, p x = false :=
  findIdxAux_none

/-- A `findIdxAux` hit bounds the start index. -/
theorem findIdxAux_le {p : α → Bool} :
    ∀ {l : List α} {i j : Nat}, findIdxAux p l i = some j → i ≤ j := by
  intro l
  induction l with
  | nil => intro i j h; cases h
  | cons a r ih =>
    intro i j h
    unfold findIdxAux at h
    by_cases hp : p a
    · rw [hp] at h
      simp at h
      omega
    · rw [Bool.not_eq_true] at hp
      rw [hp] at h
      simp only [Bool.false_eq_true, if_false] at h
      have := ih h
      omega

/-- Everything before a `findIdxAux` hit fails the predicate. -/
theorem findIdxAux_take_false {p : α → Bool} :
    ∀ {l : List α} {i j : Nat}, findIdxAux p l i = some j →
      ∀ x ∈ l.take (j - i), p x = false := by
  intro l
  induction l with
  | nil => intro i j h x hx; simp at hx
  | cons a r ih =>
    intro i j h x hx
    unfold findIdxAux at h
    by_cases hp : p a
    · rw [hp] at h
      simp at h
      rw [h] at hx
      simp at hx
    · rw [Bool.not_eq_true] at hp
      rw [hp] at h
      simp only [Bool.false_eq_true, if_false] at h
      have hij : i + 1 ≤ j := findIdxAux_le h
      have hji : j - i = (j - (i + 1)) + 1 := by omega
      rw [hji] at hx
      rw [List.take_succ_cons] at hx
      rcases List.mem_cons.1 hx with he | he
      · rw [he]; exact hp
      · exact ih h x he

/-- Everything strictly before the found index fails the predicate. -/
theorem findIdxP_take_false {p : α → Bool} {l : List α} {k : Nat}
    (h : findIdxP p l = some k) : ∀ x ∈ l.take k, p x = false := by
  have := findIdxAux_take_false (p := p) h
  simpa using this

/-- `findIdxAux` on a list whose first hit is right behind a failing
prefix. -/
theorem findIdxAux_append_hit {p : α → Bool} {a : List α} {b : α}
    (ha : ∀ x ∈ a, p x = false) (hb : p b = true) :
    ∀ (r : List α) (i : Nat), findIdxAux p (a ++ b :: r) i = some (i + a.length) := by
  induction a with
  | nil =>
    intro r i
    show findIdxAux p (b :: r) i = _
    unfold findIdxAux
    rw [hb]
    simp
  | cons x a' ih =>
    intro r i
    show findIdxAux p (x :: (a' ++ b :: r)) i = _
    unfold findIdxAux
    rw [ha x (List.mem_cons_self _ _)]
    simp only [Bool.false_eq_true, if_false]
    rw [ih (fun y hy => ha y (List.mem_cons_of_mem _ hy)) r (i + 1)]
    simp
    omega

/-- `findIdxP` of a failing prefix followed by a hit. -/
theorem findIdxP_append_hit {p : α → Bool} {a : List α} {b : α}
    (ha : ∀ x ∈ a, p x = false) (hb : p b = true) (r : List α) :
    findIdxP p (a ++ b :: r) = some a.length := by
  have := findIdxAux_append_hit ha hb r 0
  simpa using this

/-- `dval` splits along list append. -/
theorem dval_append (v : Nat) (a b : Str) :
    dval v (a ++ b) = dval (dval v a) b := by
  unfold dval
  rw [List.foldl_append]

/-- `Nat.digitChar` of a value below ten is a decimal digit whose value it
carries. -/
theorem digitChar_below_ten {m : Nat} (h : m < 10) :
    Nat.digitChar m ∈ lit "0123456789" ∧
      (Nat.digitChar m).toNat - '0'.toNat = m := by
  interval_cases m <;> exact ⟨by decide, by decide⟩

/-- `Nat.toDigitsCore` with sufficient fuel prepends a nonempty digit
string carrying exactly the value of its input. -/
theorem toDigitsCore_spec :
    ∀ (fuel n : Nat) (ds : Str), n < fuel →
      ∃ pre, Nat.toDigitsCore 10 fuel n ds = pre ++ ds ∧ pre ≠ [] ∧
        (∀ c ∈ pre, c ∈ lit "0123456789") ∧
        ∀ v, dval v pre = v * 10 ^ pre.length + n := by
  intro fuel
  induction fuel with
  | zero => intro n ds h; omega
  | succ fuel ih =>
    intro n ds h
    have hm : n % 10 < 10 := Nat.mod_lt _ (by norm_num)
    obtain ⟨hdmem, hdval⟩ := digitChar_below_ten hm
    by_cases h0 : n / 10 = 0
    · refine ⟨[Nat.digitChar (n % 10)], ?_, by simp, ?_, ?_⟩
      · show Nat.toDigitsCore 10 (fuel + 1) n ds = _
        unfold Nat.toDigitsCore
        rw [if_pos h0]
        rfl
      · intro c hc
        simp at hc
        rw [hc]
        exact hdmem
      · intro v
        unfold dval
        simp only [List.foldl_cons, List.foldl_nil, List.length_cons,
          List.length_nil]
        rw [hdval]
        have : n % 10 = n := by omega
        rw [this]
        ring
    · have hlt : n / 10 < fuel := by omega
      obtain ⟨pre', heq, hne, hmem, hval⟩ :=
        ih (n / 10) (Nat.digitChar (n % 10) :: ds) hlt
      refine ⟨pre' ++ [Nat.digitChar (n % 10)], ?_, by simp, ?_, ?_⟩
      · show Nat.toDigitsCore 10 (fuel + 1) n ds = _
        unfold Nat.toDigitsCore
        rw [if_neg h0, heq]
        simp
      · intro c hc
        rcases List.mem_append.1 hc with h | h
        · exact hmem c h
        · simp at h
          rw [h]
          exact hdmem
      · intro v
        rw [dval_append, hval v]
        unfold dval
        simp only [List.foldl_cons, List.foldl_nil, List.length_append,
          List.length_cons, List.length_nil]
        rw [hdval]
        have hpow : (10 : Nat) ^ (pre'.length + (0 + 1)) =
            10 ^ pre'.length * 10 := by ring
        rw [hpow]
        have hcomm : v * (10 ^ pre'.length * 10) =
            v * 10 ^ pre'.length * 10 := by ring
        rw [hcomm]
        omega

/-- `Nat.toDigits 10` produces a nonempty decimal digit string whose
`digitsToNat` value is the original number. -/
theorem toDigits_spec (n : Nat) :
    Nat.toDigits 10 n ≠ [] ∧
      (∀ c ∈ Nat.toDigits 10 n, c ∈ lit "0123456789") ∧
      digitsToNat (Nat.toDigits 10 n) = n := by
  obtain ⟨pre, heq, hne, hmem, hval⟩ := toDigitsCore_spec (n + 1) n [] (by omega)
  have he : Nat.toDigits 10 n = pre := by
    show Nat.toDigitsCore 10 (n + 1) n [] = pre
    rw [heq]
    simp
  rw [he]
  refine ⟨hne, hmem, ?_⟩
  have : digitsToNat pre = dval 0 pre := rfl
  rw [this, hval 0]
  simp

/-- Decimal digit characters avoid every delimiter class the formatter
cares about. -/
theorem digit_char_classes {c : Char} (h : c ∈ lit "0123456789") :
    isDigit c = true ∧ jsWs c = false ∧ jsLT c = false ∧
      isOpenB c = false ∧ isCloseB c = false ∧ c ≠ '#' ∧ c ≠ '\n' := by
  have h' : c ∈ ['0', '1', '2', '3', '4', '5', '6', '7', '8', '9'] := h
  fin_cases h' <;> exact ⟨by decide, by decide, by decide, by decide,
    by decide, by decide, by decide⟩

/-- Opening brackets are never whitespace. -/
theorem isOpenB_not_ws {c : Char} (h : isOpenB c = true) : jsWs c = false := by
  simp only [isOpenB, Bool.or_eq_true, beq_iff_eq] at h
  rcases h with (h | h) | h <;> (subst h; decide)

/-- Closing brackets are never whitespace. -/
theorem isCloseB_not_ws {c : Char} (h : isCloseB c = true) : jsWs c = false := by
  simp only [isCloseB, Bool.or_eq_true, beq_iff_eq] at h
  rcases h with (h | h) | h <;> (subst h; decide)

/-- `depthStep` ignores whitespace characters. -/
theorem depthStep_ws {c : Char} (h : jsWs c = true) (d : Nat) :
    depthStep d c = d := by
  unfold depthStep
  by_cases ho : isOpenB c = true
  · rw [isOpenB_not_ws ho] at h; cases h
  · by_cases hc : isCloseB c = true
    · rw [isCloseB_not_ws hc] at h; cases h
    · rw [Bool.not_eq_true] at ho hc
      rw [ho, hc]
      simp

/-- `scanDepth` step equation. -/
theorem scanDepth_cons (d : Nat) (c : Char) (s : Str) :
    scanDepth d (c :: s) = scanDepth (depthStep d c) s := rfl

/-- `scanDepth` along an append. -/
theorem scanDepth_append (d : Nat) (a b : Str) :
    scanDepth d (a ++ b) = scanDepth (scanDepth d a) b := by
  unfold scanDepth
  rw [List.foldl_append]

/-- `chunkOk` step equation. -/
theorem chunkOk_cons (d : Nat) (c : Char) (rest : Str) :
    chunkOk d (c :: rest) =
      if depthStep d c = 0 && jsWs c then false
      else chunkOk (depthStep d c) rest := rfl

/-- `chunkOk` along an append. -/
theorem chunkOk_append {a b : Str} :
    ∀ {d : Nat}, chunkOk d (a ++ b) = (chunkOk d a && chunkOk (scanDepth d a) b) := by
  induction a with
  | nil => intro d; simp [chunkOk, scanDepth]
  | cons c a' ih =>
    intro d
    show chunkOk d (c :: (a' ++ b)) = _
    rw [chunkOk_cons, chunkOk_cons]
    by_cases hs : (depthStep d c = 0 && jsWs c) = true
    · rw [if_pos hs, if_pos hs]
      simp
    · rw [if_neg hs, if_neg hs, ih, scanDepth_cons]

/-- `splitTokensAux` at input end. -/
theorem splitTokensAux_nil (cur : Str) (d : Nat) :
    splitTokensAux [] cur d = if cur = [] then [] else [cur.reverse] := rfl

/-- `splitTokensAux` step equation. -/
theorem splitTokensAux_cons (c : Char) (rest cur : Str) (d : Nat) :
    splitTokensAux (c :: rest) cur d =
      if depthStep d c = 0 && jsWs c then
        (if cur = [] then splitTokensAux rest [] 0
         else cur.reverse :: splitTokensAux rest [] 0)
      else splitTokensAux rest (c :: cur) (depthStep d c) := rfl

/-- Scanning a chunk accumulates it without splitting. -/
theorem splitTokensAux_chunk {t : Str} :
    ∀ {d : Nat}, chunkOk d t = true → ∀ (r cur : Str),
      splitTokensAux (t ++ r) cur d =
        splitTokensAux r (t.reverse ++ cur) (scanDepth d t) := by
  induction t with
  | nil => intro d _ r cur; simp [scanDepth]
  | cons c t' ih =>
    intro d h r cur
    rw [chunkOk_cons] at h
    by_cases hs : (depthStep d c = 0 && jsWs c) = true
    · rw [if_pos hs] at h; cases h
    · rw [if_neg hs] at h
      show splitTokensAux (c :: (t' ++ r)) cur d = _
      rw [splitTokensAux_cons, if_neg hs, ih h r (c :: cur), scanDepth_cons]
      congr 1
      simp

/-- A depth-0 whitespace character flushes the current token. -/
theorem splitTokensAux_ws_cons {c : Char} (h : jsWs c = true) (r cur : Str) :
    splitTokensAux (c :: r) cur 0 =
      if cur = [] then splitTokensAux r [] 0
      else cur.reverse :: splitTokensAux r [] 0 := by
  rw [splitTokensAux_cons, depthStep_ws h]
  simp [h]

/-- `joinChar` on a single part. -/
theorem joinChar_singleton (sep : Char) (t : Str) : joinChar sep [t] = t := by
  simp [joinChar]

/-- `joinChar` peels off the first of at least two parts. -/
theorem joinChar_cons (sep : Char) (t : Str) {ts : List Str} (h : ts ≠ []) :
    joinChar sep (t :: ts) = t ++ sep :: joinChar sep ts := by
  cases ts with
  | nil => exact absurd rfl h
  | cons b r =>
    show (List.intersperse [sep] (t :: b :: r)).flatten = _
    rw [List.intersperse_cons_cons]
    simp [joinChar]

/-- Re-splitting space-joined joinable chunks recovers them exactly. -/
theorem splitTokens_joinChar :
    ∀ {ts : List Str}, ChunksJoinable ts → ts ≠ [] →
      splitTokens (joinChar ' ' ts) = ts := by
  intro ts
  induction ts with
  | nil => intro _ h; exact absurd rfl h
  | cons t ts' ih =>
    intro hcj _
    obtain ⟨hne, hok, hh, hl, hlast, hrest⟩ := hcj
    cases ts' with
    | nil =>
      rw [joinChar_singleton]
      show splitTokensAux t [] 0 = [t]
      have h1 : splitTokensAux (t ++ []) [] 0 =
          splitTokensAux [] (t.reverse ++ []) (scanDepth 0 t) :=
        splitTokensAux_chunk hok [] []
      rw [List.append_nil] at h1
      rw [h1]
      have hne' : t.reverse ++ [] ≠ [] := by simpa using hne
      rw [splitTokensAux_nil, if_neg hne']
      simp
    | cons b ts'' =>
      have hts'ne : b :: ts'' ≠ [] := by simp
      rw [joinChar_cons _ _ hts'ne]
      show splitTokensAux (t ++ ' ' :: joinChar ' ' (b :: ts'')) [] 0 = _
      rw [splitTokensAux_chunk hok]
      have hd0 : scanDepth 0 t = 0 := by
        rcases hlast with h | h
        · cases h
        · exact h
      rw [hd0, splitTokensAux_ws_cons (by decide)]
      have hne' : t.reverse ++ [] ≠ [] := by simpa using hne
      rw [if_neg hne']
      simp only [List.append_nil, List.reverse_reverse]
      have h2 := ih hrest hts'ne
      unfold splitTokens at h2
      rw [h2]

/-- The splitter invariant: with a consistent partial token and depth, the
output is a joinable chunk list.  The final hypothesis degenerates to a
non-whitespace partial-token head at input end. -/
theorem splitTokensAux_good :
    ∀ (s cur : Str) (d : Nat),
      (cur ≠ [] → headNotWs cur.reverse ∧ chunkOk 0 cur.reverse = true ∧
        scanDepth 0 cur.reverse = d) →
      (cur = [] → d = 0) →
      (∀ c, cur.head? = some c → jsWs c = true → d ≠ 0) →
      (if s = [] then ∀ c, cur.head? = some c → jsWs c = false
       else lastNotWs s) →
      ChunksJoinable (splitTokensAux s cur d) := by
  intro s
  induction s with
  | nil =>
    intro cur d hA _ _ hlast
    rw [if_pos rfl] at hlast
    show ChunksJoinable (if cur = [] then [] else [cur.reverse])
    by_cases hc : cur = []
    · rw [if_pos hc]
      exact trivial
    · rw [if_neg hc]
      obtain ⟨h1, h2, _⟩ := hA hc
      refine ⟨by simpa using hc, h2, h1, ?_, Or.inl rfl, trivial⟩
      intro c hcl
      rw [List.getLast?_reverse] at hcl
      exact hlast c hcl
  | cons c rest ih =>
    intro cur d hA hB hC hlast
    rw [if_neg (by simp)] at hlast
    have hlast' : if rest = [] then ∀ c', ([] : Str).head? = some c' → jsWs c' = false
        else lastNotWs rest := by
      by_cases hr : rest = []
      · rw [if_pos hr]
        intro c' hc'
        cases hc'
      · rw [if_neg hr]
        intro x hx
        apply hlast
        rw [getLast?_cons_ne hr]
        exact hx
    rw [splitTokensAux_cons]
    by_cases hs : (depthStep d c = 0 && jsWs c) = true
    · rw [if_pos hs]
      have hsp : depthStep d c = 0 ∧ jsWs c = true := by
        simpa [Bool.and_eq_true] using hs
      have hd : d = 0 := by
        rw [depthStep_ws hsp.2] at hsp
        exact hsp.1
      have htail : ChunksJoinable (splitTokensAux rest [] 0) :=
        ih [] 0 (fun h => absurd rfl h) (fun _ => rfl)
          (by intro c' hc'; cases hc') hlast'
      by_cases hc0 : cur = []
      · rw [if_pos hc0]
        exact htail
      · rw [if_neg hc0]
        obtain ⟨h1, h2, h3⟩ := hA hc0
        refine ⟨by simpa using hc0, h2, h1, ?_, Or.inr (by rw [h3, hd]), htail⟩
        intro x hx
        rw [List.getLast?_reverse] at hx
        cases hcur : cur with
        | nil => exact absurd hcur hc0
        | cons y ys =>
          rw [hcur] at hx
          injection hx with hxy
          rw [← hxy]
          by_cases hws : jsWs y = true
          · exact absurd hd (hC y (by rw [hcur]; rfl) hws)
          · exact Bool.not_eq_true _ ▸ hws
    · rw [if_neg hs]
      have hscan : scanDepth 0 cur.reverse = d := by
        by_cases hc0 : cur = []
        · rw [hc0, hB hc0]; rfl
        · exact (hA hc0).2.2
      have hchunk : chunkOk 0 cur.reverse = true := by
        by_cases hc0 : cur = []
        · rw [hc0]; rfl
        · exact (hA hc0).2.1
      apply ih (c :: cur) (depthStep d c)
      · intro _
        have hrev : (c :: cur).reverse = cur.reverse ++ [c] := by simp
        refine ⟨?_, ?_, ?_⟩
        · rw [hrev]
          intro x hx
          by_cases hc0 : cur = []
          · rw [hc0] at hx
            simp at hx
            rw [← hx]
            by_cases hws : jsWs c = true
            · exfalso
              apply hs
              rw [depthStep_ws hws, hB hc0]
              simp [hws]
            · exact Bool.not_eq_true _ ▸ hws
          · have hrne : cur.reverse ≠ [] := by simpa using hc0
            rw [List.head?_append_of_ne_nil _ hrne] at hx
            exact (hA hc0).1 x hx
        · rw [hrev, chunkOk_append, hchunk, hscan]
          rw [Bool.true_and, chunkOk_cons, if_neg hs]
          rfl
        · rw [hrev, scanDepth_append, hscan]
          rfl
      · intro h
        cases h
      · intro x hx hws
        injection hx with hxy
        rw [← hxy] at hws
        intro hd0
        apply hs
        rw [hd0]
        simp [hws]
      · by_cases hr : rest = []
        · rw [if_pos hr]
          intro x hx
          injection hx with hxy
          rw [← hxy]
          apply hlast
          rw [hr]
          rfl
        · rw [if_neg hr]
          intro x hx
          apply hlast
          rw [getLast?_cons_ne hr]
          exact hx

/-- `splitTokens` of a string with a non-whitespace last character
produces a joinable chunk list. -/
theorem splitTokens_good {s : Str} (h : lastNotWs s) :
    ChunksJoinable (splitTokens s) := by
  unfold splitTokens
  apply splitTokensAux_good s [] 0 (fun h => absurd rfl h) (fun _ => rfl)
    (by intro c hc; cases hc)
  by_cases hs : s = []
  · rw [if_pos hs]
    intro c hc
    cases hc
  · rw [if_neg hs]
    exact h

/-- `takeWhile` keeps an everywhere-satisfying list whole. -/
theorem takeWhile_all {p : α → Bool} :
    ∀ {l : List α}, (∀ x ∈ l, p x = true) → l.takeWhile p = l := by
  intro l
  induction l with
  | nil => intro _; rfl
  | cons a r ih =>
    intro h
    rw [List.takeWhile_cons, h a (List.mem_cons_self _ _)]
    simp only [if_true]
    rw [ih (fun x hx => h x (List.mem_cons_of_mem _ hx))]

/-- `dropWhile` drops an everywhere-satisfying list whole. -/
theorem dropWhile_all {p : α → Bool} {l : List α}
    (h : ∀ x ∈ l, p x = true) : l.dropWhile p = [] :=
  List.dropWhile_eq_nil_iff.2 (fun x hx => h x hx)

/-- `durBaseOf` inverts `durBaseChar`. -/
theorem durBaseOf_char (base : DurBase) :
    durBaseOf (durBaseChar base) = some base := by
  cases base <;> rfl

/-- `parseDuration` re-reads `formatDuration` output as the canonical
duration. -/
theorem parseDuration_formatDuration (d : Duration) :
    parseDuration (formatDuration d) = some (durCanon d) := by
  obtain ⟨base, dots, tuplet⟩ := d
  rcases tuplet with _ | n
  · rcases dots with _ | m
    · cases base <;> rfl
    · by_cases hm : m = 0
      · subst hm; cases base <;> rfl
      · simp only [formatDuration, durCanon, if_pos hm, hm, ite_true, ne_eq,
          not_false_eq_true]
        cases base <;> rfl
  · by_cases hn : n = 0
    · subst hn
      rcases dots with _ | m
      · cases base <;> rfl
      · by_cases hm : m = 0
        · subst hm; cases base <;> rfl
        · simp only [formatDuration, durCanon, if_pos hm, hm, ite_true, ne_eq,
            not_false_eq_true, ite_false, not_true_eq_false]
          cases base <;> rfl
    · obtain ⟨hne, hmem, hval⟩ := toDigits_spec n
      have hdig : ∀ c ∈ Nat.toDigits 10 n, isDigit c = true :=
        fun c hc => (digit_char_classes (hmem c hc)).1
      have htake : (Nat.toDigits 10 n).takeWhile isDigit = Nat.toDigits 10 n :=
        takeWhile_all hdig
      have hdrop : (Nat.toDigits 10 n).dropWhile isDigit = [] :=
        dropWhile_all hdig
      rcases dots with _ | m
      · have hfd : formatDuration ⟨base, none, some n⟩ =
            durBaseChar base :: '/' :: Nat.toDigits 10 n := by
          simp [formatDuration, hn]
        have hstep : parseDuration (durBaseChar base :: '/' :: Nat.toDigits 10 n) =
            (if ((Nat.toDigits 10 n).takeWhile isDigit ≠ [] &&
                (Nat.toDigits 10 n).dropWhile isDigit = []) = true then
              some ⟨base, none,
                some (digitsToNat ((Nat.toDigits 10 n).takeWhile isDigit))⟩
            else none) := by
          cases base <;> rfl
        rw [hfd, hstep, htake, hdrop]
        rw [if_pos (by simp [hne]), hval]
        simp [durCanon, hn]
      · by_cases hm : m = 0
        · subst hm
          have hfd : formatDuration ⟨base, some 0, some n⟩ =
              durBaseChar base :: '/' :: Nat.toDigits 10 n := by
            simp [formatDuration, hn]
          have hstep : parseDuration (durBaseChar base :: '/' :: Nat.toDigits 10 n) =
              (if ((Nat.toDigits 10 n).takeWhile isDigit ≠ [] &&
                  (Nat.toDigits 10 n).dropWhile isDigit = []) = true then
                some ⟨base, none,
                  some (digitsToNat ((Nat.toDigits 10 n).takeWhile isDigit))⟩
              else none) := by
            cases base <;> rfl
          rw [hfd, hstep, htake, hdrop]
          rw [if_pos (by simp [hne]), hval]
          simp [durCanon, hn]
        · have hfd : formatDuration ⟨base, some m, some n⟩ =
              durBaseChar base :: '.' :: '/' :: Nat.toDigits 10 n := by
            simp [formatDuration, hn, hm]
          have hstep : parseDuration
              (durBaseChar base :: '.' :: '/' :: Nat.toDigits 10 n) =
              (if ((Nat.toDigits 10 n).takeWhile isDigit ≠ [] &&
                  (Nat.toDigits 10 n).dropWhile isDigit = []) = true then
                some ⟨base, some 1,
                  some (digitsToNat ((Nat.toDigits 10 n).takeWhile isDigit))⟩
              else none) := by
            cases base <;> rfl
          rw [hfd, hstep, htake, hdrop]
          rw [if_pos (by simp [hne]), hval]
          simp [durCanon, hn, hm]

/-- `formatDuration` collapses to the same text on the canonical form. -/
theorem formatDuration_durCanon (d : Duration) :
    formatDuration (durCanon d) = formatDuration d := by
  obtain ⟨base, dots, tuplet⟩ := d
  rcases dots with _ | m <;> rcases tuplet with _ | n
  · rfl
  · by_cases hn : n = 0 <;> simp [durCanon, formatDuration, hn]
  · by_cases hm : m = 0 <;> simp [durCanon, formatDuration, hm]
  · by_cases hm : m = 0 <;> by_cases hn : n = 0 <;>
      simp [durCanon, formatDuration, hm, hn]

/-- Every character of a `formatDuration` output is a base letter, dot,
slash, or digit. -/
theorem formatDuration_chars {d : Duration} {c : Char}
    (h : c ∈ formatDuration d) :
    c ∈ lit "whqest./" ∨ c ∈ lit "0123456789" := by
  obtain ⟨base, dots, tuplet⟩ := d
  have hb : durBaseChar base ∈ lit "whqest./" := by cases base <;> decide
  simp only [formatDuration] at h
  rcases List.mem_cons.1 h with h | h
  · subst h
    exact Or.inl hb
  rcases List.mem_append.1 h with h | h
  · rcases dots with _ | m
    · cases h
    · by_cases hm : m = 0
      · rw [hm] at h
        simp at h
      · simp only [ne_eq, hm, not_false_eq_true, ite_true] at h
        simp at h
        subst h
        left
        decide
  · rcases tuplet with _ | n
    · cases h
    · by_cases hn : n = 0
      · rw [hn] at h
        simp at h
      · simp only [ne_eq, hn, not_false_eq_true, ite_true] at h
        rcases List.mem_cons.1 h with h | h
        · subst h
          left
          decide
        · exact Or.inr ((toDigits_spec n).2.1 c h)

/-- Formatter-duration characters avoid every delimiter class. -/
theorem fdChar_classes {c : Char}
    (h : c ∈ lit "whqest./" ∨ c ∈ lit "0123456789") :
    jsWs c = false ∧ jsLT c = false ∧ isOpenB c = false ∧ isCloseB c = false ∧
      c ≠ '#' ∧ c ≠ '\n' := by
  rcases h with h | h
  · have h' : c ∈ ['w', 'h', 'q', 'e', 's', 't', '.', '/'] := h
    fin_cases h' <;> exact ⟨by decide, by decide, by decide, by decide,
      by decide, by decide⟩
  · obtain ⟨_, h2, h3, h4, h5, h6, h7⟩ := digit_char_classes h
    exact ⟨h2, h3, h4, h5, h6, h7⟩

/-- A bracket-free whitespace-free string scans flat at any depth. -/
theorem chunkOk_of_plain {t : Str}
    (h : ∀ c ∈ t, jsWs c = false ∧ isOpenB c = false ∧ isCloseB c = false) :
    ∀ d, chunkOk d t = true ∧ scanDepth d t = d := by
  induction t with
  | nil => intro d; exact ⟨rfl, rfl⟩
  | cons c r ih =>
    intro d
    obtain ⟨hw, ho, hc⟩ := h c (List.mem_cons_self _ _)
    have hstep : depthStep d c = d := by
      unfold depthStep
      rw [ho, hc]
      simp
    have ih' := ih (fun x hx => h x (List.mem_cons_of_mem _ hx)) d
    constructor
    · rw [chunkOk_cons, hstep, hw]
      simp only [Bool.and_false, Bool.false_eq_true, if_false]
      exact ih'.1
    · rw [scanDepth_cons, hstep]
      exact ih'.2

/-- `formatDuration` output is never empty. -/
theorem formatDuration_ne_nil (d : Duration) : formatDuration d ≠ [] := by
  obtain ⟨base, dots, tuplet⟩ := d
  simp [formatDuration]

/-- `formatDuration` output is whitespace- and bracket-free. -/
theorem formatDuration_plain (d : Duration) :
    ∀ c ∈ formatDuration d, jsWs c = false ∧ isOpenB c = false ∧
      isCloseB c = false := by
  intro c hc
  obtain ⟨h1, _, h3, h4, _, _⟩ := fdChar_classes (formatDuration_chars hc)
  exact ⟨h1, h3, h4⟩

/-- A member reached through `getLast?`. -/
theorem mem_of_getLast? {l : List α} {a : α} (h : l.getLast? = some a) :
    a ∈ l := by
  exact List.mem_of_mem_getLast? h

/-- A member reached through `head?`. -/
theorem mem_of_head? {l : List α} {a : α} (h : l.head? = some a) : a ∈ l := by
  cases l with
  | nil => cases h
  | cons x r =>
    injection h with h
    rw [← h]
    exact List.mem_cons_self _ _

/-- All-non-whitespace strings have a non-whitespace last character. -/
theorem lastNotWs_of_all {t : Str} (h : ∀ c ∈ t, jsWs c = false) :
    lastNotWs t :=
  fun c hc => h c (mem_of_getLast? hc)

/-- All-non-whitespace strings have a non-whitespace head. -/
theorem headNotWs_of_all {t : Str} (h : ∀ c ∈ t, jsWs c = false) :
    headNotWs t :=
  fun c hc => h c (mem_of_head? hc)

/-- `normTokensAux` on a duration token. -/
theorem normTokensAux_cons_dur {tok : Str} {d : Duration}
    (h : parseDuration tok = some d) (cur : Option Duration) (rest : List Str) :
    normTokensAux cur (tok :: rest) = normTokensAux (some d) rest := by
  have e : normTokensAux cur (tok :: rest) =
      match parseDuration tok with
      | some d' => normTokensAux (some d') rest
      | none =>
        match cur with
        | some d' => formatDuration d' :: tok :: normTokensAux (some d') rest
        | none => tok :: normTokensAux none rest := rfl
  rw [e, h]

/-- `normTokensAux` on an event token with no carried duration. -/
theorem normTokensAux_cons_ev_none {tok : Str} (h : parseDuration tok = none)
    (rest : List Str) :
    normTokensAux none (tok :: rest) = tok :: normTokensAux none rest := by
  have e : normTokensAux none (tok :: rest) =
      match parseDuration tok with
      | some d' => normTokensAux (some d') rest
      | none => tok :: normTokensAux none rest := rfl
  rw [e, h]

/-- `normTokensAux` on an event token with a carried duration. -/
theorem normTokensAux_cons_ev_some {tok : Str} (h : parseDuration tok = none)
    (d : Duration) (rest : List Str) :
    normTokensAux (some d) (tok :: rest) =
      formatDuration d :: tok :: normTokensAux (some d) rest := by
  have e : normTokensAux (some d) (tok :: rest) =
      match parseDuration tok with
      | some d' => normTokensAux (some d') rest
      | none => formatDuration d :: tok :: normTokensAux (some d) rest := rfl
  rw [e, h]

/-- With a carried duration, the emitted list is empty or led by a
formatted duration token. -/
theorem normTokensAux_some_shape (rest : List Str) :
    ∀ d, normTokensAux (some d) rest = [] ∨
      ∃ e r, normTokensAux (some d) rest = formatDuration e :: r := by
  induction rest with
  | nil => intro d; exact Or.inl rfl
  | cons tok rest ih =>
    intro d
    cases hp : parseDuration tok with
    | some d' =>
      rw [normTokensAux_cons_dur hp]
      exact ih d'
    | none =>
      rw [normTokensAux_cons_ev_some hp]
      exact Or.inr ⟨d, _, rfl⟩

/-- On a list led by a formatted duration (or empty), the carried duration
is irrelevant. -/
theorem normTokensAux_indep {out : List Str}
    (h : out = [] ∨ ∃ e r, out = formatDuration e :: r)
    (c c' : Option Duration) :
    normTokensAux c out = normTokensAux c' out := by
  rcases h with h | ⟨e, r, h⟩
  · rw [h]; rfl
  · rw [h, normTokensAux_cons_dur (parseDuration_formatDuration e),
      normTokensAux_cons_dur (parseDuration_formatDuration e)]

/-- Reprocessing `normTokensAux` output with the canonicalized carried
duration is the identity. -/
theorem normTokensAux_restabilize (ts : List Str) :
    ∀ cur, normTokensAux (cur.map durCanon) (normTokensAux cur ts) =
      normTokensAux cur ts := by
  induction ts with
  | nil => intro cur; rfl
  | cons tok rest ih =>
    intro cur
    cases hp : parseDuration tok with
    | some d =>
      rw [normTokensAux_cons_dur hp]
      calc normTokensAux (cur.map durCanon) (normTokensAux (some d) rest)
          = normTokensAux ((some d).map durCanon)
              (normTokensAux (some d) rest) :=
            normTokensAux_indep (normTokensAux_some_shape rest d) _ _
        _ = normTokensAux (some d) rest := ih (some d)
    | none =>
      cases cur with
      | none =>
        rw [normTokensAux_cons_ev_none hp]
        show normTokensAux none (tok :: normTokensAux none rest) = _
        rw [normTokensAux_cons_ev_none hp]
        have := ih none
        simp only [Option.map_none'] at this
        rw [this]
      | some d =>
        rw [normTokensAux_cons_ev_some hp]
        show normTokensAux (some (durCanon d))
            (formatDuration d :: tok :: normTokensAux (some d) rest) = _
        rw [normTokensAux_cons_dur (parseDuration_formatDuration d)]
        rw [normTokensAux_cons_ev_some hp]
        rw [formatDuration_durCanon]
        have := ih (some d)
        simp only [Option.map_some'] at this
        rw [this]

/-- `normTokensAux none` is idempotent. -/
theorem normTokensAux_idem (ts : List Str) :
    normTokensAux none (normTokensAux none ts) = normTokensAux none ts := by
  have := normTokensAux_restabilize ts none
  simpa using this

/-- `normTokensAux` preserves chunk joinability. -/
theorem normTokensAux_joinable :
    ∀ {ts : List Str}, ChunksJoinable ts → ∀ cur,
      ChunksJoinable (normTokensAux cur ts) := by
  intro ts
  induction ts with
  | nil => intro _ cur; exact trivial
  | cons tok rest ih =>
    intro hcj cur
    obtain ⟨hne, hok, hh, hl, hlast, hrest⟩ := hcj
    have htailor : ∀ c : Option Duration,
        normTokensAux c rest = [] ∨ scanDepth 0 tok = 0 := by
      intro c
      rcases hlast with h | h
      · left; rw [h]; rfl
      · right; exact h
    cases hp : parseDuration tok with
    | some d =>
      rw [normTokensAux_cons_dur hp]
      exact ih hrest (some d)
    | none =>
      cases cur with
      | none =>
        rw [normTokensAux_cons_ev_none hp]
        exact ⟨hne, hok, hh, hl, htailor none, ih hrest none⟩
      | some d =>
        rw [normTokensAux_cons_ev_some hp]
        have hplain := formatDuration_plain d
        have hchunk := chunkOk_of_plain hplain 0
        refine ⟨formatDuration_ne_nil d, hchunk.1,
          headNotWs_of_all (fun c hc => (hplain c hc).1),
          lastNotWs_of_all (fun c hc => (hplain c hc).1),
          Or.inr hchunk.2,
          hne, hok, hh, hl, htailor (some d), ih hrest (some d)⟩

/-- The definitional step of `measureTokensToEvents` on a cons. -/
theorem mte_cons_eq (idx : Nat) (tok : Str) (rest : List Str)
    (cur : Option Duration) :
    measureTokensToEvents idx (tok :: rest) cur =
      match parseDuration tok with
      | some d' => measureTokensToEvents idx rest (some d')
      | none =>
        match cur with
        | none =>
          .error (lit "Missing duration before token \"" ++ tok ++
            lit "\" in measure " ++ Nat.toDigits 10 idx)
        | some d' =>
          match tok with
          | 'r' :: _ =>
            match parseRest tok with
            | .error e1 => .error e1
            | .ok anns =>
              match measureTokensToEvents idx rest (some d') with
              | .error e1 => .error e1
              | .ok evs => .ok (Event.rest d' anns :: evs)
          | '[' :: _ =>
            match parseChord tok with
            | .error e1 => .error e1
            | .ok (notes, anns) =>
              match measureTokensToEvents idx rest (some d') with
              | .error e1 => .error e1
              | .ok evs => .ok (Event.chord d' notes anns :: evs)
          | '(' :: _ =>
            match parseNote tok with
            | .error e1 => .error e1
            | .ok (note, anns) =>
              match measureTokensToEvents idx rest (some d') with
              | .error e1 => .error e1
              | .ok evs => .ok (Event.note d' note anns :: evs)
          | _ => .error (lit "Unknown token: " ++ tok) := rfl

/-- `measureTokensToEvents` on a duration token. -/
theorem mte_cons_dur {tok : Str} {d : Duration}
    (h : parseDuration tok = some d) (idx : Nat) (rest : List Str)
    (cur : Option Duration) :
    measureTokensToEvents idx (tok :: rest) cur =
      measureTokensToEvents idx rest (some d) := by
  rw [mte_cons_eq, h]

/-- The definitional step of `measureTokensToEvents` on an event token
with a carried duration. -/
theorem mte_cons_ev_some (tok : Str) (idx : Nat) (rest : List Str)
    (d : Duration) :
    parseDuration tok = none →
    measureTokensToEvents idx (tok :: rest) (some d) =
      match tok with
      | 'r' :: _ =>
        match parseRest tok with
        | .error e1 => .error e1
        | .ok anns =>
          match measureTokensToEvents idx rest (some d) with
          | .error e1 => .error e1
          | .ok evs => .ok (Event.rest d anns :: evs)
      | '[' :: _ =>
        match parseChord tok with
        | .error e1 => .error e1
        | .ok (notes, anns) =>
          match measureTokensToEvents idx rest (some d) with
          | .error e1 => .error e1
          | .ok evs => .ok (Event.chord d notes anns :: evs)
      | '(' :: _ =>
        match parseNote tok with
        | .error e1 => .error e1
        | .ok (note, anns) =>
          match measureTokensToEvents idx rest (some d) with
          | .error e1 => .error e1
          | .ok evs => .ok (Event.note d note anns :: evs)
      | _ => .error (lit "Unknown token: " ++ tok) := by
  intro h
  rw [mte_cons_eq, h]

/-- A successful event step of `measureTokensToEvents` forces a carried
duration and a successful remainder. -/
theorem mte_ev_inv {tok : Str} (h : parseDuration tok = none) {idx : Nat}
    {rest : List Str} {cur : Option Duration}
    (hok : (measureTokensToEvents idx (tok :: rest) cur).isOk = true) :
    ∃ d, cur = some d ∧
      (measureTokensToEvents idx rest (some d)).isOk = true := by
  cases cur with
  | none =>
    rw [mte_cons_eq, h] at hok
    simp [Except.isOk, Except.toBool] at hok
  | some d =>
    refine ⟨d, rfl, ?_⟩
    rw [mte_cons_ev_some tok idx rest d h] at hok
    split at hok
    · split at hok
      · simp [Except.isOk, Except.toBool] at hok
      · split at hok
        · simp [Except.isOk, Except.toBool] at hok
        · rename_i evs heq
          rw [heq]
          rfl
    · split at hok
      · simp [Except.isOk, Except.toBool] at hok
      · split at hok
        · simp [Except.isOk, Except.toBool] at hok
        · rename_i evs heq
          rw [heq]
          rfl
    · split at hok
      · simp [Except.isOk, Except.toBool] at hok
      · split at hok
        · simp [Except.isOk, Except.toBool] at hok
        · rename_i evs heq
          rw [heq]
          rfl
    · simp [Except.isOk, Except.toBool] at hok

/-- A token list the parser accepts normalizes to a list in which every
event token directly follows a duration token. -/
theorem durPreceded_norm :
    ∀ (toks : List Str) (idx : Nat) (cur : Option Duration) (b : Bool),
      (measureTokensToEvents idx toks cur).isOk = true →
      durPrecededAux b (normTokensAux cur toks) = true := by
  intro toks
  induction toks with
  | nil => intro idx cur b _; rfl
  | cons tok rest ih =>
    intro idx cur b hok
    cases hp : parseDuration tok with
    | some d =>
      rw [normTokensAux_cons_dur hp]
      rw [mte_cons_dur hp] at hok
      exact ih idx (some d) b hok
    | none =>
      obtain ⟨d, hcur, hrec⟩ := mte_ev_inv hp hok
      subst hcur
      rw [normTokensAux_cons_ev_some hp]
      unfold durPrecededAux
      rw [parseDuration_formatDuration d]
      unfold durPrecededAux
      rw [hp]
      simp only [Bool.true_and]
      exact ih idx (some d) false hrec

/-- Tokens emitted by `normTokensAux` come from the input or from
`formatDuration`. -/
theorem normTokensAux_mem :
    ∀ {ts : List Str} {t : Str} (cur : Option Duration),
      t ∈ normTokensAux cur ts → t ∈ ts ∨ ∃ e, t = formatDuration e := by
  intro ts
  induction ts with
  | nil => intro t cur h; cases h
  | cons tok rest ih =>
    intro t cur h
    cases hp : parseDuration tok with
    | some d =>
      rw [normTokensAux_cons_dur hp] at h
      rcases ih (some d) h with h | h
      · exact Or.inl (List.mem_cons_of_mem _ h)
      · exact Or.inr h
    | none =>
      cases cur with
      | none =>
        rw [normTokensAux_cons_ev_none hp] at h
        rcases List.mem_cons.1 h with h | h
        · exact Or.inl (h ▸ List.mem_cons_self _ _)
        · rcases ih none h with h | h
          · exact Or.inl (List.mem_cons_of_mem _ h)
          · exact Or.inr h
      | some d =>
        rw [normTokensAux_cons_ev_some hp] at h
        rcases List.mem_cons.1 h with h | h
        · exact Or.inr ⟨d, h⟩
        · rcases List.mem_cons.1 h with h | h
          · exact Or.inl (h ▸ List.mem_cons_self _ _)
          · rcases ih (some d) h with h | h
            · exact Or.inl (List.mem_cons_of_mem _ h)
            · exact Or.inr h

/-- Characters of a `joinChar` are the separator or token characters. -/
theorem mem_joinChar {sep : Char} :
    ∀ {ts : List Str} {c : Char}, c ∈ joinChar sep ts →
      c = sep ∨ ∃ t ∈ ts, c ∈ t := by
  intro ts
  induction ts with
  | nil => intro c h; cases h
  | cons t ts' ih =>
    intro c h
    cases ts' with
    | nil =>
      rw [joinChar_singleton] at h
      exact Or.inr ⟨t, List.mem_cons_self _ _, h⟩
    | cons b r =>
      rw [joinChar_cons _ _ (by simp)] at h
      rcases List.mem_append.1 h with h | h
      · exact Or.inr ⟨t, List.mem_cons_self _ _, h⟩
      · rcases List.mem_cons.1 h with h | h
        · exact Or.inl h
        · rcases ih h with h | ⟨u, hu, hcu⟩
          · exact Or.inl h
          · exact Or.inr ⟨u, List.mem_cons_of_mem _ hu, hcu⟩

/-- Characters of `splitTokensAux` tokens come from the input or the
partial token. -/
theorem splitTokensAux_chars :
    ∀ (s cur : Str) (d : Nat) {t : Str}, t ∈ splitTokensAux s cur d →
      ∀ {c : Char}, c ∈ t → c ∈ s ∨ c ∈ cur := by
  intro s
  induction s with
  | nil =>
    intro cur d t ht c hc
    rw [splitTokensAux_nil] at ht
    by_cases h : cur = []
    · rw [if_pos h] at ht
      cases ht
    · rw [if_neg h] at ht
      simp at ht
      subst ht
      exact Or.inr (List.mem_reverse.1 hc)
  | cons a s' ih =>
    intro cur d t ht c hc
    rw [splitTokensAux_cons] at ht
    by_cases hs : (depthStep d a = 0 && jsWs a) = true
    · rw [if_pos hs] at ht
      by_cases h : cur = []
      · rw [if_pos h] at ht
        rcases ih [] 0 ht hc with h' | h'
        · exact Or.inl (List.mem_cons_of_mem _ h')
        · cases h'
      · rw [if_neg h] at ht
        rcases List.mem_cons.1 ht with h' | h'
        · subst h'
          exact Or.inr (List.mem_reverse.1 hc)
        · rcases ih [] 0 h' hc with h'' | h''
          · exact Or.inl (List.mem_cons_of_mem _ h'')
          · cases h''
    · rw [if_neg hs] at ht
      rcases ih (a :: cur) (depthStep d a) ht hc with h' | h'
      · exact Or.inl (List.mem_cons_of_mem _ h')
      · rcases List.mem_cons.1 h' with h'' | h''
        · exact Or.inl (h'' ▸ List.mem_cons_self _ _)
        · exact Or.inr h''

/-- Characters of `splitTokens` tokens come from the input. -/
theorem splitTokens_chars {s t : Str} (ht : t ∈ splitTokens s) {c : Char}
    (hc : c ∈ t) : c ∈ s := by
  rcases splitTokensAux_chars s [] 0 ht hc with h | h
  · exact h
  · cases h

/-- A joinable chunk join is empty only for the empty list, and has a
non-whitespace head. -/
theorem joinChar_headNotWs :
    ∀ {ts : List Str}, ChunksJoinable ts → headNotWs (joinChar ' ' ts) := by
  intro ts h
  cases ts with
  | nil => intro c hc; cases hc
  | cons t ts' =>
    obtain ⟨hne, _, hh, _, _, _⟩ := h
    intro c hc
    cases ts' with
    | nil =>
      rw [joinChar_singleton] at hc
      exact hh c hc
    | cons b r =>
      rw [joinChar_cons _ _ (by simp)] at hc
      rw [List.head?_append_of_ne_nil _ hne] at hc
      exact hh c hc

/-- A nonempty joinable chunk join is nonempty. -/
theorem joinChar_ne_nil {t : Str} {ts : List Str}
    (h : ChunksJoinable (t :: ts)) : joinChar ' ' (t :: ts) ≠ [] := by
  obtain ⟨hne, _, _, _, _, _⟩ := h
  cases ts with
  | nil => rw [joinChar_singleton]; exact hne
  | cons b r =>
    rw [joinChar_cons _ _ (by simp)]
    intro hx
    rcases List.append_eq_nil.1 hx with ⟨h1, _⟩
    exact hne h1

/-- A joinable chunk join ends in a non-whitespace character. -/
theorem joinChar_lastNotWs :
    ∀ {ts : List Str}, ChunksJoinable ts → lastNotWs (joinChar ' ' ts) := by
  intro ts
  induction ts with
  | nil => intro _ c hc; cases hc
  | cons t ts' ih =>
    intro h
    obtain ⟨hne, _, _, hl, _, hrest⟩ := h
    cases ts' with
    | nil =>
      rw [joinChar_singleton]
      exact hl
    | cons b r =>
      rw [joinChar_cons _ _ (by simp)]
      intro c hc
      rw [List.getLast?_append_of_ne_nil _ (by simp)] at hc
      rw [getLast?_cons_ne (joinChar_ne_nil hrest)] at hc
      exact ih hrest c hc

/-- `takeWhile` over a satisfying prefix stopped by its successor. -/
theorem takeWhile_append_stop {p : α → Bool} {a : List α} {b : α}
    (ha : ∀ x ∈ a, p x = true) (hb : p b = false) (r : List α) :
    (a ++ b :: r).takeWhile p = a := by
  induction a with
  | nil =>
    show (b :: r).takeWhile p = []
    rw [List.takeWhile_cons, hb]
    simp
  | cons x a' ih =>
    show (x :: (a' ++ b :: r)).takeWhile p = x :: a'
    rw [List.takeWhile_cons, ha x (List.mem_cons_self _ _)]
    simp only [if_true]
    rw [ih (fun y hy => ha y (List.mem_cons_of_mem _ hy))]

/-- `dropWhile` over a satisfying prefix stopped by its successor. -/
theorem dropWhile_append_stop {p : α → Bool} {a : List α} {b : α}
    (ha : ∀ x ∈ a, p x = true) (hb : p b = false) (r : List α) :
    (a ++ b :: r).dropWhile p = b :: r := by
  induction a with
  | nil =>
    show (b :: r).dropWhile p = b :: r
    rw [List.dropWhile_cons, hb]
    simp
  | cons x a' ih =>
    show (x :: (a' ++ b :: r)).dropWhile p = b :: r
    rw [List.dropWhile_cons, ha x (List.mem_cons_self _ _)]
    simp only [if_true]
    exact ih (fun y hy => ha y (List.mem_cons_of_mem _ hy))

/-- `lastPipeSplit` of a pipe followed by whitespace recovers the prefix. -/
theorem lastPipeSplit_append {x w : Str} (hw : ∀ c ∈ w, jsWs c = true) :
    lastPipeSplit (x ++ '|' :: w) = some x := by
  unfold lastPipeSplit
  have hrev : (x ++ '|' :: w).reverse = w.reverse ++ '|' :: x.reverse := by
    simp
  rw [hrev, List.dropWhile_append]
  have h1 : w.reverse.dropWhile jsWs = [] :=
    dropWhile_all (fun c hc => hw c (List.mem_reverse.1 hc))
  rw [h1]
  simp only [List.isEmpty_nil, if_true]
  rw [List.dropWhile_cons]
  have : jsWs '|' = false := by decide
  rw [this]
  simp

/-- A successful `lastPipeSplit` keeps only input characters. -/
theorem lastPipeSplit_chars {r between : Str}
    (h : lastPipeSplit r = some between) : ∀ c ∈ between, c ∈ r := by
  unfold lastPipeSplit at h
  split at h
  · rename_i before heq
    injection h with h'
    subst h'
    intro c hc
    have h1 : c ∈ before := List.mem_reverse.1 hc
    have h2 : c ∈ '|' :: before := List.mem_cons_of_mem _ h1
    rw [← heq] at h2
    exact List.mem_reverse.1 (mem_of_dropWhile h2)
  · cases h

/-- The definitional step of `matchMeasureCore` on an `m`-led line. -/
theorem matchMeasureCore_cons (rest : Str) :
    matchMeasureCore ('m' :: rest) =
      (if rest.takeWhile isDigit = [] then none else
       match rest.dropWhile isDigit with
       | ':' :: rest3 =>
         match jsTrimStart rest3 with
         | '|' :: r =>
           match lastPipeSplit r with
           | some between => some (rest.takeWhile isDigit, between)
           | none => none
         | _ => none
       | _ => none) := rfl

/-- `matchMeasureCore` accepts the shape the formatter assembles. -/
theorem matchMeasureCore_mk {ds t w : Str} (hds : ds ≠ [])
    (hdig : ∀ c ∈ ds, isDigit c = true) (hw : ∀ c ∈ w, jsWs c = true) :
    matchMeasureCore
      ('m' :: (ds ++ ':' :: ' ' :: '|' :: (t ++ '|' :: w))) =
      some (ds, t) := by
  have hcolon : isDigit ':' = false := by decide
  have htake := takeWhile_append_stop hdig hcolon
    (' ' :: '|' :: (t ++ '|' :: w))
  have hdrop := dropWhile_append_stop hdig hcolon
    (' ' :: '|' :: (t ++ '|' :: w))
  have htrim : jsTrimStart (' ' :: '|' :: (t ++ '|' :: w)) =
      '|' :: (t ++ '|' :: w) := by
    unfold jsTrimStart
    rw [List.dropWhile_cons]
    have h1 : jsWs ' ' = true := by decide
    rw [h1]
    simp only [if_true]
    rw [List.dropWhile_cons]
    have h2 : jsWs '|' = false := by decide
    rw [h2]
    simp
  rw [matchMeasureCore_cons, htake, if_neg hds, hdrop]
  show (match jsTrimStart (' ' :: '|' :: (t ++ '|' :: w)) with
        | '|' :: r =>
          match lastPipeSplit r with
          | some between => some (ds, between)
          | none => none
        | _ => none) = some (ds, t)
  rw [htrim]
  show (match lastPipeSplit (t ++ '|' :: w) with
        | some between => some (ds, between)
        | none => none) = some (ds, t)
  rw [lastPipeSplit_append hw]

/-- What a successful `matchMeasureCore` reveals about its input. -/
theorem matchMeasureCore_inv {line ds between : Str}
    (h : matchMeasureCore line = some (ds, between)) :
    ds ≠ [] ∧ (∀ c ∈ ds, isDigit c = true) ∧ (∀ c ∈ between, c ∈ line) ∧
      line.head? = some 'm' := by
  cases line with
  | nil => exact Option.noConfusion h
  | cons c rest0 =>
    by_cases hc : c = 'm'
    case neg =>
      exfalso
      unfold matchMeasureCore at h
      split at h
      · rename_i rest heq
        injection heq with hc' _
        exact hc hc'
      · exact Option.noConfusion h
    case pos =>
      subst hc
      rw [matchMeasureCore_cons] at h
      by_cases h0 : rest0.takeWhile isDigit = []
      · rw [if_pos h0] at h
        cases h
      · rw [if_neg h0] at h
        split at h
        · rename_i rest3 heq1
          split at h
          · rename_i r heq2
            split at h
            · rename_i between' heq3
              rw [Option.some.injEq, Prod.mk.injEq] at h
              obtain ⟨h1, h2⟩ := h
              refine ⟨h1 ▸ h0, ?_, ?_, rfl⟩
              · intro x hx
                rw [← h1] at hx
                exact List.mem_takeWhile_imp hx
              · intro x hx
                rw [← h2] at hx
                have hx1 := lastPipeSplit_chars heq3 x hx
                have hx2 : x ∈ jsTrimStart rest3 := by
                  rw [heq2]
                  exact List.mem_cons_of_mem _ hx1
                have hx3 : x ∈ rest3 := mem_jsTrimStart hx2
                have hx4 : x ∈ rest0.dropWhile isDigit := by
                  rw [heq1]
                  exact List.mem_cons_of_mem _ hx3
                exact List.mem_cons_of_mem _ (mem_of_dropWhile hx4)
            · cases h
          · cases h
        · cases h

/-- A successful `matchMeasureParser` is a successful core match on a
terminator-free between-pipes text. -/
theorem matchMeasureParser_inv {line ds between : Str}
    (h : matchMeasureParser line = some (ds, between)) :
    matchMeasureCore line = some (ds, between) ∧ hasLT between = false := by
  unfold matchMeasureParser at h
  split at h
  · rename_i ds' between' heq
    by_cases hlt : hasLT between' = true
    · rw [if_pos hlt] at h
      cases h
    · rw [if_neg hlt] at h
      rw [Option.some.injEq, Prod.mk.injEq] at h
      obtain ⟨h1, h2⟩ := h
      subst h1
      subst h2
      exact ⟨heq, Bool.not_eq_true _ ▸ hlt⟩
  · cases h

/-- A core match with a terminator-free between text makes the parser
regex succeed. -/
theorem matchMeasureParser_of_core {line ds between : Str}
    (hcore : matchMeasureCore line = some (ds, between))
    (hlt : hasLT between = false) :
    matchMeasureParser line = some (ds, between) := by
  unfold matchMeasureParser
  rw [hcore]
  show (if hasLT between then none else some (ds, between)) = some (ds, between)
  rw [hlt]
  simp

/-- What a successful `matchMeasureFmt` reveals. -/
theorem matchMeasureFmt_inv {line ds content : Str}
    (h : matchMeasureFmt line = some (ds, content)) :
    ∃ between, matchMeasureCore (jsTrimStart line) = some (ds, between) ∧
      content = jsTrim between ∧ hasLT content = false := by
  unfold matchMeasureFmt at h
  split at h
  · rename_i ds' between heq
    by_cases hlt : hasLT (jsTrim between) = true
    · rw [if_pos hlt] at h
      cases h
    · rw [if_neg hlt] at h
      rw [Option.some.injEq, Prod.mk.injEq] at h
      obtain ⟨h1, h2⟩ := h
      subst h1
      exact ⟨between, heq, h2.symm, h2 ▸ Bool.not_eq_true _ ▸ hlt⟩
  · cases h

/-- A core match on the start-trimmed line with a terminator-free trimmed
between text makes the formatter regex succeed. -/
theorem matchMeasureFmt_of_core {line ds between : Str}
    (hcore : matchMeasureCore (jsTrimStart line) = some (ds, between))
    (hlt : hasLT (jsTrim between) = false) :
    matchMeasureFmt line = some (ds, jsTrim between) := by
  unfold matchMeasureFmt
  rw [hcore]
  show (if hasLT (jsTrim between) then none else some (ds, jsTrim between)) =
    some (ds, jsTrim between)
  rw [hlt]
  simp

/-- `normalizeMeasureTokens` as an unconditional join of the normalized
token list. -/
theorem normalizeMeasureTokens_repr (content : Str) :
    normalizeMeasureTokens content =
      joinChar ' ' (normTokensAux none (splitTokens (jsTrim content))) := by
  have e : normalizeMeasureTokens content =
      (if splitTokens (jsTrim content) = [] then []
       else joinChar ' ' (normTokensAux none (splitTokens (jsTrim content)))) :=
    rfl
  rw [e]
  by_cases h0 : splitTokens (jsTrim content) = []
  · rw [if_pos h0, h0]
    rfl
  · rw [if_neg h0]

/-- Characters of a normalized measure content come from the input, the
space separator, or a formatted duration. -/
theorem normalizeMeasureTokens_chars {content : Str} {c : Char}
    (hc : c ∈ normalizeMeasureTokens content) :
    c ∈ content ∨ c = ' ' ∨ c ∈ lit "whqest./" ∨ c ∈ lit "0123456789" := by
  rw [normalizeMeasureTokens_repr] at hc
  rcases mem_joinChar hc with h | ⟨t, ht, hct⟩
  · exact Or.inr (Or.inl h)
  · rcases normTokensAux_mem none ht with h | ⟨e, he⟩
    · exact Or.inl (mem_jsTrim (splitTokens_chars h hct))
    · subst he
      rcases formatDuration_chars hct with h | h
      · exact Or.inr (Or.inr (Or.inl h))
      · exact Or.inr (Or.inr (Or.inr h))

/-- Normalizing an already-normalized measure content changes nothing. -/
theorem normalizeMeasureTokens_stable {content : Str}
    (hh : headNotWs content) (hl : lastNotWs content) :
    normalizeMeasureTokens (normalizeMeasureTokens content) =
      normalizeMeasureTokens content := by
  have hCJ0 : ChunksJoinable (splitTokens content) := splitTokens_good hl
  have hCJE : ChunksJoinable (normTokensAux none (splitTokens content)) :=
    normTokensAux_joinable hCJ0 none
  have hrepr : normalizeMeasureTokens content =
      joinChar ' ' (normTokensAux none (splitTokens content)) := by
    rw [normalizeMeasureTokens_repr, jsTrim_fixed hh hl]
  by_cases hN : normalizeMeasureTokens content = []
  · rw [hN]
    rfl
  · have hEne : normTokensAux none (splitTokens content) ≠ [] := by
      intro he
      apply hN
      rw [hrepr, he]
      rfl
    have hNh : headNotWs (normalizeMeasureTokens content) := by
      rw [hrepr]
      exact joinChar_headNotWs hCJE
    have hNl : lastNotWs (normalizeMeasureTokens content) := by
      rw [hrepr]
      exact joinChar_lastNotWs hCJE
    rw [normalizeMeasureTokens_repr (normalizeMeasureTokens content)]
    rw [jsTrim_fixed hNh hNl]
    have hsplit : splitTokens (normalizeMeasureTokens content) =
        normTokensAux none (splitTokens content) := by
      rw [hrepr]
      exact splitTokens_joinChar hCJE hEne
    rw [hsplit, normTokensAux_idem, ← hrepr]

/-- The definitional unfolding of `formatMeasureLine`. -/
theorem formatMeasureLine_eq (line : Str) :
    formatMeasureLine line =
      match matchMeasureFmt line with
      | none => none
      | some (ds, content) =>
        some ('m' :: ds ++ (':' :: ' ' :: '|' ::
          (if normalizeMeasureTokens content = [] then [' ']
           else ' ' :: (normalizeMeasureTokens content ++ [' ']))) ++ ['|']) :=
  rfl

/-- What a successful `formatMeasureLine` reveals. -/
theorem formatMeasureLine_inv {line fm : Str}
    (h : formatMeasureLine line = some fm) :
    ∃ ds content, matchMeasureFmt line = some (ds, content) ∧
      fm = 'm' :: ds ++ (':' :: ' ' :: '|' ::
        (if normalizeMeasureTokens content = [] then [' ']
         else ' ' :: (normalizeMeasureTokens content ++ [' ']))) ++ ['|'] := by
  rw [formatMeasureLine_eq] at h
  split at h
  · cases h
  · rename_i ds content heq
    injection h with h'
    exact ⟨ds, content, heq, h'.symm⟩

/-- `hasLT` transported along a character subset. -/
theorem hasLT_sub {s t : Str} (hsub : ∀ c ∈ t, c ∈ s)
    (hs : hasLT s = false) : hasLT t = false := by
  unfold hasLT at *
  rw [List.any_eq_false] at *
  exact fun c hc => hs c (hsub c hc)

/-- The formatter's measure output is stable: re-formatting it (even with
a whitespace suffix) returns it unchanged. -/
theorem formatMeasureLine_fixed {line fm w : Str}
    (h : formatMeasureLine line = some fm) (hw : ∀ c ∈ w, jsWs c = true) :
    formatMeasureLine (fm ++ w) = some fm := by
  obtain ⟨ds, content, hfmt, hfm⟩ := formatMeasureLine_inv h
  obtain ⟨between, hcore, hcontent, hlt⟩ := matchMeasureFmt_inv hfmt
  obtain ⟨hds, hdig, hbet, _⟩ := matchMeasureCore_inv hcore
  have hch : headNotWs content := by
    rw [hcontent]
    exact jsTrim_headNotWs between
  have hcl : lastNotWs content := by
    rw [hcontent]
    exact jsTrim_lastNotWs between
  by_cases h0 : normalizeMeasureTokens content = []
  · rw [if_pos h0] at hfm
    have hshape : fm ++ w =
        'm' :: (ds ++ ':' :: ' ' :: '|' :: ([' '] ++ '|' :: w)) := by
      rw [hfm]
      simp
    have hcore2 := matchMeasureCore_mk (t := [' ']) hds hdig hw
    have hfmt2 : matchMeasureFmt
        ('m' :: (ds ++ ':' :: ' ' :: '|' :: ([' '] ++ '|' :: w))) =
        some (ds, jsTrim [' ']) := by
      apply matchMeasureFmt_of_core
      · rw [jsTrimStart_cons _ (by decide)]
        exact hcore2
      · decide
    have hred : formatMeasureLine
        ('m' :: (ds ++ ':' :: ' ' :: '|' :: ([' '] ++ '|' :: w))) =
        some ('m' :: ds ++ (':' :: ' ' :: '|' ::
          (if normalizeMeasureTokens (jsTrim [' ']) = [] then [' ']
           else ' ' :: (normalizeMeasureTokens (jsTrim [' ']) ++ [' ']))) ++
          ['|']) := by
      rw [formatMeasureLine_eq, hfmt2]
    rw [hshape, hred, hfm]
    have hz : normalizeMeasureTokens (jsTrim [' ']) = [] := by decide
    rw [hz]
    simp
  · rw [if_neg h0] at hfm
    have hCJ0 : ChunksJoinable (splitTokens content) := splitTokens_good hcl
    have hCJE : ChunksJoinable (normTokensAux none (splitTokens content)) :=
      normTokensAux_joinable hCJ0 none
    have hrepr : normalizeMeasureTokens content =
        joinChar ' ' (normTokensAux none (splitTokens content)) := by
      rw [normalizeMeasureTokens_repr, jsTrim_fixed hch hcl]
    have hNh : headNotWs (normalizeMeasureTokens content) := by
      rw [hrepr]
      exact joinChar_headNotWs hCJE
    have hNl : lastNotWs (normalizeMeasureTokens content) := by
      rw [hrepr]
      exact joinChar_lastNotWs hCJE
    have hshape : fm ++ w = 'm' :: (ds ++ ':' :: ' ' :: '|' ::
        ((' ' :: (normalizeMeasureTokens content ++ [' '])) ++ '|' :: w)) := by
      rw [hfm]
      simp
    have hpad : jsTrim (' ' :: (normalizeMeasureTokens content ++ [' '])) =
        normalizeMeasureTokens content := jsTrim_pad h0 hNh hNl
    have hltN : hasLT (normalizeMeasureTokens content) = false := by
      unfold hasLT
      rw [List.any_eq_false]
      intro c hc
      simp only [Bool.not_eq_true]
      rcases normalizeMeasureTokens_chars hc with h1 | h1 | h1 | h1
      · have hlt' := hlt
        unfold hasLT at hlt'
        rw [List.any_eq_false] at hlt'
        have h2 := hlt' c h1
        simpa using h2
      · rw [h1]
        decide
      · exact (fdChar_classes (Or.inl h1)).2.1
      · exact (fdChar_classes (Or.inr h1)).2.1
    have hcore2 := matchMeasureCore_mk
      (t := ' ' :: (normalizeMeasureTokens content ++ [' '])) hds hdig hw
    have hfmt2 : matchMeasureFmt ('m' :: (ds ++ ':' :: ' ' :: '|' ::
        ((' ' :: (normalizeMeasureTokens content ++ [' '])) ++ '|' :: w))) =
        some (ds, jsTrim (' ' :: (normalizeMeasureTokens content ++ [' ']))) := by
      apply matchMeasureFmt_of_core
      · rw [jsTrimStart_cons _ (by decide)]
        exact hcore2
      · rw [hpad]
        exact hltN
    have hred : formatMeasureLine ('m' :: (ds ++ ':' :: ' ' :: '|' ::
        ((' ' :: (normalizeMeasureTokens content ++ [' '])) ++ '|' :: w))) =
        some ('m' :: ds ++ (':' :: ' ' :: '|' ::
          (if normalizeMeasureTokens
              (jsTrim (' ' :: (normalizeMeasureTokens content ++ [' ']))) = []
           then [' ']
           else ' ' :: (normalizeMeasureTokens
              (jsTrim (' ' :: (normalizeMeasureTokens content ++ [' ']))) ++
              [' ']))) ++ ['|']) := by
      rw [formatMeasureLine_eq, hfmt2]
    rw [hshape, hred, hpad, normalizeMeasureTokens_stable hch hcl, if_neg h0,
      hfm]

/-- fn characters of a formatted measure line come from the input line or
a known safe class. -/
theorem formatMeasureLine_mem {line fm : Str}
    (h : formatMeasureLine line = some fm) :
    ∀ c ∈ fm, c ∈ line ∨ isDigit c = true ∨ c ∈ lit "m: |" ∨
      c ∈ lit "whqest./" ∨ c ∈ lit "0123456789" := by
  obtain ⟨ds, content, hfmt, hfm⟩ := formatMeasureLine_inv h
  obtain ⟨between, hcore, hcontent, _⟩ := matchMeasureFmt_inv hfmt
  obtain ⟨_, hdig, hbet, _⟩ := matchMeasureCore_inv hcore
  have hcontentmem : ∀ c ∈ content, c ∈ line := by
    intro c hc
    rw [hcontent] at hc
    exact mem_jsTrimStart (hbet c (mem_jsTrim hc))
  have htokmem : ∀ c ∈ normalizeMeasureTokens content,
      c ∈ line ∨ isDigit c = true ∨ c ∈ lit "m: |" ∨
        c ∈ lit "whqest./" ∨ c ∈ lit "0123456789" := by
    intro c hc
    rcases normalizeMeasureTokens_chars hc with h1 | h1 | h1 | h1
    · exact Or.inl (hcontentmem c h1)
    · subst h1
      right; right; left
      decide
    · exact Or.inr (Or.inr (Or.inr (Or.inl h1)))
    · exact Or.inr (Or.inr (Or.inr (Or.inr h1)))
  intro c hc
  rw [hfm] at hc
  rcases List.mem_cons.1 hc with h1 | h1
  · subst h1
    right; right; left
    decide
  rcases List.mem_append.1 h1 with h1 | h1
  case inr =>
    simp at h1
    subst h1
    right; right; left
    decide
  rcases List.mem_append.1 h1 with h1 | h1
  · exact Or.inr (Or.inl (hdig c h1))
  rcases List.mem_cons.1 h1 with h1 | h1
  · subst h1
    right; right; left
    decide
  rcases List.mem_cons.1 h1 with h1 | h1
  · subst h1
    right; right; left
    decide
  rcases List.mem_cons.1 h1 with h1 | h1
  · subst h1
    right; right; left
    decide
  by_cases h0 : normalizeMeasureTokens content = []
  · rw [if_pos h0] at h1
    simp at h1
    subst h1
    right; right; left
    decide
  · rw [if_neg h0] at h1
    rcases List.mem_cons.1 h1 with h1 | h1
    · subst h1
      right; right; left
      decide
    rcases List.mem_append.1 h1 with h1 | h1
    · exact htokmem c h1
    · simp at h1
      subst h1
      right; right; left
      decide

/-- `breakAtHash` misses exactly on hash-free strings. -/
theorem breakAtHash_none {l : Str} : breakAtHash l = none ↔ '#' ∉ l := by
  induction l with
  | nil => simp [breakAtHash]
  | cons c r ih =>
    unfold breakAtHash
    by_cases hc : c = '#'
    · subst hc
      simp
    · rw [if_neg hc]
      constructor
      · intro h hm
        rcases List.mem_cons.1 hm with h1 | h1
        · exact hc h1.symm
        · cases hbr : breakAtHash r with
          | none => exact (ih.1 hbr) h1
          | some p =>
            rcases p with ⟨b, a⟩
            rw [hbr] at h
            cases h
      · intro hm
        have hr : breakAtHash r = none :=
          ih.2 (fun h1 => hm (List.mem_cons_of_mem _ h1))
        rw [hr]

/-- What a successful `breakAtHash` reveals. -/
theorem breakAtHash_some :
    ∀ {l b a : Str}, breakAtHash l = some (b, a) →
      l = b ++ a ∧ '#' ∉ b ∧ ∃ r, a = '#' :: r := by
  intro l
  induction l with
  | nil => intro b a h; cases h
  | cons c r ih =>
    intro b a h
    unfold breakAtHash at h
    by_cases hc : c = '#'
    · subst hc
      rw [if_pos rfl] at h
      injection h with h'
      rw [Prod.mk.injEq] at h'
      obtain ⟨h1, h2⟩ := h'
      subst h1
      subst h2
      exact ⟨rfl, by simp, r, rfl⟩
    · rw [if_neg hc] at h
      cases hbr : breakAtHash r with
      | none =>
        rw [hbr] at h
        cases h
      | some p =>
        rcases p with ⟨b', a'⟩
        rw [hbr] at h
        injection h with h'
        rw [Prod.mk.injEq] at h'
        obtain ⟨h1, h2⟩ := h'
        obtain ⟨he, hnb, r', hr'⟩ := ih hbr
        subst h2
        rw [← h1]
        refine ⟨by rw [he]; rfl, ?_, r', hr'⟩
        intro hm
        rcases List.mem_cons.1 hm with h3 | h3
        · exact hc h3.symm
        · exact hnb h3

/-- `breakAtHash` finds the first hash behind a hash-free prefix. -/
theorem breakAtHash_append {b : Str} (hb : '#' ∉ b) (y : Str) :
    breakAtHash (b ++ '#' :: y) = some (b, '#' :: y) := by
  induction b with
  | nil =>
    show breakAtHash ('#' :: y) = some ([], '#' :: y)
    unfold breakAtHash
    rw [if_pos rfl]
  | cons c b' ih =>
    have hc : c ≠ '#' := fun h => hb (by rw [h]; exact List.mem_cons_self _ _)
    show breakAtHash (c :: (b' ++ '#' :: y)) = _
    unfold breakAtHash
    rw [if_neg hc, ih (fun h => hb (List.mem_cons_of_mem _ h))]

/-- `splitInlineComment` on a hash-free line. -/
theorem splitInlineComment_none {line : Str} (h : '#' ∉ line) :
    splitInlineComment line = (line, none) := by
  unfold splitInlineComment
  rw [breakAtHash_none.2 h]

/-- What a present inline comment reveals. -/
theorem splitInlineComment_some {tl cm : Str}
    (h : (splitInlineComment tl).2 = some cm) :
    tl = (splitInlineComment tl).1 ++ cm ∧ '#' ∉ (splitInlineComment tl).1 ∧
      ∃ r, cm = '#' :: r := by
  unfold splitInlineComment at *
  cases hbr : breakAtHash tl with
  | none =>
    rw [hbr] at h
    cases h
  | some p =>
    rcases p with ⟨b, a⟩
    rw [hbr] at h
    have h2 : some a = some cm := h
    injection h2 with h2
    subst h2
    obtain ⟨he, hnb, r, hr⟩ := breakAtHash_some hbr
    exact ⟨he, hnb, r, hr⟩

/-- The first component of `splitInlineComment` keeps only input
characters. -/
theorem splitInlineComment_fst_sub (tl : Str) :
    ∀ c ∈ (splitInlineComment tl).1, c ∈ tl := by
  unfold splitInlineComment
  cases hbr : breakAtHash tl with
  | none =>
    intro c hc
    exact hc
  | some p =>
    rcases p with ⟨b, a⟩
    obtain ⟨he, _, _⟩ := breakAtHash_some hbr
    intro c hc
    rw [he]
    exact List.mem_append.2 (Or.inl hc)

/-- The definitional unfolding of `formatBodyLine`. -/
theorem formatBodyLine_eq (line : Str) :
    formatBodyLine line =
      (if (jsTrim (jsTrimEnd line)).head? = some '#' then jsTrimEnd line
       else
        match formatMeasureLine (splitInlineComment (jsTrimEnd line)).1 with
        | none => jsTrimEnd line
        | some fm =>
          match (splitInlineComment (jsTrimEnd line)).2 with
          | none => fm
          | some cm => fm ++ [' '] ++ jsTrimEnd cm) := rfl

/-- The three output shapes of `formatBodyLine`. -/
theorem formatBodyLine_shape (line : Str) :
    (formatBodyLine line = jsTrimEnd line ∧
      ((jsTrim (jsTrimEnd line)).head? = some '#' ∨
        formatMeasureLine (splitInlineComment (jsTrimEnd line)).1 = none)) ∨
    ∃ fm, formatMeasureLine (splitInlineComment (jsTrimEnd line)).1 = some fm ∧
      ((formatBodyLine line = fm ∧
          (splitInlineComment (jsTrimEnd line)).2 = none) ∨
       ∃ cm, (splitInlineComment (jsTrimEnd line)).2 = some cm ∧
         formatBodyLine line = fm ++ [' '] ++ jsTrimEnd cm) := by
  rw [formatBodyLine_eq]
  by_cases h1 : (jsTrim (jsTrimEnd line)).head? = some '#'
  · rw [if_pos h1]
    exact Or.inl ⟨rfl, Or.inl h1⟩
  · rw [if_neg h1]
    cases h2 : formatMeasureLine (splitInlineComment (jsTrimEnd line)).1 with
    | none => exact Or.inl ⟨rfl, Or.inr rfl⟩
    | some fm =>
      cases h3 : (splitInlineComment (jsTrimEnd line)).2 with
      | none => exact Or.inr ⟨fm, rfl, Or.inl ⟨rfl, rfl⟩⟩
      | some cm => exact Or.inr ⟨fm, rfl, Or.inr ⟨cm, rfl, rfl⟩⟩

/-- `formatBodyLine` only reads the end-trimmed line. -/
theorem formatBodyLine_trimEnd (line : Str) :
    formatBodyLine (jsTrimEnd line) = formatBodyLine line := by
  rw [formatBodyLine_eq, formatBodyLine_eq, jsTrimEnd_idem]

/-- A formatted measure line starts with `m`. -/
theorem formatMeasureLine_head {line fm : Str}
    (h : formatMeasureLine line = some fm) : fm.head? = some 'm' := by
  obtain ⟨ds, content, _, hfm⟩ := formatMeasureLine_inv h
  rw [hfm]
  rfl

/-- A formatted measure line ends with a pipe. -/
theorem formatMeasureLine_last {line fm : Str}
    (h : formatMeasureLine line = some fm) : fm.getLast? = some '|' := by
  obtain ⟨ds, content, _, hfm⟩ := formatMeasureLine_inv h
  rw [hfm]
  show (('m' :: (ds ++ (':' :: ' ' :: '|' ::
    (if normalizeMeasureTokens content = [] then [' ']
     else ' ' :: (normalizeMeasureTokens content ++ [' ']))))) ++
    ['|']).getLast? = some '|'
  exact List.getLast?_concat _

/-- What an absent inline comment reveals. -/
theorem splitInlineComment_none_inv {tl : Str}
    (h : (splitInlineComment tl).2 = none) :
    (splitInlineComment tl).1 = tl ∧ '#' ∉ tl := by
  unfold splitInlineComment at *
  cases hbr : breakAtHash tl with
  | none => exact ⟨rfl, breakAtHash_none.1 hbr⟩
  | some p =>
    rcases p with ⟨b, a⟩
    rw [hbr] at h
    exact absurd (show (some a : Option Str) = none from h) (by simp)

/-- `formatBodyLine` output carries no trailing whitespace. -/
theorem formatBodyLine_fixed (line : Str) :
    jsTrimEnd (formatBodyLine line) = formatBodyLine line := by
  rcases formatBodyLine_shape line with ⟨h, _⟩ | ⟨fm, h2, hcase⟩
  · rw [h, jsTrimEnd_idem]
  · rcases hcase with ⟨hout, h3⟩ | ⟨cm, h3, hout⟩
    · rw [hout]
      apply jsTrimEnd_fixed
      intro c hc
      rw [formatMeasureLine_last h2] at hc
      injection hc with hc
      subst hc
      decide
    · rw [hout]
      obtain ⟨htl, hnb, r, hr⟩ := splitInlineComment_some h3
      apply jsTrimEnd_fixed
      intro c hc
      have hcmne : jsTrimEnd cm ≠ [] := by
        rw [hr, jsTrimEnd_cons _ (by decide)]
        simp
      rw [List.getLast?_append_of_ne_nil _ hcmne] at hc
      exact jsTrimEnd_lastNotWs cm c hc

/-- Characters of a `formatBodyLine` output come from the input line or a
known safe class. -/
theorem formatBodyLine_mem (line : Str) :
    ∀ c ∈ formatBodyLine line, c ∈ line ∨ isDigit c = true ∨
      c ∈ lit "m: |" ∨ c ∈ lit "whqest./" ∨ c ∈ lit "0123456789" := by
  rcases formatBodyLine_shape line with ⟨h, _⟩ | ⟨fm, h2, hcase⟩
  · rw [h]
    intro c hc
    exact Or.inl (mem_jsTrimEnd hc)
  · have hfmmem : ∀ c ∈ fm, c ∈ line ∨ isDigit c = true ∨ c ∈ lit "m: |" ∨
        c ∈ lit "whqest./" ∨ c ∈ lit "0123456789" := by
      intro c hc
      rcases formatMeasureLine_mem h2 c hc with h' | h'
      · exact Or.inl (mem_jsTrimEnd (splitInlineComment_fst_sub _ c h'))
      · exact Or.inr h'
    rcases hcase with ⟨hout, _⟩ | ⟨cm, h3, hout⟩
    · rw [hout]
      exact hfmmem
    · rw [hout]
      obtain ⟨htl, _, _⟩ := splitInlineComment_some h3
      intro c hc
      rcases List.mem_append.1 hc with h' | h'
      · rcases List.mem_append.1 h' with h'' | h''
        · exact hfmmem c h''
        · simp at h''
          subst h''
          right; right; left
          decide
      · have h1 : c ∈ cm := mem_jsTrimEnd h'
        have h2' : c ∈ jsTrimEnd line := by
          rw [htl]
          exact List.mem_append.2 (Or.inr h1)
        exact Or.inl (mem_jsTrimEnd h2')

/-- `formatBodyLine` keeps nonblank lines nonblank. -/
theorem formatBodyLine_nonblank {line : Str} (h : jsTrim line ≠ []) :
    jsTrim (formatBodyLine line) ≠ [] := by
  rcases formatBodyLine_shape line with ⟨ho, _⟩ | ⟨fm, h2, hcase⟩
  · rw [ho, jsTrim_jsTrimEnd]
    exact h
  · have hhead : fm.head? = some 'm' := formatMeasureLine_head h2
    have hfne : fm ≠ [] := by
      intro he
      rw [he] at hhead
      cases hhead
    have hheadws : headNotWs fm := by
      intro c hc
      rw [hhead] at hc
      injection hc with hc
      subst hc
      decide
    have hlastws : lastNotWs fm := by
      intro c hc
      rw [formatMeasureLine_last h2] at hc
      injection hc with hc
      subst hc
      decide
    rcases hcase with ⟨hout, _⟩ | ⟨cm, h3, hout⟩
    · rw [hout, jsTrim_fixed hheadws hlastws]
      exact hfne
    · rw [hout]
      obtain ⟨_, _, r, hr⟩ := splitInlineComment_some h3
      have hcmne : jsTrimEnd cm ≠ [] := by
        rw [hr, jsTrimEnd_cons _ (by decide)]
        simp
      have holast : lastNotWs (fm ++ [' '] ++ jsTrimEnd cm) := by
        intro c hc
        rw [List.getLast?_append_of_ne_nil _ hcmne] at hc
        exact jsTrimEnd_lastNotWs cm c hc
      have hohead : headNotWs (fm ++ [' '] ++ jsTrimEnd cm) := by
        intro c hc
        rw [show fm ++ [' '] ++ jsTrimEnd cm =
          fm ++ ([' '] ++ jsTrimEnd cm) from by simp] at hc
        rw [List.head?_append_of_ne_nil _ hfne] at hc
        exact hheadws c hc
      rw [jsTrim_fixed hohead holast]
      simp [hfne]

/-- `formatBodyLine` is idempotent. -/
theorem formatBodyLine_idem (line : Str) :
    formatBodyLine (formatBodyLine line) = formatBodyLine line := by
  rcases formatBodyLine_shape line with ⟨h, _⟩ | ⟨fm, h2, hcase⟩
  · rw [h, formatBodyLine_trimEnd]
    exact h
  · have hhead : fm.head? = some 'm' := formatMeasureLine_head h2
    have hlastp : fm.getLast? = some '|' := formatMeasureLine_last h2
    have hfne : fm ≠ [] := by
      intro he
      rw [he] at hhead
      cases hhead
    have hheadws : headNotWs fm := by
      intro c hc
      rw [hhead] at hc
      injection hc with hc
      subst hc
      decide
    have hlastws : lastNotWs fm := by
      intro c hc
      rw [hlastp] at hc
      injection hc with hc
      subst hc
      decide
    have hfmfix : jsTrimEnd fm = fm := jsTrimEnd_fixed hlastws
    have hfmtrim : jsTrim fm = fm := jsTrim_fixed hheadws hlastws
    rcases hcase with ⟨hout, h3⟩ | ⟨cm, h3, hout⟩
    · obtain ⟨h1eq, h1hash⟩ := splitInlineComment_none_inv h3
      have hfmhash : '#' ∉ fm := by
        intro hc
        rcases formatMeasureLine_mem h2 '#' hc with h' | h' | h' | h' | h'
        · rw [h1eq] at h'
          exact h1hash h'
        · exact absurd h' (by decide)
        · exact absurd h' (by decide)
        · exact absurd h' (by decide)
        · exact absurd h' (by decide)
      rw [hout]
      rw [formatBodyLine_eq, hfmfix, hfmtrim]
      rw [if_neg (by
        rw [hhead]
        intro hcon
        injection hcon with hcon
        exact absurd hcon (by decide))]
      rw [splitInlineComment_none hfmhash]
      rw [show ((fm, (none : Option Str))).1 = fm from rfl]
      rw [show ((fm, (none : Option Str))).2 = (none : Option Str) from rfl]
      have hfix : formatMeasureLine fm = some fm := by
        have h4 := formatMeasureLine_fixed h2 (w := [])
          (by intro c hc; cases hc)
        rw [List.append_nil] at h4
        exact h4
      rw [hfix]
    · obtain ⟨htl, hnb, r, hr⟩ := splitInlineComment_some h3
      have hfmhash : '#' ∉ fm := by
        intro hc
        rcases formatMeasureLine_mem h2 '#' hc with h' | h' | h' | h' | h'
        · exact hnb h'
        · exact absurd h' (by decide)
        · exact absurd h' (by decide)
        · exact absurd h' (by decide)
        · exact absurd h' (by decide)
      rw [hout]
      have hcm1 : jsTrimEnd cm = '#' :: jsTrimEnd r := by
        rw [hr, jsTrimEnd_cons _ (by decide)]
      have hcmne : jsTrimEnd cm ≠ [] := by
        rw [hcm1]
        simp
      have holast : lastNotWs (fm ++ [' '] ++ jsTrimEnd cm) := by
        intro c hc
        rw [List.getLast?_append_of_ne_nil _ hcmne] at hc
        exact jsTrimEnd_lastNotWs cm c hc
      have hoend : jsTrimEnd (fm ++ [' '] ++ jsTrimEnd cm) =
          fm ++ [' '] ++ jsTrimEnd cm := jsTrimEnd_fixed holast
      have hohead : headNotWs (fm ++ [' '] ++ jsTrimEnd cm) := by
        intro c hc
        rw [show fm ++ [' '] ++ jsTrimEnd cm =
          fm ++ ([' '] ++ jsTrimEnd cm) from by simp] at hc
        rw [List.head?_append_of_ne_nil _ hfne] at hc
        exact hheadws c hc
      have hotrim : jsTrim (fm ++ [' '] ++ jsTrimEnd cm) =
          fm ++ [' '] ++ jsTrimEnd cm := jsTrim_fixed hohead holast
      have hoheadm : (fm ++ [' '] ++ jsTrimEnd cm).head? = some 'm' := by
        rw [show fm ++ [' '] ++ jsTrimEnd cm =
          fm ++ ([' '] ++ jsTrimEnd cm) from by simp]
        rw [List.head?_append_of_ne_nil _ hfne]
        exact hhead
      have hsp : splitInlineComment (fm ++ [' '] ++ jsTrimEnd cm) =
          (fm ++ [' '], some ('#' :: jsTrimEnd r)) := by
        rw [hcm1]
        unfold splitInlineComment
        rw [show fm ++ [' '] ++ '#' :: jsTrimEnd r =
          (fm ++ [' ']) ++ '#' :: jsTrimEnd r from rfl]
        rw [breakAtHash_append (by
          intro hc
          rcases List.mem_append.1 hc with h' | h'
          · exact hfmhash h'
          · simp at h') (jsTrimEnd r)]
      rw [formatBodyLine_eq, hoend, hotrim]
      rw [if_neg (by
        rw [hoheadm]
        intro hcon
        injection hcon with hcon
        exact absurd hcon (by decide))]
      rw [hsp]
      rw [show ((fm ++ [' '], some ('#' :: jsTrimEnd r))).1 =
        fm ++ [' '] from rfl]
      rw [show ((fm ++ [' '], some ('#' :: jsTrimEnd r))).2 =
        some ('#' :: jsTrimEnd r) from rfl]
      have hfix : formatMeasureLine (fm ++ [' ']) = some fm :=
        formatMeasureLine_fixed h2 (w := [' '])
          (by intro c hc; simp at hc; rw [hc]; rfl)
      rw [hfix]
      show fm ++ [' '] ++ jsTrimEnd ('#' :: jsTrimEnd r) =
        fm ++ [' '] ++ jsTrimEnd cm
      rw [jsTrimEnd_cons _ (by decide), jsTrimEnd_idem, ← hcm1]

/-- `jsTrimEnd` output never ends in a carriage return. -/
theorem jsTrimEnd_last_ne_cr (s : Str) :
    (jsTrimEnd s).getLast? ≠ some '\r' := by
  intro h
  have := jsTrimEnd_lastNotWs s '\r' h
  exact absurd this (by decide)

/-- Mapping `jsTrimEnd` over already-trimmed lines is the identity. -/
theorem map_trimEnd_id {ls : List Str} (h : ∀ x ∈ ls, jsTrimEnd x = x) :
    ls.map jsTrimEnd = ls := by
  have h2 := List.map_congr_left (f := jsTrimEnd) (g := id) h
  rw [h2, List.map_id]

/-- Members survive `trimTrailingBlank`. -/
theorem mem_trimTrailingBlank {ls : List Str} {x : Str}
    (h : x ∈ trimTrailingBlank ls) : x ∈ ls := by
  unfold trimTrailingBlank at h
  rw [List.mem_reverse] at h
  exact List.mem_reverse.1 (mem_of_dropWhile h)

/-- `trimTrailingBlank` is idempotent. -/
theorem trimTrailingBlank_idem (ls : List Str) :
    trimTrailingBlank (trimTrailingBlank ls) = trimTrailingBlank ls := by
  unfold trimTrailingBlank
  rw [List.reverse_reverse, dropWhile_idem]

/-- A trailing blank line is invisible to `trimTrailingBlank`. -/
theorem trimTrailingBlank_append_blank {b : Str} (hb : isBlankLine b = true)
    (ls : List Str) : trimTrailingBlank (ls ++ [b]) = trimTrailingBlank ls := by
  unfold trimTrailingBlank
  have h1 : (ls ++ [b]).reverse = b :: ls.reverse := by simp
  rw [h1, List.dropWhile_cons, hb]
  simp

/-- Dropping a leading blank line first is invisible. -/
theorem trimLeadingBlank_cons_blank {b : Str} (hb : isBlankLine b = true)
    (ls : List Str) : trimLeadingBlank (b :: ls) = trimLeadingBlank ls := by
  unfold trimLeadingBlank
  rw [List.dropWhile_cons, hb]
  simp

/-- `formatBodyLine` keeps lines free of line feeds. -/
theorem formatBodyLine_no_nl {line : Str} (h : '\n' ∉ line) :
    '\n' ∉ formatBodyLine line := by
  intro hc
  rcases formatBodyLine_mem line '\n' hc with h' | h' | h' | h' | h'
  · exact h h'
  · exact absurd h' (by decide)
  · exact absurd h' (by decide)
  · exact absurd h' (by decide)
  · exact absurd h' (by decide)

/-- The leading-blank trim of a mapped `formatBodyLine` body is stable. -/
theorem trimLeadingBlank_map_fbl (raw : List Str) :
    trimLeadingBlank ((trimLeadingBlank raw).map formatBodyLine) =
      (trimLeadingBlank raw).map formatBodyLine := by
  unfold trimLeadingBlank
  cases hd : raw.dropWhile isBlankLine with
  | nil => rfl
  | cons x rest =>
    have hx : isBlankLine x = false := by
      have h1 := List.head_dropWhile_not isBlankLine raw (by simp [hd])
      simpa [hd] using h1
    show ((formatBodyLine x :: rest.map formatBodyLine).dropWhile isBlankLine) = _
    rw [List.dropWhile_cons]
    have hfx : isBlankLine (formatBodyLine x) = false := by
      unfold isBlankLine at *
      rw [decide_eq_false_iff_not] at hx ⊢
      exact formatBodyLine_nonblank hx
    rw [hfx]
    simp

/-- The definitional unfolding of `formatOtab`. -/
theorem formatOtab_eq (input : Str) :
    formatOtab input =
      match findIdxP (fun l => jsTrim l = lit "---") (splitLines input) with
      | none => joinLines ((splitLines input).map jsTrimEnd)
      | some delimIdx =>
        joinLines
          ((trimTrailingBlank (((splitLines input).take delimIdx).map
              jsTrimEnd) ++
            ([] : Str) :: lit "---" :: ([] : Str) ::
            (trimLeadingBlank ((splitLines input).drop (delimIdx + 1))).map
              formatBodyLine).map jsTrimEnd) := rfl

/-- Shared facts about the end-trimmed split lines of a text. -/
theorem map_trimEnd_lines_props (input : Str) :
    (∀ l ∈ (splitLines input).map jsTrimEnd, '\n' ∉ l) ∧
      (∀ l ∈ (splitLines input).map jsTrimEnd, l.getLast? ≠ some '\r') ∧
      (∀ l ∈ (splitLines input).map jsTrimEnd, jsTrimEnd l = l) := by
  refine ⟨?_, ?_, ?_⟩
  · intro l hl
    obtain ⟨y, hy, hly⟩ := List.mem_map.1 hl
    rw [← hly]
    intro hm
    exact splitLines_no_nl input y hy (mem_jsTrimEnd hm)
  · intro l hl
    obtain ⟨y, _, hly⟩ := List.mem_map.1 hl
    rw [← hly]
    exact jsTrimEnd_last_ne_cr y
  · intro l hl
    obtain ⟨y, _, hly⟩ := List.mem_map.1 hl
    rw [← hly]
    exact jsTrimEnd_idem y

/-- The lines of a `formatOtab` output without a header delimiter. -/
theorem formatOtab_splitLines_none {input : Str}
    (hidx : findIdxP (fun l => jsTrim l = lit "---") (splitLines input) =
      none) :
    splitLines (formatOtab input) = (splitLines input).map jsTrimEnd := by
  obtain ⟨hnl, hcr, _⟩ := map_trimEnd_lines_props input
  have he : formatOtab input =
      joinLines ((splitLines input).map jsTrimEnd) := by
    rw [formatOtab_eq, hidx]
  rw [he]
  apply splitLines_joinLines
  · intro hmap
    exact splitLines_ne_nil input (by simpa using hmap)
  · exact hnl
  · exact hcr

/-- The lines of a `formatOtab` output with a header delimiter at `k`. -/
theorem formatOtab_splitLines {input : Str} {k : Nat}
    (hidx : findIdxP (fun l => jsTrim l = lit "---") (splitLines input) =
      some k) :
    splitLines (formatOtab input) =
      trimTrailingBlank (((splitLines input).take k).map jsTrimEnd) ++
      ([] : Str) :: lit "---" :: ([] : Str) ::
      (trimLeadingBlank ((splitLines input).drop (k + 1))).map
        formatBodyLine := by
  obtain ⟨hnl, hcr, hfix⟩ := map_trimEnd_lines_props input
  set H := trimTrailingBlank (((splitLines input).take k).map jsTrimEnd)
    with hHdef
  set B := (trimLeadingBlank ((splitLines input).drop (k + 1))).map
    formatBodyLine with hBdef
  have hHsub : ∀ x ∈ H, x ∈ (splitLines input).map jsTrimEnd := by
    intro x hx
    have h1 := mem_trimTrailingBlank hx
    obtain ⟨y, hy, hxy⟩ := List.mem_map.1 h1
    exact List.mem_map.2 ⟨y, (List.take_sublist _ _).subset hy, hxy⟩
  have hBprop : ∀ x ∈ B,
      '\n' ∉ x ∧ x.getLast? ≠ some '\r' ∧ jsTrimEnd x = x := by
    intro x hx
    rw [hBdef] at hx
    obtain ⟨y, hy, hxy⟩ := List.mem_map.1 hx
    have hyl : y ∈ splitLines input :=
      (List.drop_sublist _ _).subset (mem_of_dropWhile hy)
    refine ⟨?_, ?_, ?_⟩
    · rw [← hxy]
      exact formatBodyLine_no_nl (splitLines_no_nl input y hyl)
    · rw [← hxy, ← formatBodyLine_fixed y]
      exact jsTrimEnd_last_ne_cr _
    · rw [← hxy]
      exact formatBodyLine_fixed y
  have he : formatOtab input = joinLines
      ((H ++ ([] : Str) :: lit "---" :: ([] : Str) :: B).map jsTrimEnd) := by
    rw [formatOtab_eq, hidx]
  have hmapfix : (H ++ ([] : Str) :: lit "---" :: ([] : Str) :: B).map
      jsTrimEnd = H ++ ([] : Str) :: lit "---" :: ([] : Str) :: B := by
    apply map_trimEnd_id
    intro x hx
    rcases List.mem_append.1 hx with h1 | h1
    · exact hfix x (hHsub x h1)
    rcases List.mem_cons.1 h1 with h1 | h1
    · rw [h1]; rfl
    rcases List.mem_cons.1 h1 with h1 | h1
    · rw [h1]; decide
    rcases List.mem_cons.1 h1 with h1 | h1
    · rw [h1]; rfl
    · exact (hBprop x h1).2.2
  rw [he, hmapfix]
  apply splitLines_joinLines
  · simp
  · intro l hl
    rcases List.mem_append.1 hl with h1 | h1
    · exact hnl l (hHsub l h1)
    rcases List.mem_cons.1 h1 with h1 | h1
    · rw [h1]; simp
    rcases List.mem_cons.1 h1 with h1 | h1
    · rw [h1]; decide
    rcases List.mem_cons.1 h1 with h1 | h1
    · rw [h1]; simp
    · exact (hBprop l h1).1
  · intro l hl
    rcases List.mem_append.1 hl with h1 | h1
    · exact hcr l (hHsub l h1)
    rcases List.mem_cons.1 h1 with h1 | h1
    · rw [h1]; simp
    rcases List.mem_cons.1 h1 with h1 | h1
    · rw [h1]; decide
    rcases List.mem_cons.1 h1 with h1 | h1
    · rw [h1]; simp
    · exact (hBprop l h1).2.1

set_option maxHeartbeats 1600000 in
/-- C2, amended.  The formatter is idempotent: formatting a formatted
text returns it unchanged, for every input text (parseable or not). -/
theorem C2_amended_format_idempotent (input : Str) :
    formatOtab (formatOtab input) = formatOtab input := by
  cases hidx : findIdxP (fun l => jsTrim l = lit "---") (splitLines input) with
  | none =>
    obtain ⟨_, _, hfix⟩ := map_trimEnd_lines_props input
    have hsl := formatOtab_splitLines_none hidx
    have hfind2 : findIdxP (fun l => jsTrim l = lit "---")
        ((splitLines input).map jsTrimEnd) = none := by
      rw [findIdxP_map (q := fun l => jsTrim l = lit "---")
        (fun a => by rw [jsTrim_jsTrimEnd])]
      exact hidx
    have hred : formatOtab (formatOtab input) =
        joinLines (((splitLines input).map jsTrimEnd).map jsTrimEnd) := by
      rw [formatOtab_eq (formatOtab input), hsl, hfind2]
    rw [hred, map_trimEnd_id hfix, formatOtab_eq input, hidx]
  | some k =>
    set H := trimTrailingBlank (((splitLines input).take k).map jsTrimEnd)
      with hHdef
    set B := (trimLeadingBlank ((splitLines input).drop (k + 1))).map
      formatBodyLine with hBdef
    have hsl := formatOtab_splitLines hidx
    have hHfix : ∀ x ∈ H, jsTrimEnd x = x := by
      intro x hx
      obtain ⟨y, _, hxy⟩ := List.mem_map.1 (mem_trimTrailingBlank hx)
      rw [← hxy, jsTrimEnd_idem]
    have hHfalse : ∀ x ∈ H ++ [([] : Str)],
        decide (jsTrim x = lit "---") = false := by
      intro x hx
      rcases List.mem_append.1 hx with h1 | h1
      · obtain ⟨y, hy, hxy⟩ := List.mem_map.1 (mem_trimTrailingBlank h1)
        rw [← hxy, jsTrim_jsTrimEnd]
        exact findIdxP_take_false hidx y hy
      · simp at h1
        rw [h1]
        decide
    have hassoc : H ++ ([] : Str) :: lit "---" :: ([] : Str) :: B =
        (H ++ [([] : Str)]) ++ lit "---" :: (([] : Str) :: B) := by simp
    have hfind2 : findIdxP (fun l => jsTrim l = lit "---")
        (H ++ ([] : Str) :: lit "---" :: ([] : Str) :: B) =
        some (H.length + 1) := by
      rw [hassoc, findIdxP_append_hit hHfalse (by decide)]
      simp
    have htake : (H ++ ([] : Str) :: lit "---" :: ([] : Str) :: B).take
        (H.length + 1) = H ++ [([] : Str)] := by
      rw [hassoc]
      rw [show H.length + 1 = (H ++ [([] : Str)]).length + 0 from by simp]
      rw [List.take_append]
      simp
    have hdrop : (H ++ ([] : Str) :: lit "---" :: ([] : Str) :: B).drop
        (H.length + 1 + 1) = ([] : Str) :: B := by
      rw [hassoc]
      rw [show H.length + 1 + 1 = (H ++ [([] : Str)]).length + 1 from by simp]
      rw [List.drop_append]
      rfl
    have hred : formatOtab (formatOtab input) = joinLines
        ((trimTrailingBlank
            (((H ++ ([] : Str) :: lit "---" :: ([] : Str) :: B).take
              (H.length + 1)).map jsTrimEnd) ++
          ([] : Str) :: lit "---" :: ([] : Str) ::
          (trimLeadingBlank
            ((H ++ ([] : Str) :: lit "---" :: ([] : Str) :: B).drop
              (H.length + 1 + 1))).map formatBodyLine).map jsTrimEnd) := by
      rw [formatOtab_eq (formatOtab input), hsl, hfind2]
    have hH2 : trimTrailingBlank ((H ++ [([] : Str)]).map jsTrimEnd) = H := by
      rw [map_trimEnd_id (by
        intro x hx
        rcases List.mem_append.1 hx with h1 | h1
        · exact hHfix x h1
        · simp at h1
          rw [h1]
          rfl)]
      rw [trimTrailingBlank_append_blank (by decide)]
      rw [hHdef, trimTrailingBlank_idem]
    have hB2 : (trimLeadingBlank (([] : Str) :: B)).map formatBodyLine =
        B := by
      rw [trimLeadingBlank_cons_blank (by decide), hBdef]
      rw [trimLeadingBlank_map_fbl, List.map_map]
      exact List.map_congr_left (fun a _ => formatBodyLine_idem a)
    rw [hred, htake, hdrop, hH2, hB2, formatOtab_eq input, hidx]

/-- `stripComment` passes non-comment lines through. -/
theorem stripComment_eq_self {line : Str}
    (h : (jsTrim line).head? ≠ some '#') : stripComment line = line := by
  unfold stripComment
  split
  · rename_i r heq
    exfalso
    apply h
    rw [heq]
    rfl
  · rfl

/-- The digits/colon decomposition behind a successful core match. -/
theorem matchMeasureCore_cons_inv {rest ds between : Str}
    (h : matchMeasureCore ('m' :: rest) = some (ds, between)) :
    ds = rest.takeWhile isDigit ∧
      ∃ rest3, rest.dropWhile isDigit = ':' :: rest3 := by
  rw [matchMeasureCore_cons] at h
  by_cases h0 : rest.takeWhile isDigit = []
  · rw [if_pos h0] at h
    cases h
  · rw [if_neg h0] at h
    split at h
    · rename_i rest3 heq1
      split at h
      · split at h
        · rename_i between' heq3
          rw [Option.some.injEq, Prod.mk.injEq] at h
          exact ⟨h.1.symm, rest3, heq1⟩
        · cases h
      · cases h
    · cases h

/-- The definitional unfolding of `matchHeaderLine`. -/
theorem matchHeaderLine_eq (line : Str) :
    matchHeaderLine line =
      (if line.takeWhile isKeyChar = [] then none else
       match jsTrimStart (line.dropWhile isKeyChar) with
       | '=' :: afterEq =>
         let value := jsTrimStart afterEq
         if value = [] || hasLT value then none
         else some (line.takeWhile isKeyChar, value)
       | _ => none) := rfl

/-- A measure-shaped line never matches the header key-value regex: the
colon after the measure number blocks the equals sign. -/
theorem matchHeaderLine_measure {rest : Str}
    (h3 : ∃ rest3, rest.dropWhile isDigit = ':' :: rest3) :
    matchHeaderLine ('m' :: rest) = none := by
  obtain ⟨rest3, hdw⟩ := h3
  have hsplit : rest = rest.takeWhile isDigit ++ ':' :: rest3 := by
    conv_lhs => rw [← List.takeWhile_append_dropWhile isDigit rest]
    rw [hdw]
  have hkeydig : ∀ c ∈ rest.takeWhile isDigit, isKeyChar c = true := by
    intro c hc
    have h1 := List.mem_takeWhile_imp hc
    unfold isKeyChar
    rw [h1]
    rfl
  have htk : ('m' :: rest).takeWhile isKeyChar =
      'm' :: rest.takeWhile isDigit := by
    rw [List.takeWhile_cons]
    rw [show isKeyChar 'm' = true from by decide]
    simp only [if_true]
    conv_lhs => rw [hsplit]
    rw [takeWhile_append_stop hkeydig (by decide)]
  have hdk : ('m' :: rest).dropWhile isKeyChar = ':' :: rest3 := by
    rw [List.dropWhile_cons]
    rw [show isKeyChar 'm' = true from by decide]
    simp only [if_true]
    conv_lhs => rw [hsplit]
    rw [dropWhile_append_stop hkeydig (by decide)]
  rw [matchHeaderLine_eq, htk, hdk]
  rw [if_neg (by simp)]
  rw [jsTrimStart_cons _ (by decide)]
  rfl

/-- The definitional unfolding of `parseHeaderLine`. -/
theorem parseHeaderLine_eq (st : HeaderState) (rawLine : Str) :
    parseHeaderLine st rawLine =
      (if jsTrim (stripComment rawLine) = [] then .ok st
       else if jsTrim (stripComment rawLine) = lit "[[tracks]]" then
        match st.current with
        | some cand =>
          match buildTrack cand with
          | .error e => .error e
          | .ok t =>
            .ok { st with tracks := st.tracks ++ [t], current := some {} }
        | none => .ok { st with current := some {} }
       else
        match matchHeaderLine (jsTrim (stripComment rawLine)) with
        | none =>
          .error (lit "Invalid header line: " ++ jsTrim (stripComment rawLine))
        | some (key, valueRaw) =>
          match st.current with
          | some cand =>
            .ok { st with
              current := some (applyTrackKey cand key (parseTomlValue valueRaw)) }
          | none =>
            if key = lit "format" then
              .ok { st with format := some (jsToString (parseTomlValue valueRaw)) }
            else if key = lit "version" then
              .ok { st with version := some (jsToString (parseTomlValue valueRaw)) }
            else .ok { st with raw := aupsert key (parseTomlValue valueRaw) st.raw }) :=
  rfl

/-- A raw line whose end-trimmed form matches the parser's measure regex
kills `parseHeaderLine` in every state. -/
theorem parseHeaderLine_measure {raw ds between : Str}
    (hm : matchMeasureParser (jsTrimEnd raw) = some (ds, between))
    (st : HeaderState) : (parseHeaderLine st raw).isOk = false := by
  obtain ⟨hcore, _⟩ := matchMeasureParser_inv hm
  obtain ⟨_, _, _, hhead⟩ := matchMeasureCore_inv hcore
  cases ht : jsTrimEnd raw with
  | nil =>
    rw [ht] at hhead
    cases hhead
  | cons c t' =>
    rw [ht] at hhead
    injection hhead with hc
    subst hc
    rw [ht] at hcore
    obtain ⟨_, hex⟩ := matchMeasureCore_cons_inv hcore
    have hml : matchHeaderLine ('m' :: t') = none := matchHeaderLine_measure hex
    have htrim : jsTrim raw = 'm' :: t' := by
      show jsTrimStart (jsTrimEnd raw) = _
      rw [ht, jsTrimStart_cons _ (by decide)]
    have hstrip : stripComment raw = raw := by
      apply stripComment_eq_self
      rw [htrim]
      intro hcon
      injection hcon with hcon
      exact absurd hcon (by decide)
    rw [parseHeaderLine_eq, hstrip, htrim]
    rw [if_neg (by simp)]
    rw [if_neg (by
      intro hcon
      have h1 := congrArg List.head? hcon
      simp [lit] at h1)]
    rw [hml]
    rfl

/-- The definitional step of `parseHeaderLines`. -/
theorem parseHeaderLines_cons (l : Str) (rest : List Str) (st : HeaderState) :
    parseHeaderLines (l :: rest) st =
      match parseHeaderLine st l with
      | .error e => .error e
      | .ok st' => parseHeaderLines rest st' := rfl

/-- A line that fails in every state fails the whole header fold. -/
theorem parseHeaderLines_err {L : List Str} {raw : Str} (hmem : raw ∈ L)
    (herr : ∀ st, (parseHeaderLine st raw).isOk = false) :
    ∀ st, (parseHeaderLines L st).isOk = false := by
  induction L with
  | nil => cases hmem
  | cons x r ih =>
    intro st
    rw [parseHeaderLines_cons]
    cases hx : parseHeaderLine st x with
    | error e => rfl
    | ok st' =>
      rcases List.mem_cons.1 hmem with h1 | h1
      · exfalso
        have h2 := herr st
        rw [← h1] at hx
        rw [hx] at h2
        cases h2
      · exact ih h1 st'

/-- A successful `parseHeader` ran its line fold successfully. -/
theorem parseHeader_ok_lines {L : List Str}
    (h : (parseHeader L).isOk = true) :
    (parseHeaderLines L {}).isOk = true := by
  unfold parseHeader at h
  split at h
  · simp [Except.isOk, Except.toBool] at h
  · rename_i st heq
    rw [heq]
    rfl

/-- The definitional unfolding of `parseOpenTab`. -/
theorem parseOpenTab_eq (source : Str) :
    parseOpenTab source =
      match findIdxP (fun l => jsTrim l = lit "---") (splitLines source) with
      | none => .error (lit "Missing header delimiter \"---\"")
      | some delimIdx =>
        match parseHeader ((splitLines source).take delimIdx) with
        | .error e => .error e
        | .ok ph =>
          if ph.format ≠ some (lit "opentab") then
            .error (lit "Unsupported format")
          else if ph.version ≠ some (lit "0.1") then
            .error (lit "Unsupported version")
          else
            match normalizeHeader ph.raw with
            | .error e => .error e
            | .ok header =>
              match parseBodyAux ((splitLines source).drop (delimIdx + 1))
                  none [] with
              | .error e => .error e
              | .ok mmap =>
                .ok ⟨header, ph.tracks, sortMeasures (mmap.map Prod.snd)⟩ :=
  rfl

/-- A successful parse pins down the delimiter index, a successful header
fold, and a successful body fold. -/
theorem parseOpenTab_ok_inv {src : Str} (h : parses src = true) :
    ∃ k, findIdxP (fun l => jsTrim l = lit "---") (splitLines src) = some k ∧
      (parseHeaderLines ((splitLines src).take k) {}).isOk = true ∧
      (parseBodyAux ((splitLines src).drop (k + 1)) none []).isOk = true := by
  unfold parses at h
  rw [parseOpenTab_eq] at h
  split at h
  · simp [Except.isOk, Except.toBool] at h
  · rename_i k heq
    refine ⟨k, heq, ?_, ?_⟩
    · split at h
      · simp [Except.isOk, Except.toBool] at h
      · rename_i ph heq2
        apply parseHeader_ok_lines
        rw [heq2]
        rfl
    · split at h
      · simp [Except.isOk, Except.toBool] at h
      · rename_i ph heq2
        split at h
        · simp [Except.isOk, Except.toBool] at h
        · split at h
          · simp [Except.isOk, Except.toBool] at h
          · split at h
            · simp [Except.isOk, Except.toBool] at h
            · rename_i header heq3
              split at h
              · simp [Except.isOk, Except.toBool] at h
              · rename_i mmap heq4
                rw [heq4]
                rfl

/-- The definitional step of `parseBodyAux`. -/
theorem parseBodyAux_cons (rawLine : Str) (rest : List Str)
    (st : Option (Str × Str)) (mmap : List (Nat × Measure)) :
    parseBodyAux (rawLine :: rest) st mmap =
      (if jsTrim (stripComment rawLine) = [] then parseBodyAux rest st mmap
       else if (jsTrim (stripComment rawLine)).take 6 = lit "@track" then
        match parseDirective (jsTrim (stripComment rawLine)) with
        | .error e => .error e
        | .ok sv => parseBodyAux rest (some sv) mmap
       else if (jsTrim (stripComment rawLine)).head? = some 'm' then
        match parseMeasureLine (jsTrim (stripComment rawLine)) st mmap with
        | .error e => .error e
        | .ok mmap' => parseBodyAux rest st mmap'
       else
        .error (lit "Unknown line in body: " ++
          jsTrim (stripComment rawLine))) := rfl

/-- The definitional unfolding of `parseMeasureLine`. -/
theorem parseMeasureLine_eq (line : Str) (st : Option (Str × Str))
    (mmap : List (Nat × Measure)) :
    parseMeasureLine line st mmap =
      (match matchMeasureParser line with
       | none => .error (lit "Invalid measure line: " ++ line)
       | some (ds, between) =>
         match st with
         | none =>
           .error (lit "Measure defined before selecting track/voice: " ++
             line)
         | some (tid, vid) =>
           match measureTokensToEvents (digitsToNat ds)
               (if jsTrim between = [] then []
                else splitTokens (jsTrim between)) none with
           | .error e => .error e
           | .ok events =>
             .ok (nupsert (digitsToNat ds)
               ⟨digitsToNat ds,
                aupsert tid
                  ⟨aupsert vid events
                    ((alookup tid
                      ((nlookup (digitsToNat ds) mmap).getD
                        ⟨digitsToNat ds, []⟩).tracks).getD ⟨[]⟩).voices⟩
                  ((nlookup (digitsToNat ds) mmap).getD
                    ⟨digitsToNat ds, []⟩).tracks⟩ mmap)) := rfl

/-- What a successful `parseMeasureLine` reveals. -/
theorem parseMeasureLine_ok_inv {line : Str} {st : Option (Str × Str)}
    {mmap mmap' : List (Nat × Measure)}
    (h : parseMeasureLine line st mmap = .ok mmap') :
    ∃ ds between, matchMeasureParser line = some (ds, between) ∧
      (measureTokensToEvents (digitsToNat ds)
        (if jsTrim between = [] then [] else splitTokens (jsTrim between))
        none).isOk = true := by
  rw [parseMeasureLine_eq] at h
  split at h
  · cases h
  · rename_i ds between heq
    split at h
    · cases h
    · split at h
      · cases h
      · rename_i evs heq3
        exact ⟨ds, between, heq, by rw [heq3]; rfl⟩

/-- The if-guard on measure tokens is redundant. -/
theorem tokens_if_eq (content : Str) :
    (if content = [] then [] else splitTokens content) =
      splitTokens content := by
  by_cases h : content = []
  · rw [if_pos h, h]
    rfl
  · rw [if_neg h]

/-- A successful body fold forces every measure-shaped line to match the
measure regex and convert its tokens successfully. -/
theorem parseBodyAux_measure_ok :
    ∀ (ls : List Str) (st : Option (Str × Str))
      (mmap : List (Nat × Measure)),
      (parseBodyAux ls st mmap).isOk = true →
      ∀ raw ∈ ls,
        (jsTrim (stripComment raw)).head? = some 'm' →
        (jsTrim (stripComment raw)).take 6 ≠ lit "@track" →
        ∃ ds between,
          matchMeasureParser (jsTrim (stripComment raw)) =
            some (ds, between) ∧
          (measureTokensToEvents (digitsToNat ds)
            (if jsTrim between = [] then []
             else splitTokens (jsTrim between)) none).isOk = true := by
  intro ls
  induction ls with
  | nil => intro st mmap _ raw hraw; cases hraw
  | cons x r ih =>
    intro st mmap hok raw hraw hhead htrack
    rw [parseBodyAux_cons] at hok
    by_cases h1 : jsTrim (stripComment x) = []
    · rw [if_pos h1] at hok
      rcases List.mem_cons.1 hraw with h2 | h2
      · exfalso
        rw [h2, h1] at hhead
        cases hhead
      · exact ih st mmap hok raw h2 hhead htrack
    · rw [if_neg h1] at hok
      by_cases h2 : (jsTrim (stripComment x)).take 6 = lit "@track"
      · rw [if_pos h2] at hok
        split at hok
        · simp [Except.isOk, Except.toBool] at hok
        · rename_i sv heq
          rcases List.mem_cons.1 hraw with h3 | h3
          · exfalso
            rw [h3] at htrack
            exact htrack h2
          · exact ih (some sv) mmap hok raw h3 hhead htrack
      · rw [if_neg h2] at hok
        by_cases h3 : (jsTrim (stripComment x)).head? = some 'm'
        · rw [if_pos h3] at hok
          split at hok
          · simp [Except.isOk, Except.toBool] at hok
          · rename_i mmap' heq
            rcases List.mem_cons.1 hraw with h4 | h4
            · subst h4
              exact parseMeasureLine_ok_inv heq
            · exact ih st mmap' hok raw h4 hhead htrack
        · rw [if_neg h3] at hok
          simp [Except.isOk, Except.toBool] at hok

/-- `hashFree` spelled as non-membership. -/
theorem hashFree_iff {line : Str} : hashFree line = true ↔ '#' ∉ line := by
  unfold hashFree
  rw [Bool.not_eq_true', List.any_eq_false]
  constructor
  · intro h hm
    have h2 := h '#' hm
    simp at h2
  · intro h x hx
    intro hc
    rw [decide_eq_true_eq] at hc
    subst hc
    exact h hx

/-- An `m`-headed line is never an `@track` directive. -/
theorem head_m_not_track {l : Str} (h : l.head? = some 'm') :
    l.take 6 ≠ lit "@track" := by
  intro hc
  cases l with
  | nil => cases h
  | cons c r =>
    injection h with h
    subst h
    have h1 : ('m' :: r).take 6 = 'm' :: r.take 5 := rfl
    rw [h1] at hc
    injection hc with hc1 _
    exact absurd hc1 (by decide)

/-- The definitional unfolding of `measureLineDurExpanded`. -/
theorem measureLineDurExpanded_eq (line : Str) :
    measureLineDurExpanded line =
      match matchMeasureParser line with
      | some (_, between) =>
        durPrecededAux false (splitTokens (jsTrim between))
      | none => true := rfl

/-- A formatted measure line over token-convertible content is
duration-expanded. -/
theorem formatMeasureLine_expanded {line fm ds between : Str}
    (h2 : formatMeasureLine line = some fm)
    (hcore : matchMeasureCore (jsTrimStart line) = some (ds, between))
    (hmte : (measureTokensToEvents (digitsToNat ds)
      (splitTokens (jsTrim between)) none).isOk = true) :
    measureLineDurExpanded fm = true := by
  obtain ⟨ds0, content, hfmt, hfm⟩ := formatMeasureLine_inv h2
  obtain ⟨between0, hcore0, hcontent, hlt⟩ := matchMeasureFmt_inv hfmt
  rw [hcore] at hcore0
  injection hcore0 with hp
  rw [Prod.mk.injEq] at hp
  obtain ⟨hds0, hbet0⟩ := hp
  subst hds0
  subst hbet0
  obtain ⟨hds, hdig, _, _⟩ := matchMeasureCore_inv hcore
  have hch : headNotWs content := by
    rw [hcontent]
    exact jsTrim_headNotWs _
  have hcl : lastNotWs content := by
    rw [hcontent]
    exact jsTrim_lastNotWs _
  have hmte' : (measureTokensToEvents (digitsToNat ds)
      (splitTokens content) none).isOk = true := by
    rw [hcontent]
    exact hmte
  by_cases h0 : normalizeMeasureTokens content = []
  · rw [if_pos h0] at hfm
    have hcore2 := matchMeasureCore_mk (t := [' ']) (w := ([] : Str)) hds hdig
      (by intro c hc; cases hc)
    have hshape : fm = 'm' ::
        (ds ++ ':' :: ' ' :: '|' :: ([' '] ++ '|' :: ([] : Str))) := by
      rw [hfm]
      simp
    rw [measureLineDurExpanded_eq, hshape]
    rw [matchMeasureParser_of_core hcore2 (by decide)]
    show durPrecededAux false (splitTokens (jsTrim [' '])) = true
    decide
  · rw [if_neg h0] at hfm
    have hCJ0 : ChunksJoinable (splitTokens content) := splitTokens_good hcl
    have hCJE : ChunksJoinable (normTokensAux none (splitTokens content)) :=
      normTokensAux_joinable hCJ0 none
    have hrepr : normalizeMeasureTokens content =
        joinChar ' ' (normTokensAux none (splitTokens content)) := by
      rw [normalizeMeasureTokens_repr, jsTrim_fixed hch hcl]
    have hEne : normTokensAux none (splitTokens content) ≠ [] := by
      intro he
      apply h0
      rw [hrepr, he]
      rfl
    have hNh : headNotWs (normalizeMeasureTokens content) := by
      rw [hrepr]
      exact joinChar_headNotWs hCJE
    have hNl : lastNotWs (normalizeMeasureTokens content) := by
      rw [hrepr]
      exact joinChar_lastNotWs hCJE
    have hpad : jsTrim (' ' :: (normalizeMeasureTokens content ++ [' '])) =
        normalizeMeasureTokens content := jsTrim_pad h0 hNh hNl
    have hltN : hasLT (normalizeMeasureTokens content) = false := by
      unfold hasLT
      rw [List.any_eq_false]
      intro c hc
      simp only [Bool.not_eq_true]
      rcases normalizeMeasureTokens_chars hc with h1 | h1 | h1 | h1
      · have hlt' := hlt
        unfold hasLT at hlt'
        rw [List.any_eq_false] at hlt'
        have h4 := hlt' c h1
        simpa using h4
      · rw [h1]
        decide
      · exact (fdChar_classes (Or.inl h1)).2.1
      · exact (fdChar_classes (Or.inr h1)).2.1
    have hcore2 := matchMeasureCore_mk
      (t := ' ' :: (normalizeMeasureTokens content ++ [' ']))
      (w := ([] : Str)) hds hdig (by intro c hc; cases hc)
    have hshape : fm = 'm' :: (ds ++ ':' :: ' ' :: '|' ::
        ((' ' :: (normalizeMeasureTokens content ++ [' '])) ++
          '|' :: ([] : Str))) := by
      rw [hfm]
      simp
    have hltT : hasLT (' ' :: (normalizeMeasureTokens content ++ [' '])) =
        false := by
      unfold hasLT
      rw [List.any_eq_false]
      intro c hc
      simp only [Bool.not_eq_true]
      rcases List.mem_cons.1 hc with h1 | h1
      · rw [h1]
        decide
      rcases List.mem_append.1 h1 with h1 | h1
      · have h5 := hltN
        unfold hasLT at h5
        rw [List.any_eq_false] at h5
        have h4 := h5 c h1
        simpa using h4
      · simp at h1
        rw [h1]
        decide
    rw [measureLineDurExpanded_eq, hshape]
    rw [matchMeasureParser_of_core hcore2 hltT]
    show durPrecededAux false (splitTokens
      (jsTrim (' ' :: (normalizeMeasureTokens content ++ [' '])))) = true
    rw [hpad, hrepr, splitTokens_joinChar hCJE hEne]
    exact durPreceded_norm (splitTokens content) (digitsToNat ds) none false
      hmte'

/-- Terminator-freedom survives trimming. -/
theorem hasLT_jsTrim {s : Str} (h : hasLT s = false) :
    hasLT (jsTrim s) = false := by
  unfold hasLT at h ⊢
  rw [List.any_eq_false] at h ⊢
  intro c hc
  exact h c (mem_jsTrim hc)

/-- End-trimming a hash-headed string keeps the hash. -/
theorem hash_mem_jsTrimEnd_hash (r : Str) : '#' ∈ jsTrimEnd ('#' :: r) := by
  rw [jsTrimEnd_cons r (by decide)]
  exact List.mem_cons_self _ _

/-- C3 (amended).  For every source text accepted by `parseOpenTab`, every
line of the `formatOtab` output that contains no `#` character and matches
the measure shape has every event token between its pipes immediately
preceded by an explicit duration token; in particular the measure line
`m1: | q (6:3) (5:5) (4:5) (3:3) |` formats to
`m1: | q (6:3) q (5:5) q (4:5) q (3:3) |`. -/
theorem C3_amended_duration_expansion :
    (∀ src, parses src = true →
      ∀ line ∈ splitLines (formatOtab src), hashFree line = true →
        measureLineDurExpanded line = true) ∧
    formatBodyLine (lit "m1: | q (6:3) (5:5) (4:5) (3:3) |") =
      lit "m1: | q (6:3) q (5:5) q (4:5) q (3:3) |" := by
  refine ⟨?_, by decide⟩
  intro src hp
  obtain ⟨k, hidx, hH, hB⟩ := parseOpenTab_ok_inv hp
  intro line hline hhf
  rw [formatOtab_splitLines hidx] at hline
  rcases List.mem_append.1 hline with hmem | hmem
  · -- a (trimmed) header line: the measure regex cannot match it, for a
    -- match would have made the header fold fail
    have h1 := mem_trimTrailingBlank hmem
    obtain ⟨y, hy, hyeq⟩ := List.mem_map.1 h1
    rw [measureLineDurExpanded_eq]
    cases hmp : matchMeasureParser line with
    | none => rfl
    | some p =>
      exfalso
      rcases p with ⟨ds, between⟩
      have hm : matchMeasureParser (jsTrimEnd y) = some (ds, between) := by
        rw [hyeq]
        exact hmp
      have hbad := parseHeaderLines_err hy (parseHeaderLine_measure hm) {}
      rw [hbad] at hH
      exact absurd hH (by decide)
  · rcases List.mem_cons.1 hmem with hb | hmem
    · subst hb
      decide
    rcases List.mem_cons.1 hmem with hb | hmem
    · subst hb
      decide
    rcases List.mem_cons.1 hmem with hb | hmem
    · subst hb
      decide
    -- a body line: the image of a raw body line under `formatBodyLine`
    obtain ⟨raw, hrawmem, hraweq⟩ := List.mem_map.1 hmem
    have hraw' : raw ∈ (splitLines src).drop (k + 1) := by
      unfold trimLeadingBlank at hrawmem
      exact mem_of_dropWhile hrawmem
    rcases formatBodyLine_shape raw with ⟨he, hd⟩ | ⟨fm, hfm, hrest⟩
    · rcases hd with hd | hd
      · -- whole-line comment: the line keeps its hash, contradicting
        -- hash-freedom
        exfalso
        have hhl : '#' ∈ jsTrim (jsTrimEnd raw) := by
          cases hjt : jsTrim (jsTrimEnd raw) with
          | nil =>
            rw [hjt] at hd
            cases hd
          | cons c t =>
            rw [hjt] at hd
            injection hd with hd
            subst hd
            exact List.mem_cons_self _ _
        apply hashFree_iff.1 hhf
        rw [← hraweq, he]
        exact mem_jsTrim hhl
      · -- pass-through line: if the parser regex matched it, the formatter
        -- regex would have matched too
        rw [measureLineDurExpanded_eq]
        cases hmp : matchMeasureParser line with
        | none => rfl
        | some p =>
          exfalso
          rcases p with ⟨ds, between⟩
          have hline2 : line = jsTrimEnd raw := by
            rw [← hraweq]
            exact he
          have hnoh : '#' ∉ line := hashFree_iff.1 hhf
          have hsplit : splitInlineComment line = (line, none) :=
            splitInlineComment_none hnoh
          rw [← hline2, hsplit] at hd
          rw [show ((line, none) : Str × Option Str).1 = line from rfl] at hd
          obtain ⟨hcore, hlt⟩ := matchMeasureParser_inv hmp
          obtain ⟨_, _, _, hhead⟩ := matchMeasureCore_inv hcore
          have hjs : jsTrimStart line = line := by
            cases hl : line with
            | nil =>
              rw [hl] at hhead
              cases hhead
            | cons c t =>
              rw [hl] at hhead
              injection hhead with hc
              subst hc
              exact jsTrimStart_cons t (by decide)
          have hfmt := matchMeasureFmt_of_core
            (show matchMeasureCore (jsTrimStart line) = some (ds, between) by
              rw [hjs]; exact hcore)
            (hasLT_jsTrim hlt)
          rw [formatMeasureLine_eq, hfmt] at hd
          cases hd
    · rcases hrest with ⟨heq2, hcm⟩ | ⟨cm, hcm, heq2⟩
      · -- a formatted measure line with no inline comment: the parse of the
        -- raw line supplies the token conversion
        obtain ⟨hsic1, hnoh⟩ := splitInlineComment_none_inv hcm
        rw [hsic1] at hfm
        obtain ⟨ds, content, hfmt, _⟩ := formatMeasureLine_inv hfm
        obtain ⟨between0, hcore, _, _⟩ := matchMeasureFmt_inv hfmt
        have hcore' : matchMeasureCore (jsTrim raw) = some (ds, between0) :=
          hcore
        obtain ⟨_, _, _, hhead0⟩ := matchMeasureCore_inv hcore'
        have hsc : stripComment raw = raw := stripComment_eq_self (by
          rw [hhead0]; decide)
        have hhead : (jsTrim (stripComment raw)).head? = some 'm' := by
          rw [hsc]
          exact hhead0
        have htrack := head_m_not_track hhead
        obtain ⟨ds', between', hparser, hmte'⟩ :=
          parseBodyAux_measure_ok ((splitLines src).drop (k + 1)) none []
            hB raw hraw' hhead htrack
        rw [hsc] at hparser
        obtain ⟨hcore2, _⟩ := matchMeasureParser_inv hparser
        rw [hcore'] at hcore2
        injection hcore2 with hp2
        rw [Prod.mk.injEq] at hp2
        obtain ⟨hds, hbet⟩ := hp2
        subst hds
        subst hbet
        rw [tokens_if_eq] at hmte'
        rw [← hraweq, heq2]
        exact formatMeasureLine_expanded hfm hcore hmte'
      · -- a formatted measure line with an inline comment keeps its hash,
        -- contradicting hash-freedom
        exfalso
        unfold splitInlineComment at hcm
        cases hbr : breakAtHash (jsTrimEnd raw) with
        | none =>
          rw [hbr] at hcm
          cases hcm
        | some p =>
          rcases p with ⟨b, a⟩
          rw [hbr] at hcm
          rw [show ((b, some a) : Str × Option Str).2 = some a from rfl] at hcm
          injection hcm with hac
          obtain ⟨_, _, r', hr'⟩ := breakAtHash_some hbr
          apply hashFree_iff.1 hhf
          rw [← hraweq, heq2, ← hac, hr']
          exact List.mem_append_right _ (hash_mem_jsTrimEnd_hash r')

/-- C3, amendment witness: the minimal document parses and every hash-free
line of its formatter output is duration-expanded. -/
theorem C3_amended_witness :
    parses docMin = true ∧
    (∀ line ∈ splitLines (formatOtab docMin), hashFree line = true →
      measureLineDurExpanded line = true) :=
  ⟨by decide, C3_amended_duration_expansion.1 docMin (by decide)⟩

end Claims

end OTab